import Mathlib

/-!
# Verification of the cookbook incremental tree-rendering engine

This file is a shallow embedding, in Lean 4, of the program in `run.py`:
a static-site generator that renders a tree of `.cook` recipe files into a
mirrored tree of HTML pages.

Modelling conventions:

* Python strings are `List Char` (`Str` below); Python slicing `s[a:b]`
  becomes `take`/`drop`, which agree with Python's character-based
  slicing semantics, including out-of-range truncation.
* The output filesystem is an association list from *normalized segment
  paths* (the list of nonempty `/`-separated components of a POSIX path)
  to file contents.  Directories are implicit: a directory exists when
  some file lives strictly below it.  `os.makedirs` (whose
  `FileExistsError` is swallowed by the code) is therefore a no-op.
* The source filesystem is a separate inductive tree (`SrcTree`) mounted
  at the configured `RECIPE_DIR`; the engine only reads it.
* The external collaborators (the cooklang parser and the two Jinja
  templates) are opaque function parameters carried in a `Config`
  record, exactly as the spec treats them (fixed external contracts).
* Python exceptions become an explicit error component: each rendering
  function returns the sequence of filesystem effects it performed
  before returning or raising.
-/

namespace Cookbook

/-- Python strings, as lists of characters. -/
abbrev Str := List Char

/-- Python `s[:-n]` : drop the last `n` characters (empty when `n ≥ len`). -/
def pyDropEnd (n : Nat) (s : Str) : Str := s.take (s.length - n)

/-- Python `s[n:]`. -/
def pyDropStart (n : Nat) (s : Str) : Str := s.drop n

/-- Boolean string prefix test, modelling Python `str.startswith`. -/
def strStarts (p s : Str) : Bool := p.isPrefixOf s

/-- Boolean string suffix test, modelling Python `str.endswith`. -/
def strEnds (p s : Str) : Bool := p.isSuffixOf s

/-- Lexicographic `≤` on strings by character code, as Python compares
strings.  Used to model `list.sort()` / `sorted(...)`. -/
def strLe : Str → Str → Bool
  | [], _ => true
  | _ :: _, [] => false
  | a :: s, b :: t => if a = b then strLe s t else decide (a < b)

theorem strLe_total (a b : Str) : strLe a b = true ∨ strLe b a = true := by
  induction a generalizing b with
  | nil => left; rfl
  | cons x s ih =>
    cases b with
    | nil => right; rfl
    | cons y t =>
      by_cases hxy : x = y
      · subst hxy
        rcases ih t with h | h
        · left; simp [strLe, h]
        · right; simp [strLe, h]
      · rcases lt_trichotomy x y with h | h | h
        · left; simp [strLe, hxy, h]
        · exact absurd h hxy
        · right
          have : ¬ y = x := fun e => hxy e.symm
          simp [strLe, this, h]

/-! ## A stable sort modelling Python `sorted` / `list.sort`

Python's `sorted` is observably characterized by: the result is a
permutation of the input, it is non-decreasing for the key order, and it
is stable.  Any implementation with those properties models it; we use
insertion sort, inserting each new element *after* existing equal
elements (stability). -/

/-- Insert `a` into `l`, placing it before the first element strictly
greater than it (so after all equal elements: stable). -/
def insSorted (le : α → α → Bool) (a : α) : List α → List α
  | [] => [a]
  | b :: l => if le a b ∧ ¬ le b a then a :: b :: l else b :: insSorted le a l

/-- Stable sort by the boolean relation `le`, modelling Python `sorted`. -/
def pySorted (le : α → α → Bool) (l : List α) : List α :=
  l.foldl (fun acc a => insSorted le a acc) []

theorem insSorted_perm (le : α → α → Bool) (a : α) (l : List α) :
    (insSorted le a l).Perm (a :: l) := by
  induction l with
  | nil => exact List.Perm.refl _
  | cons b t ih =>
    unfold insSorted
    by_cases h : le a b ∧ ¬ le b a
    · simp [h]
    · simp only [if_neg h]
      exact ((ih.cons b).trans (List.Perm.swap a b t))

theorem pySorted_perm (le : α → α → Bool) (l : List α) : (pySorted le l).Perm l := by
  suffices h : ∀ acc : List α,
      (l.foldl (fun acc a => insSorted le a acc) acc).Perm (l.reverse ++ acc) by
    simpa using (h []).trans (by simpa using List.reverse_perm l)
  induction l with
  | nil => intro acc; simp
  | cons a t ih =>
    intro acc
    simp only [List.foldl_cons, List.reverse_cons, List.append_assoc]
    exact (ih (insSorted le a acc)).trans
      (List.Perm.append_left _ (by simpa using insSorted_perm le a acc))

theorem mem_pySorted (le : α → α → Bool) {l : List α} {x : α} :
    x ∈ pySorted le l ↔ x ∈ l := (pySorted_perm le l).mem_iff

theorem length_pySorted (le : α → α → Bool) (l : List α) :
    (pySorted le l).length = l.length := (pySorted_perm le l).length_eq

theorem insSorted_pairwise (le : α → α → Bool)
    (htot : ∀ a b, le a b = true ∨ le b a = true)
    (htr : ∀ a b c, le a b = true → le b c = true → le a c = true)
    (a : α) (l : List α) (h : l.Pairwise (fun x y => le x y = true)) :
    (insSorted le a l).Pairwise (fun x y => le x y = true) := by
  induction l with
  | nil => simpa [insSorted]
  | cons b t ih =>
    rcases List.pairwise_cons.1 h with ⟨hb, ht⟩
    unfold insSorted
    by_cases hc : le a b = true ∧ ¬ le b a = true
    · rw [if_pos hc]
      refine List.pairwise_cons.2 ⟨?_, h⟩
      intro y hy
      rcases List.mem_cons.1 hy with rfl | hy
      · exact hc.1
      · exact htr a b y hc.1 (hb y hy)
    · rw [if_neg hc]
      have hba : le b a = true := by
        rcases htot a b with hab | hba
        · by_cases hba : le b a = true
          · exact hba
          · exact absurd ⟨hab, by simpa using hba⟩ hc
        · exact hba
      refine List.pairwise_cons.2 ⟨?_, ih ht⟩
      intro y hy
      have hmem : y ∈ a :: t := (insSorted_perm le a t).mem_iff.1 hy
      rcases List.mem_cons.1 hmem with rfl | hyt
      · exact hba
      · exact hb y hyt

theorem pySorted_pairwise (le : α → α → Bool)
    (htot : ∀ a b, le a b = true ∨ le b a = true)
    (htr : ∀ a b c, le a b = true → le b c = true → le a c = true)
    (l : List α) : (pySorted le l).Pairwise (fun x y => le x y = true) := by
  suffices h : ∀ acc : List α, acc.Pairwise (fun x y => le x y = true) →
      (l.foldl (fun acc a => insSorted le a acc) acc).Pairwise
        (fun x y => le x y = true) by
    exact h [] (List.Pairwise.nil)
  induction l with
  | nil => intro acc hacc; simpa using hacc
  | cons a t ih =>
    intro acc hacc
    exact ih _ (insSorted_pairwise le htot htr a acc hacc)

/-- Two `le`-sorted lists that are permutations of each other are equal,
provided `le`-antisymmetry can only fail on `keyEq`-related pairs and
the first list is pairwise `keyEq`-distinct. -/
theorem sorted_perm_nodupkeys_eq (le : α → α → Bool)
    (keyEq : α → α → Prop)
    (hanti : ∀ a b, le a b = true → le b a = true → keyEq a b) :
    ∀ l₁ l₂ : List α, l₁.Perm l₂ →
      l₁.Pairwise (fun x y => le x y = true) →
      l₂.Pairwise (fun x y => le x y = true) →
      l₁.Pairwise (fun x y => ¬ keyEq x y) →
      l₁ = l₂ := by
  intro l₁
  induction l₁ with
  | nil => intro l₂ hp _ _ _; simpa using hp.symm.eq_nil
  | cons a t ih =>
    intro l₂ hp hs₁ hs₂ hk
    cases l₂ with
    | nil => exact absurd hp.eq_nil (by simp)
    | cons b t₂ =>
      rcases List.pairwise_cons.1 hs₁ with ⟨ha, ht⟩
      rcases List.pairwise_cons.1 hs₂ with ⟨hb, ht₂⟩
      rcases List.pairwise_cons.1 hk with ⟨hka, hkt⟩
      have hab : a = b := by
        have hmem : a ∈ b :: t₂ := hp.subset (List.mem_cons_self a t)
        rcases List.mem_cons.1 hmem with h | hmem₂
        · exact h
        · -- a occurs in t₂; then le b a; also a ≤ b since b ∈ a :: t
          have hba : le b a = true := hb a hmem₂
          have hmemb : b ∈ a :: t := hp.symm.subset (List.mem_cons_self b t₂)
          rcases List.mem_cons.1 hmemb with h | hmembt
          · exact h.symm
          · have hab' : le a b = true := ha b hmembt
            exact absurd (hanti a b hab' hba) (hka b hmembt)
      subst hab
      have : t = t₂ := ih t₂ hp.cons_inv ht ht₂ hkt
      rw [this]

/-! ## Parsed recipes (output of the external cooklang parser)

`Recipe.parse` is external (§6 of the spec): it yields metadata,
ingredients and steps, each ingredient carrying a `location` triple
`(step index, start offset, end offset)` into that step's original
text.  We model the parsed data exactly as `run.py` consumes it. -/

/-- An ingredient's source location: Python tuple
`(step_index, start_index, end_index)` (`ingr.location[0..2]`). -/
structure Loc where
  step : Nat
  start : Nat
  stop : Nat
deriving DecidableEq

/-- Python compares `location` tuples lexicographically; `sorted(...,
key=lambda x: x.location)` uses this order. -/
def locLe (a b : Loc) : Bool :=
  decide (a.step < b.step) ||
    (decide (a.step = b.step) &&
      (decide (a.start < b.start) ||
        (decide (a.start = b.start) && decide (a.stop ≤ b.stop))))


/-- `ingr.quantity`: an amount and an optional unit. -/
structure PQuantity where
  amount : Str
  unit : Option Str
deriving DecidableEq

/-- One parsed ingredient, as consumed by `highlight_steps`. -/
structure PIngredient where
  name : Str
  quantity : Option PQuantity
  location : Loc
deriving DecidableEq

/-- The sort key order actually passed to `sorted` at run.py line 194:
compare ingredients by their `location` tuples. -/
def ingrLe (a b : PIngredient) : Bool := locLe a.location b.location

/-- A parsed recipe (`Recipe.parse(txt)`). -/
structure PRecipe where
  metadata : List (Str × Str)
  ingredients : List PIngredient
  steps : List Str
deriving DecidableEq

/-! ## The Highlighter (`highlight_steps`, run.py lines 186-210) -/

def pre_name : Str := "<span class=ingr-name-inline>".toList
def post_name : Str := "</span>".toList
def pre_quantity : Str := "<span class=ingr-quantity-inline>(".toList
def post_quantity : Str := ")</span>".toList

/-- The `quantity_str` built at run.py lines 201-206.  Python truthiness:
`if ingr.quantity:` is the `Option` being `some`; `if
ingr.quantity.unit:` is false for both `None` and the empty string. -/
def quantity_str : Option PQuantity → Str
  | none => []
  | some q =>
      pre_quantity ++ q.amount ++
        (match q.unit with
         | some u => if u = [] then [] else ' ' :: u
         | none => []) ++
      post_quantity

/-- The full markup fragment inserted for one ingredient (the
interpolated string at run.py line 207, minus the surrounding slices of
the old step text). -/
def markupOf (g : PIngredient) : Str :=
  pre_name ++ g.name ++ post_name ++ quantity_str g.quantity

/-- One iteration of the loop at run.py lines 194-209: splice the markup
for ingredient `g` into the current text of step `g.location.step`.
Python's `hl_steps[i]` / `hl_steps[i] = ...` are modelled with
`getD`/`set`; for the in-range indices guaranteed by the parser contract
(§6) these agree with Python indexing.  (Line 200 of the source builds a
dead `"TODO"` string that line 207 immediately overwrites; it performs
no observable effect and is omitted.) -/
def applyIngr (hl : List Str) (g : PIngredient) : List Str :=
  let old := hl.getD g.location.step []
  hl.set g.location.step
    (old.take g.location.start ++ markupOf g ++ old.drop g.location.stop)

/-- run.py lines 186-210.  `hl_steps = steps` makes `hl_steps` an alias
of the caller's list (see `highlight_steps_stepsAfterCall`); the loop
runs over `reversed(sorted(ingredients, key=lambda x: x.location))`. -/
def highlight_steps (ingredients : List PIngredient) (steps : List Str) : List Str :=
  ((pySorted ingrLe ingredients).reverse).foldl applyIngr steps

/-- Because `hl_steps = steps` binds the very list object the caller
passed and the loop assigns `hl_steps[step_index] = new_step` in place,
the caller's `steps` list after `highlight_steps` returns holds exactly
the returned contents.  This definition names that fact for the
frame-effect claims. -/
def stepsAfterCall (ingredients : List PIngredient) (steps : List Str) : List Str :=
  highlight_steps ingredients steps

example :
    highlight_steps
      [⟨"flour".toList, some ⟨"2".toList, some "cups".toList⟩, ⟨0, 4, 9⟩⟩]
      ["Mix flour with water.".toList] =
    [("Mix <span class=ingr-name-inline>flour</span>" ++
      "<span class=ingr-quantity-inline>(2 cups)</span> with water.").toList] := by
  decide

/-! ## Properties of the location order -/

theorem locLe_total (a b : Loc) : locLe a b = true ∨ locLe b a = true := by
  simp only [locLe, Bool.or_eq_true, Bool.and_eq_true, decide_eq_true_eq]
  omega

theorem locLe_trans (a b c : Loc) (h₁ : locLe a b = true) (h₂ : locLe b c = true) :
    locLe a c = true := by
  simp only [locLe, Bool.or_eq_true, Bool.and_eq_true, decide_eq_true_eq] at *
  omega

theorem locLe_antisymm (a b : Loc) (h₁ : locLe a b = true) (h₂ : locLe b a = true) :
    a = b := by
  cases a; cases b
  simp only [locLe, Bool.or_eq_true, Bool.and_eq_true, decide_eq_true_eq] at *
  simp only [Loc.mk.injEq]
  omega

theorem ingrLe_total (a b : PIngredient) : ingrLe a b = true ∨ ingrLe b a = true :=
  locLe_total a.location b.location

theorem ingrLe_trans (a b c : PIngredient) (h₁ : ingrLe a b = true)
    (h₂ : ingrLe b c = true) : ingrLe a c = true :=
  locLe_trans a.location b.location c.location h₁ h₂

theorem ingrLe_antisymm (a b : PIngredient) (h₁ : ingrLe a b = true)
    (h₂ : ingrLe b a = true) : a.location = b.location :=
  locLe_antisymm a.location b.location h₁ h₂

/-! ## Splicing one step's text

`applyIngr` touches exactly one index of the step list; projecting the
whole fold onto a fixed step index `t` leaves a fold of plain text edits
over the ingredients of that step. -/

/-- The single-text edit performed at run.py line 207:
`old_step[0:start] + markup + old_step[end:]`. -/
def editText (s : Str) (g : PIngredient) : Str :=
  s.take g.location.start ++ markupOf g ++ s.drop g.location.stop

theorem applyIngr_eq_set (hl : List Str) (g : PIngredient) :
    applyIngr hl g =
      hl.set g.location.step (editText (hl.getD g.location.step []) g) := rfl

theorem getD_set_self {l : List Str} {i : Nat} {x : Str} (h : i < l.length) :
    (l.set i x).getD i [] = x := by
  simp [List.getD, List.getElem?_set_self, h]

theorem getD_set_ne {l : List Str} {i j : Nat} {x : Str} (h : i ≠ j) :
    (l.set i x).getD j [] = l.getD j [] := by
  simp [List.getD, List.getElem?_set_ne h]

theorem length_foldl_applyIngr (l : List PIngredient) (steps : List Str) :
    (l.foldl applyIngr steps).length = steps.length := by
  induction l generalizing steps with
  | nil => rfl
  | cons g rest ih =>
    simp only [List.foldl_cons]
    rw [ih, applyIngr_eq_set, List.length_set]

theorem foldl_applyIngr_getD_ne (l : List PIngredient) (steps : List Str)
    (j : Nat) (h : ∀ g ∈ l, g.location.step ≠ j) :
    (l.foldl applyIngr steps).getD j [] = steps.getD j [] := by
  induction l generalizing steps with
  | nil => rfl
  | cons g rest ih =>
    simp only [List.foldl_cons]
    rw [ih _ (fun g' hg' => h g' (List.mem_cons_of_mem g hg')),
      applyIngr_eq_set, getD_set_ne (h g (List.mem_cons_self g rest))]

/-- Projection of the whole `highlight_steps` fold onto one step index:
only that step's ingredients act, each through `editText`. -/
theorem foldl_applyIngr_getD (l : List PIngredient) (steps : List Str)
    (t : Nat) (ht : t < steps.length) :
    (l.foldl applyIngr steps).getD t [] =
      (l.filter (fun g => decide (g.location.step = t))).foldl editText
        (steps.getD t []) := by
  induction l generalizing steps with
  | nil => rfl
  | cons g rest ih =>
    simp only [List.foldl_cons]
    by_cases hg : g.location.step = t
    · rw [List.filter_cons_of_pos (by simp [hg]), List.foldl_cons,
        applyIngr_eq_set, ih _ (by simpa using ht), hg,
        getD_set_self ht]
    · rw [List.filter_cons_of_neg (by simp [hg]),
        applyIngr_eq_set, ih _ (by simpa using ht), getD_set_ne hg]

/-- Total length of the markup fragments of a task list. -/
def sumMarks (gs : List PIngredient) : Nat :=
  (gs.map (fun g => (markupOf g).length)).sum

/-- Total length of the replaced source spans of a task list. -/
def sumSpans (gs : List PIngredient) : Nat :=
  (gs.map (fun g => g.location.stop - g.location.start)).sum

/-- The expected result of applying a *descending, pairwise
non-overlapping* list of edits: the surviving source fragments
interleaved with the markup fragments. -/
def spliceDesc (text : Str) : List PIngredient → Str
  | [] => text
  | g :: gs =>
      spliceDesc (text.take g.location.start) gs ++ markupOf g ++
        text.drop g.location.stop

/-- Edits confined to a prefix commute with an appended suffix. -/
theorem foldl_editText_append (gs : List PIngredient) (A B : Str)
    (hdesc : gs.Pairwise (fun a b => b.location.stop ≤ a.location.start))
    (hspan : ∀ g ∈ gs, g.location.start ≤ g.location.stop)
    (hbound : ∀ g ∈ gs, g.location.stop ≤ A.length) :
    gs.foldl editText (A ++ B) = gs.foldl editText A ++ B := by
  induction gs generalizing A with
  | nil => rfl
  | cons g rest ih =>
    rcases List.pairwise_cons.1 hdesc with ⟨hg, hrest⟩
    have hsg : g.location.start ≤ g.location.stop :=
      hspan g (List.mem_cons_self g rest)
    have hbg : g.location.stop ≤ A.length := hbound g (List.mem_cons_self g rest)
    have hstep : editText (A ++ B) g = editText A g ++ B := by
      unfold editText
      rw [List.take_append_of_le_length (le_trans hsg hbg),
        List.drop_append_of_le_length hbg]
      simp
    have hlen : g.location.start ≤ (editText A g).length := by
      unfold editText
      simp only [List.length_append, List.length_take, List.length_drop]
      omega
    simp only [List.foldl_cons, hstep]
    exact ih (editText A g) hrest
      (fun g' h => hspan g' (List.mem_cons_of_mem g h))
      (fun g' h => le_trans (hg g' h) hlen)

/-- A descending, pairwise non-overlapping fold of `editText` equals the
interleaved splice. -/
theorem foldl_editText_eq_spliceDesc (gs : List PIngredient) (text : Str)
    (hdesc : gs.Pairwise (fun a b => b.location.stop ≤ a.location.start))
    (hspan : ∀ g ∈ gs, g.location.start ≤ g.location.stop)
    (hbound : ∀ g ∈ gs, g.location.stop ≤ text.length) :
    gs.foldl editText text = spliceDesc text gs := by
  induction gs generalizing text with
  | nil => rfl
  | cons g rest ih =>
    rcases List.pairwise_cons.1 hdesc with ⟨hg, hrest⟩
    have hsg : g.location.start ≤ g.location.stop :=
      hspan g (List.mem_cons_self g rest)
    have hbg : g.location.stop ≤ text.length := hbound g (List.mem_cons_self g rest)
    have hA : (text.take g.location.start).length = g.location.start := by
      simp only [List.length_take]
      omega
    have hrestspan : ∀ g' ∈ rest, g'.location.start ≤ g'.location.stop :=
      fun g' h => hspan g' (List.mem_cons_of_mem g h)
    have hrestbound : ∀ g' ∈ rest,
        g'.location.stop ≤ (text.take g.location.start).length := by
      intro g' h; rw [hA]; exact hg g' h
    simp only [List.foldl_cons]
    have : editText text g =
        text.take g.location.start ++ (markupOf g ++ text.drop g.location.stop) := by
      unfold editText; simp
    rw [this, foldl_editText_append rest _ _ hrest hrestspan hrestbound,
      ih _ hrest hrestspan hrestbound]
    simp [spliceDesc]

/-- Length bookkeeping for the splice, in subtraction-free form. -/
theorem spliceDesc_length (gs : List PIngredient) (text : Str)
    (hdesc : gs.Pairwise (fun a b => b.location.stop ≤ a.location.start))
    (hspan : ∀ g ∈ gs, g.location.start ≤ g.location.stop)
    (hbound : ∀ g ∈ gs, g.location.stop ≤ text.length) :
    (spliceDesc text gs).length + sumSpans gs = text.length + sumMarks gs := by
  induction gs generalizing text with
  | nil => simp [spliceDesc, sumSpans, sumMarks]
  | cons g rest ih =>
    rcases List.pairwise_cons.1 hdesc with ⟨hg, hrest⟩
    have hsg : g.location.start ≤ g.location.stop :=
      hspan g (List.mem_cons_self g rest)
    have hbg : g.location.stop ≤ text.length := hbound g (List.mem_cons_self g rest)
    have hA : (text.take g.location.start).length = g.location.start := by
      simp only [List.length_take]; omega
    have hih := ih (text.take g.location.start) hrest
      (fun g' h => hspan g' (List.mem_cons_of_mem g h))
      (fun g' h => by rw [hA]; exact hg g' h)
    simp only [spliceDesc, List.length_append, List.length_drop,
      sumSpans, sumMarks, List.map_cons, List.sum_cons] at *
    omega

/-- The position at which an ingredient's markup lands, computed from the
original offsets: its own start offset, shifted by the length change of
every edit at a strictly lower start offset. -/
def posBelow (gs : List PIngredient) (g : PIngredient) : Nat :=
  g.location.start +
      sumMarks (gs.filter (fun h => decide (h.location.start < g.location.start))) -
    sumSpans (gs.filter (fun h => decide (h.location.start < g.location.start)))

/-- Each task's markup fragment sits, inside the splice, exactly at the
position reconstructable from the original offsets. -/
theorem spliceDesc_extract (gs : List PIngredient) (text : Str)
    (hdesc : gs.Pairwise (fun a b => b.location.stop ≤ a.location.start))
    (hspan : ∀ g ∈ gs, g.location.start < g.location.stop)
    (hbound : ∀ g ∈ gs, g.location.stop ≤ text.length) :
    ∀ g ∈ gs,
      ((spliceDesc text gs).drop (posBelow gs g)).take (markupOf g).length =
          markupOf g ∧
        posBelow gs g + (markupOf g).length ≤ (spliceDesc text gs).length := by
  induction gs generalizing text with
  | nil => intro g h; exact absurd h (List.not_mem_nil g)
  | cons g₀ rest ih =>
    rcases List.pairwise_cons.1 hdesc with ⟨hg₀, hrest⟩
    have hsg : g₀.location.start < g₀.location.stop :=
      hspan g₀ (List.mem_cons_self g₀ rest)
    have hbg : g₀.location.stop ≤ text.length := hbound g₀ (List.mem_cons_self g₀ rest)
    have hA : (text.take g₀.location.start).length = g₀.location.start := by
      simp only [List.length_take]; omega
    have hrestspan : ∀ g' ∈ rest, g'.location.start < g'.location.stop :=
      fun g' h => hspan g' (List.mem_cons_of_mem g₀ h)
    have hrestbound : ∀ g' ∈ rest,
        g'.location.stop ≤ (text.take g₀.location.start).length := by
      intro g' h; rw [hA]; exact hg₀ g' h
    -- every element of `rest` starts strictly below g₀.start
    have hbelow : ∀ g' ∈ rest, g'.location.start < g₀.location.start := by
      intro g' h
      exact lt_of_lt_of_le (hrestspan g' h) (hg₀ g' h)
    intro g hmem
    rcases List.mem_cons.1 hmem with rfl | hmem₂
    · -- the head task: its markup sits right after the spliced prefix
      have hfilter :
          (g :: rest).filter
              (fun h => decide (h.location.start < g.location.start)) = rest := by
        rw [List.filter_cons_of_neg (by simp)]
        exact List.filter_eq_self.2 (fun g' h => by
          simp [hbelow g' h])
      have hlen := spliceDesc_length rest (text.take g.location.start) hrest
        (fun g' h => le_of_lt (hrestspan g' h)) hrestbound
      have hpos : posBelow (g :: rest) g =
          (spliceDesc (text.take g.location.start) rest).length := by
        unfold posBelow
        rw [hfilter]
        rw [hA] at hlen
        omega
      constructor
      · rw [hpos]
        simp only [spliceDesc, List.append_assoc]
        rw [List.drop_left, List.take_left]
      · rw [hpos]
        simp only [spliceDesc, List.length_append]
        omega
    · -- a task of the tail: it lives inside the spliced prefix
      have hfg : g.location.stop ≤ g₀.location.start := hg₀ g hmem₂
      have hfilter :
          (g₀ :: rest).filter
              (fun h => decide (h.location.start < g.location.start)) =
            rest.filter (fun h => decide (h.location.start < g.location.start)) := by
        refine List.filter_cons_of_neg ?_
        have : ¬ g₀.location.start < g.location.start := by
          have := hrestspan g hmem₂
          omega
        simp [this]
      have hpos : posBelow (g₀ :: rest) g = posBelow rest g := by
        unfold posBelow
        rw [hfilter]
      rcases ih (text.take g₀.location.start) hrest hrestspan hrestbound g hmem₂
        with ⟨hex, hle⟩
      refine ⟨?_, ?_⟩
      · rw [hpos]
        simp only [spliceDesc, List.append_assoc]
        rw [List.drop_append_of_le_length (by omega),
          List.take_append_of_le_length (by simp [List.length_drop]; omega)]
        exact hex
      · rw [hpos]
        simp only [spliceDesc, List.length_append]
        omega

/-- The position, reconstructable from the original `(start, end)`
offsets alone, at which ingredient `g`'s markup lands inside its step's
final text: its own start offset, shifted by the net length change of
every same-step edit at a strictly lower start offset. -/
def ingrPos (ings : List PIngredient) (g : PIngredient) : Nat :=
  g.location.start +
      sumMarks (ings.filter (fun h =>
        decide (h.location.start < g.location.start) &&
          decide (h.location.step = g.location.step))) -
    sumSpans (ings.filter (fun h =>
        decide (h.location.start < g.location.start) &&
          decide (h.location.step = g.location.step)))

theorem sumMarks_of_perm {l₁ l₂ : List PIngredient} (h : l₁.Perm l₂) :
    sumMarks l₁ = sumMarks l₂ := (h.map _).sum_eq

theorem sumSpans_of_perm {l₁ l₂ : List PIngredient} (h : l₁.Perm l₂) :
    sumSpans l₁ = sumSpans l₂ := (h.map _).sum_eq

/-- C1.  For every ingredient list whose occurrence spans are
non-overlapping within each step (and in range for their steps),
`highlight_steps` produces for each step a text in which every
ingredient's display name appears wrapped in the name markup at a
position reconstructable from that ingredient's original
`(start, end)` offsets (`ingrPos`), independent of the order in which
the ingredients are given — because the loop applies tasks in
descending start-offset order per step. -/
theorem c1_highlight_offset_correctness
    (ings : List PIngredient) (steps : List Str)
    (hstep : ∀ g ∈ ings, g.location.step < steps.length)
    (hspan : ∀ g ∈ ings, g.location.start < g.location.stop)
    (hbound : ∀ g ∈ ings,
      g.location.stop ≤ (steps.getD g.location.step []).length)
    (hdisj : ings.Pairwise (fun a b => a.location.step = b.location.step →
      a.location.stop ≤ b.location.start ∨ b.location.stop ≤ a.location.start)) :
    (∀ g ∈ ings,
        markupOf g = pre_name ++ g.name ++ post_name ++ quantity_str g.quantity ∧
        (((highlight_steps ings steps).getD g.location.step []).drop
            (ingrPos ings g)).take (markupOf g).length = markupOf g) ∧
      ∀ ings₂ : List PIngredient, ings₂.Perm ings →
        highlight_steps ings₂ steps = highlight_steps ings steps := by
  have hdisj_symm : ∀ {a b : PIngredient},
      (a.location.step = b.location.step →
        a.location.stop ≤ b.location.start ∨ b.location.stop ≤ a.location.start) →
      (b.location.step = a.location.step →
        b.location.stop ≤ a.location.start ∨ a.location.stop ≤ b.location.start) :=
    fun h he => (h he.symm).symm
  -- the processed list: sorted by location, then reversed
  set L : List PIngredient := (pySorted ingrLe ings).reverse with hL
  have hLperm : L.Perm ings :=
    (List.reverse_perm _).trans (pySorted_perm ingrLe ings)
  have hsorted : (pySorted ingrLe ings).Pairwise (fun a b => ingrLe a b = true) :=
    pySorted_pairwise ingrLe ingrLe_total ingrLe_trans ings
  have hLge : L.Pairwise (fun a b => ingrLe b a = true) :=
    List.pairwise_reverse.2 hsorted
  have hLdisj : L.Pairwise (fun a b => a.location.step = b.location.step →
      a.location.stop ≤ b.location.start ∨ b.location.stop ≤ a.location.start) :=
    (hLperm.pairwise_iff (fun h => hdisj_symm h)).2 hdisj
  have hhl : highlight_steps ings steps = L.foldl applyIngr steps := rfl
  constructor
  · intro g hg
    refine ⟨rfl, ?_⟩
    set t := g.location.step with ht
    set gs : List PIngredient :=
      L.filter (fun h => decide (h.location.step = t)) with hgs
    have hmem_gs : ∀ h ∈ gs, h ∈ ings ∧ h.location.step = t := by
      intro h hh
      rcases List.mem_filter.1 hh with ⟨hmem, hpred⟩
      exact ⟨hLperm.subset hmem, by simpa using hpred⟩
    have hdesc : gs.Pairwise (fun a b =>
        b.location.stop ≤ a.location.start) := by
      refine ((hLge.and hLdisj).filter _).imp_of_mem ?_
      intro a b ha hb hab
      rcases hab with ⟨hle, hdj⟩
      rcases hmem_gs a ha with ⟨hains, hat⟩
      rcases hmem_gs b hb with ⟨hbins, hbt⟩
      have hsa := hspan a hains
      have hsb := hspan b hbins
      have hdj' := hdj (hat.trans hbt.symm)
      simp only [ingrLe, locLe, Bool.or_eq_true, Bool.and_eq_true,
        decide_eq_true_eq] at hle
      omega
    have hspangs : ∀ h ∈ gs, h.location.start < h.location.stop :=
      fun h hh => hspan h (hmem_gs h hh).1
    have hboundgs : ∀ h ∈ gs, h.location.stop ≤ (steps.getD t []).length := by
      intro h hh
      have := hbound h (hmem_gs h hh).1
      rwa [(hmem_gs h hh).2] at this
    have hproj : (highlight_steps ings steps).getD t [] =
        gs.foldl editText (steps.getD t []) := by
      rw [hhl]
      exact foldl_applyIngr_getD L steps t (ht ▸ hstep g hg)
    have hsplice : gs.foldl editText (steps.getD t []) =
        spliceDesc (steps.getD t []) gs :=
      foldl_editText_eq_spliceDesc gs _ hdesc
        (fun h hh => le_of_lt (hspangs h hh)) hboundgs
    have hggs : g ∈ gs :=
      List.mem_filter.2 ⟨hLperm.mem_iff.2 hg, by simp⟩
    have hext := (spliceDesc_extract gs (steps.getD t []) hdesc hspangs
      hboundgs g hggs).1
    have hposeq : posBelow gs g = ingrPos ings g := by
      unfold posBelow ingrPos
      rw [hgs, List.filter_filter]
      have hfp : (L.filter (fun h =>
          decide (h.location.start < g.location.start) &&
            decide (h.location.step = t))).Perm
          (ings.filter (fun h =>
          decide (h.location.start < g.location.start) &&
            decide (h.location.step = t))) := hLperm.filter _
      rw [sumMarks_of_perm hfp, sumSpans_of_perm hfp, ht]
    rw [hproj, hsplice, ← hposeq]
    exact hext
  · -- order independence: any permutation of the input sorts identically
    intro ings₂ hperm₂
    have hkeys : ings.Pairwise (fun a b => ¬ a.location = b.location) := by
      refine hdisj.imp_of_mem ?_
      intro a b ha hb hdj hloc
      have hsa := hspan a ha
      have hsb := hspan b hb
      have h1 : a.location.step = b.location.step := by rw [hloc]
      have h2 : a.location.start = b.location.start := by rw [hloc]
      have h3 : a.location.stop = b.location.stop := by rw [hloc]
      rcases hdj h1 with h | h <;> omega
    have hkeyne_symm : ∀ {a b : PIngredient},
        ¬ a.location = b.location → ¬ b.location = a.location :=
      fun h he => h he.symm
    have hkeys₂ : (pySorted ingrLe ings₂).Pairwise
        (fun a b => ¬ a.location = b.location) :=
      ((pySorted_perm ingrLe ings₂).pairwise_iff
        (fun h => hkeyne_symm h)).2
        ((hperm₂.pairwise_iff (fun h => hkeyne_symm h)).2 hkeys)
    have hsortedeq : pySorted ingrLe ings₂ = pySorted ingrLe ings := by
      refine sorted_perm_nodupkeys_eq ingrLe
        (fun a b => a.location = b.location) ingrLe_antisymm _ _
        ?_ (pySorted_pairwise ingrLe ingrLe_total ingrLe_trans ings₂)
        (pySorted_pairwise ingrLe ingrLe_total ingrLe_trans ings) hkeys₂
      exact (pySorted_perm ingrLe ings₂).trans
        (hperm₂.trans (pySorted_perm ingrLe ings).symm)
    unfold highlight_steps
    rw [hsortedeq]

/-- Witness for C1: a concrete two-ingredient step, with the ingredients
given in ascending offset order (sorting and reversal really act). -/
theorem c1_highlight_offset_correctness_witness :
    ((∀ g ∈ ([⟨"flour".toList, some ⟨"2".toList, some "cups".toList⟩, ⟨0, 4, 9⟩⟩,
          ⟨"sugar".toList, none, ⟨0, 14, 19⟩⟩] : List PIngredient),
        g.location.step < 1 ∧ g.location.start < g.location.stop ∧
          g.location.stop ≤ 23) ∧
      ([⟨"flour".toList, some ⟨"2".toList, some "cups".toList⟩, ⟨0, 4, 9⟩⟩,
          ⟨"sugar".toList, none, ⟨0, 14, 19⟩⟩] : List PIngredient).Pairwise
        (fun a b => a.location.step = b.location.step →
          a.location.stop ≤ b.location.start ∨
            b.location.stop ≤ a.location.start)) ∧
    ((∀ g ∈ ([⟨"flour".toList, some ⟨"2".toList, some "cups".toList⟩, ⟨0, 4, 9⟩⟩,
          ⟨"sugar".toList, none, ⟨0, 14, 19⟩⟩] : List PIngredient),
        markupOf g = pre_name ++ g.name ++ post_name ++ quantity_str g.quantity ∧
        (((highlight_steps
              [⟨"flour".toList, some ⟨"2".toList, some "cups".toList⟩, ⟨0, 4, 9⟩⟩,
                ⟨"sugar".toList, none, ⟨0, 14, 19⟩⟩]
              ["mix flour and sugar now".toList]).getD g.location.step []).drop
            (ingrPos
              [⟨"flour".toList, some ⟨"2".toList, some "cups".toList⟩, ⟨0, 4, 9⟩⟩,
                ⟨"sugar".toList, none, ⟨0, 14, 19⟩⟩] g)).take
          (markupOf g).length = markupOf g) ∧
      ∀ ings₂ : List PIngredient,
        ings₂.Perm
          [⟨"flour".toList, some ⟨"2".toList, some "cups".toList⟩, ⟨0, 4, 9⟩⟩,
            ⟨"sugar".toList, none, ⟨0, 14, 19⟩⟩] →
        highlight_steps ings₂ ["mix flour and sugar now".toList] =
          highlight_steps
            [⟨"flour".toList, some ⟨"2".toList, some "cups".toList⟩, ⟨0, 4, 9⟩⟩,
              ⟨"sugar".toList, none, ⟨0, 14, 19⟩⟩]
            ["mix flour and sugar now".toList]) :=
  ⟨⟨by decide, by decide⟩,
    c1_highlight_offset_correctness _ _ (by decide) (by decide) (by decide)
      (by decide)⟩

/-- C4 (amended).  `highlight_steps` computes a steps sequence of the
same length in which only the indices mentioned by some ingredient's
location are replaced, and it never touches the ingredient list; but it
is not pure: `hl_steps = steps` aliases the caller's list and the loop
assigns into it, so the caller's `steps` after the call
(`stepsAfterCall`) holds the returned contents rather than the original
ones. -/
theorem c4_highlight_frame_amended (ings : List PIngredient) (steps : List Str) :
    stepsAfterCall ings steps = highlight_steps ings steps ∧
      (highlight_steps ings steps).length = steps.length ∧
      ∀ j : Nat, (∀ g ∈ ings, g.location.step ≠ j) →
        (highlight_steps ings steps).getD j [] = steps.getD j [] := by
  refine ⟨rfl, length_foldl_applyIngr _ _, ?_⟩
  intro j hj
  refine foldl_applyIngr_getD_ne _ _ j ?_
  intro g hgL
  exact hj g (((List.reverse_perm _).trans (pySorted_perm ingrLe ings)).subset hgL)

/-- Witness for the amended C4 at a concrete input. -/
theorem c4_highlight_frame_amended_witness :
    stepsAfterCall [⟨"flour".toList, none, ⟨0, 4, 9⟩⟩]
        ["mix flour".toList, "bake".toList] =
      highlight_steps [⟨"flour".toList, none, ⟨0, 4, 9⟩⟩]
        ["mix flour".toList, "bake".toList] ∧
    (highlight_steps [⟨"flour".toList, none, ⟨0, 4, 9⟩⟩]
        ["mix flour".toList, "bake".toList]).length = 2 ∧
    (highlight_steps [⟨"flour".toList, none, ⟨0, 4, 9⟩⟩]
        ["mix flour".toList, "bake".toList]).getD 1 [] = "bake".toList := by
  rcases c4_highlight_frame_amended [⟨"flour".toList, none, ⟨0, 4, 9⟩⟩]
    ["mix flour".toList, "bake".toList] with ⟨h1, h2, h3⟩
  exact ⟨h1, h2, h3 1 (by decide)⟩

/-- C4 counterexample.  The claim says the caller's `steps` remain
unchanged after the call.  But `hl_steps = steps` (run.py line 193) binds
the very list object the caller passed and line 209 assigns into it, so
after the call the caller's list holds the returned contents
(`stepsAfterCall`) — which differ from the original on any input with a
resolvable ingredient occurrence. -/
theorem c4_counterexample :
    stepsAfterCall [⟨"flour".toList, none, ⟨0, 4, 9⟩⟩] ["mix flour".toList] ≠
      ["mix flour".toList] := by decide

/-! ## PathMapper: `split_path` (run.py lines 213-225)

`split_path` repeatedly applies `os.path.split`.  We first model POSIX
`os.path.split`: split at the last `/`; the head keeps its trailing
slashes only when it consists entirely of slashes. -/

/-- Index of the last `'/'` in a string, if any. -/
def lastSlashIdx : Str → Option Nat
  | [] => none
  | c :: rest =>
      match lastSlashIdx rest with
      | some i => some (i + 1)
      | none => if c = '/' then some 0 else none

/-- Remove trailing `'/'` characters (CPython's `head.rstrip(sep)`). -/
def dropTrailingSlashes (s : Str) : Str :=
  (s.reverse.dropWhile (fun c => c = '/')).reverse

/-- POSIX `os.path.split`. -/
def pySplit (p : Str) : Str × Str :=
  match lastSlashIdx p with
  | none => ([], p)
  | some i =>
      (if (p.take (i + 1)).all (fun c => c = '/') then p.take (i + 1)
       else dropTrailingSlashes (p.take (i + 1)),
       p.drop (i + 1))

/-- The `while` loop of `split_path`, with explicit fuel.  One character
is consumed per iteration on every input the loop terminates on; inputs
on which the Python loop diverges (heads made only of two or more
slashes) exhaust the fuel and return the accumulator. -/
def split_path_go : Nat → Str → List Str → List Str
  | 0, _, acc => acc
  | fuel + 1, p, acc =>
      let ht := pySplit p
      if ht.1 ≠ [] ∧ ht.1 ≠ ['/'] then split_path_go fuel ht.1 (ht.2 :: acc)
      else if ht.1 = ['/'] then ht.1 :: ht.2 :: acc
      else ht.2 :: acc

/-- run.py lines 213-225: the breadcrumb computation.  Takes a path
below `RECIPE_DIR` and returns the list of folder names from
`RECIPE_DIR` down to it. -/
def split_path (p : Str) : List Str := split_path_go (p.length + 1) p []

/-- Sanity: the docstring-adjacent example. -/
example : split_path "bread/quickbreads".toList =
    ["bread".toList, "quickbreads".toList] := by decide

/-- C6 counterexample.  At the tree root, `render_dir` computes
`rel_path = path[len(RECIPE_DIR) + 1:] = ""`, and the breadcrumb
computation on `""` yields `[""]` — a one-element list holding the empty
folder name — not the empty sequence the claim states. -/
theorem c6_counterexample :
    pyDropStart ("/recipes".toList.length + 1) "/recipes".toList = [] ∧
      split_path [] = [([] : Str)] ∧ [([] : Str)] ≠ ([] : List Str) := by
  decide

/-- C6 (amended).  Breadcrumb computation applied to the tree root
itself (whose tree-relative path, `path[len(RECIPE_DIR) + 1:]`, is the
empty string for every root) yields the one-element sequence containing
the empty folder name. -/
theorem c6_breadcrumbs_at_root (root : Str) :
    split_path (pyDropStart (root.length + 1) root) = [([] : Str)] := by
  have h : pyDropStart (root.length + 1) root = [] :=
    List.drop_eq_nil_of_le (Nat.le_succ _)
  rw [h]
  decide

/-! ## Paths and the output filesystem

The output tree is modelled as an association list from *normalized
segment paths* — the list of nonempty `/`-separated components, which is
how the POSIX kernel resolves a path string (runs of `/` collapse) — to
file contents.  Directories are implicit: a directory exists when some
file lives strictly below its path. -/

/-- A normalized path: its nonempty components. -/
abbrev SPath := List Str

theorem length_dropWhile_le (P : Char → Bool) (l : List Char) :
    (l.dropWhile P).length ≤ l.length := by
  induction l with
  | nil => simp [List.dropWhile]
  | cons c rest ih =>
    rw [List.dropWhile_cons]
    by_cases h : P c
    · simp only [h, if_true]
      exact le_trans ih (Nat.le_succ _)
    · simp [h]

/-- Segment accumulator: `cur` holds the (reversed) characters of the
component being read.  Structurally recursive, so it evaluates by kernel
reduction. -/
def segsGo (cur : Str) : Str → List Str
  | [] => if cur = [] then [] else [cur.reverse]
  | c :: rest =>
      if c = '/' then
        if cur = [] then segsGo [] rest else cur.reverse :: segsGo [] rest
      else segsGo (c :: cur) rest

/-- The nonempty `/`-separated components of a path string. -/
def segs (p : Str) : List Str := segsGo [] p

theorem segs_nil : segs [] = [] := rfl

theorem segsGo_append_slash (a b : Str) :
    ∀ cur : Str, segsGo cur (a ++ '/' :: b) = segsGo cur a ++ segsGo [] b := by
  induction a with
  | nil =>
    intro cur
    by_cases hc : cur = []
    · simp [segsGo, hc]
    · simp [segsGo, hc]
  | cons c rest ih =>
    intro cur
    by_cases hcs : c = '/'
    · by_cases hc : cur = []
      · simp only [List.cons_append, segsGo, if_pos hcs, if_pos hc]
        exact ih []
      · simp only [List.cons_append, segsGo, if_pos hcs, if_neg hc, List.append_eq]
        rw [ih []]
    · simp only [List.cons_append, segsGo, if_neg hcs]
      exact ih (c :: cur)

/-- Splitting across an explicit separator: the key algebraic law of
`segs`. -/
theorem segs_append_slash (a b : Str) : segs (a ++ '/' :: b) = segs a ++ segs b :=
  segsGo_append_slash a b []

theorem segsGo_no_slash (n : Str) (hc : ∀ ch ∈ n, ch ≠ '/') :
    ∀ cur : Str, segsGo cur n =
      if cur.reverse ++ n = [] then [] else [cur.reverse ++ n] := by
  induction n with
  | nil =>
    intro cur
    by_cases h : cur = []
    · simp [segsGo, h]
    · have : cur.reverse ≠ [] := by simpa using h
      simp [segsGo, h, this]
  | cons c rest ih =>
    intro cur
    have hcs : ¬ c = '/' := hc c (List.mem_cons_self c rest)
    simp only [segsGo, if_neg hcs]
    rw [ih (fun ch h => hc ch (List.mem_cons_of_mem c h)) (c :: cur)]
    have h1 : (c :: cur).reverse ++ rest = cur.reverse ++ c :: rest := by
      simp
    have h2 : cur.reverse ++ c :: rest ≠ [] := by simp
    rw [h1, if_neg h2]

/-- A name with no separator, as a path, is a single component. -/
theorem segs_single (n : Str) (hne : n ≠ []) (hc : ∀ ch ∈ n, ch ≠ '/') :
    segs n = [n] := by
  unfold segs
  rw [segsGo_no_slash n hc []]
  simp [hne]

/-- The modelled output filesystem: an association list from normalized
segment paths to file contents (first binding wins; the rendering
operations keep keys duplicate-free). -/
abbrev Fs := List (SPath × Str)

/-- Contents of the file at `p`, if any. -/
def fsLookup (fs : Fs) (p : SPath) : Option Str :=
  (fs.find? (fun e => decide (e.1 = p))).map Prod.snd

/-- `open(path, "w"); write(content)`: a full-file overwrite. -/
def fsWrite (fs : Fs) (p : SPath) (c : Str) : Fs :=
  (p, c) :: fs.filter (fun e => decide (e.1 ≠ p))

/-- Is there a regular file exactly at `p`? -/
def isFileIn (fs : Fs) (p : SPath) : Bool :=
  fs.any (fun e => decide (e.1 = p))

/-- `shutil.rmtree(p, ignore_errors=True)`: on a regular file the call
raises `NotADirectoryError`, which `ignore_errors=True` swallows, so
nothing is deleted; on a directory it removes the whole subtree; on a
missing path it does nothing. -/
def rmtreeIgnore (fs : Fs) (p : SPath) : Fs :=
  if isFileIn fs p then fs
  else fs.filter (fun e => ! p.isPrefixOf e.1)

/-- The names of the immediate children of directory `d` present in the
filesystem — what `os.listdir(d)` reports (each name once). -/
def childNames (fs : Fs) (d : SPath) : List Str :=
  (fs.filterMap (fun e =>
    if d ≠ e.1 ∧ d.isPrefixOf e.1 then (e.1.drop d.length).head? else none)).dedup

/-- POSIX `os.path.join` of two parts. -/
def pjoin (a b : Str) : Str :=
  if strStarts ['/'] b then b
  else if a = [] ∨ strEnds ['/'] a then a ++ b
  else a ++ '/' :: b

/-! ### `glob.glob`, faithfully

run.py line 85 calls `glob.glob(html_dir + "/*")`.  CPython's glob
splits the pattern at its last separator, expands a magic (`*`, `?`,
`[`) directory part by recursive globbing, lists each matched directory
and keeps the entries that match the basename pattern under `fnmatch`
rules — where `*` and `?` never match a leading dot, so hidden entries
are not enumerated.  The model below follows that algorithm. -/

/-- `glob.has_magic`: does the string contain a glob metacharacter? -/
def has_magic (p : Str) : Bool :=
  p.any (fun c => decide (c = '*') || decide (c = '?') || decide (c = '['))

/-- `glob._ishidden`: does the name start with a dot? -/
def ishidden (p : Str) : Bool := decide (p.head? = some '.')

/-- `os.path.lexists` over the modelled filesystem: a file at the path
or anything below it. -/
def lexistsFs (fs : Fs) (p : Str) : Bool :=
  fs.any (fun e => (segs p).isPrefixOf e.1)

/-- `os.path.isdir` over the modelled filesystem: something strictly
below the path (directories are implicit). -/
def isDirFs (fs : Fs) (p : Str) : Bool :=
  fs.any (fun e => (segs p).isPrefixOf e.1 && decide (e.1 ≠ segs p))

/-- Is the child `n` of directory `D` itself a directory? -/
def childIsDir (fs : Fs) (D : SPath) (n : Str) : Bool :=
  fs.any (fun e => (D ++ [n]).isPrefixOf e.1 && decide (e.1 ≠ D ++ [n]))

/-- One element of a compiled `fnmatch` pattern. -/
inductive GTok where
  | star : GTok
  | one : GTok
  | cls (neg : Bool) (items : List (Char × Char)) : GTok
  | lit (c : Char) : GTok
deriving DecidableEq

/-- The items of a bracket class: `a-b` ranges, single characters
otherwise (a trailing `-` is literal). -/
def clsItems : Str → List (Char × Char)
  | [] => []
  | a :: '-' :: b :: rest => (a, b) :: clsItems rest
  | a :: rest => (a, a) :: clsItems rest

/-- Scan for the closing `]` of a bracket class; `none` when there is
none (the `[` is then literal). -/
def findClose (acc : Str) : Str → Option (Str × Str)
  | [] => none
  | ']' :: rest => some (acc.reverse, rest)
  | c :: rest => findClose (c :: acc) rest

/-- The contents and remainder of a bracket class, where a `]` in first
position is part of the contents (as in `fnmatch.translate`). -/
def classBody : Str → Option (Str × Str)
  | ']' :: r => findClose [']'] r
  | r => findClose [] r

/-- Read a bracket class after its `[`: an optional `!` negates; `none`
when no closing `]` exists. -/
def gtokClass : Str → Option (Bool × List (Char × Char) × Str)
  | '!' :: r =>
      match classBody r with
      | some (contents, rest2) => some (true, clsItems contents, rest2)
      | none => none
  | r =>
      match classBody r with
      | some (contents, rest2) => some (false, clsItems contents, rest2)
      | none => none

/-- Compile an `fnmatch` pattern, as `fnmatch.translate` reads it: `*`,
`?`, bracket classes with optional leading `!` and a literal first `]`,
an unterminated `[` literal, everything else literal. -/
def gtokenize : Nat → Str → List GTok
  | 0, _ => []
  | _ + 1, [] => []
  | fuel + 1, '*' :: rest => .star :: gtokenize fuel rest
  | fuel + 1, '?' :: rest => .one :: gtokenize fuel rest
  | fuel + 1, '[' :: rest =>
      match gtokClass rest with
      | some (neg, items, rest2) => .cls neg items :: gtokenize fuel rest2
      | none => .lit '[' :: gtokenize fuel rest
  | fuel + 1, c :: rest => .lit c :: gtokenize fuel rest

/-- Does a single (non-`star`) token match one character? -/
def tokMatch1 : GTok → Char → Bool
  | .star, _ => false
  | .one, _ => true
  | .lit c, x => decide (x = c)
  | .cls neg items, x =>
      (if neg then (! ·) else id)
        (items.any (fun r => decide (r.1 ≤ x) && decide (x ≤ r.2)))

/-- Full-string token matching, with backtracking for `star`. -/
def fnGo : Nat → List GTok → Str → Bool
  | 0, _, _ => false
  | _ + 1, [], s => decide (s = [])
  | fuel + 1, .star :: pr, s =>
      fnGo fuel pr s ||
        (match s with
         | [] => false
         | _ :: sr => fnGo fuel (.star :: pr) sr)
  | _ + 1, _ :: _, [] => false
  | fuel + 1, t :: pr, c :: sr => tokMatch1 t c && fnGo fuel pr sr

/-- `fnmatch.fnmatch` on POSIX (where `normcase` is the identity). -/
def fnmatchB (pat name : Str) : Bool :=
  fnGo (pat.length + name.length + 1) (gtokenize (pat.length + 1) pat) name

/-- `glob._glob1`: list a directory, keep directories only if asked,
drop hidden names unless the pattern itself is hidden, and filter by
`fnmatch`. -/
def glob1 (fs : Fs) (dirname pat : Str) (dironly : Bool) : List Str :=
  ((if dironly then
      (childNames fs (segs dirname)).filter
        (fun n => childIsDir fs (segs dirname) n)
    else childNames fs (segs dirname)).filter
      (fun n => ishidden pat || ! ishidden n)).filter
    (fun n => fnmatchB pat n)

/-- `glob._glob0`: a literal basename, kept when it exists. -/
def glob0 (fs : Fs) (dirname basename : Str) : List Str :=
  if basename = [] then (if isDirFs fs dirname then [[]] else [])
  else if lexistsFs fs (pjoin dirname basename) then [basename] else []

/-- `glob._iglob`: split at the last separator, expand a magic dirname
recursively (directories only), then match the basename in each matched
directory and rejoin.  Fuel decreases with the pattern length, which
every recursive call shortens. -/
def iglob (fs : Fs) : Nat → Str → Bool → List Str
  | 0, _, _ => []
  | fuel + 1, p, dironly =>
      if ¬ has_magic p then
        (if (pySplit p).2 ≠ [] then (if lexistsFs fs p then [p] else [])
         else if isDirFs fs (pySplit p).1 then [p] else [])
      else if (pySplit p).1 = [] then
        glob1 fs [] (pySplit p).2 dironly
      else
        (if (pySplit p).1 ≠ p ∧ has_magic (pySplit p).1
         then iglob fs fuel (pySplit p).1 true
         else [(pySplit p).1]).foldr
          (fun dn acc =>
            ((if has_magic (pySplit p).2 then glob1 fs dn (pySplit p).2 dironly
              else glob0 fs dn (pySplit p).2).map (fun name => pjoin dn name))
              ++ acc) []

/-- `glob.glob`. -/
def glob_glob (fs : Fs) (p : Str) : List Str :=
  iglob fs (p.length + 1) p false

/-- run.py lines 83-87: delete every match of `glob.glob(d + "/*")`
whose path does not end in `/static`, each with
`shutil.rmtree(..., ignore_errors=True)`.  The glob is evaluated once,
up front, as in the list comprehension. -/
def wipeDir (fs : Fs) (d : Str) : Fs :=
  (glob_glob fs (d ++ "/*".toList)).foldl
    (fun acc x => if strEnds "/static".toList x then acc else rmtreeIgnore acc (segs x))
    fs

/-- Keys whose components are nonempty and slash-free — every key an
actual POSIX filesystem can hold. -/
def wellKey (k : SPath) : Prop := ∀ seg ∈ k, seg ≠ [] ∧ ∀ ch ∈ seg, ch ≠ '/'

def wellFs (fs : Fs) : Prop := ∀ e ∈ fs, wellKey e.1

def nodupKeys (fs : Fs) : Prop := fs.Pairwise (fun a b => a.1 ≠ b.1)

instance (k : SPath) : Decidable (wellKey k) := by
  unfold wellKey; infer_instance

instance (fs : Fs) : Decidable (wellFs fs) := by
  unfold wellFs; infer_instance

instance (fs : Fs) : Decidable (nodupKeys fs) := by
  unfold nodupKeys; infer_instance

/-! ### Pointwise characterizations of the filesystem operations -/

theorem fsLookup_cons (e : SPath × Str) (l : Fs) (p : SPath) :
    fsLookup (e :: l) p = if e.1 = p then some e.2 else fsLookup l p := by
  by_cases h : e.1 = p <;> simp [fsLookup, List.find?_cons, h]

theorem isFileIn_cons (e : SPath × Str) (l : Fs) (p : SPath) :
    isFileIn (e :: l) p = (decide (e.1 = p) || isFileIn l p) := by
  simp [isFileIn, List.any_cons]

theorem fsLookup_filterKeys (fs : Fs) (q : SPath → Bool) (p : SPath) :
    fsLookup (fs.filter (fun e => q e.1)) p =
      if q p then fsLookup fs p else none := by
  induction fs with
  | nil => cases hq : q p <;> simp [fsLookup, hq]
  | cons e rest ih =>
    rw [List.filter_cons]
    cases hq : q e.1 with
    | true =>
      rw [if_pos rfl]
      by_cases he : e.1 = p
      · subst he
        simp [fsLookup_cons, hq]
      · simp [fsLookup_cons, he, ih]
    | false =>
      rw [if_neg Bool.false_ne_true]
      by_cases he : e.1 = p
      · subst he
        simp [fsLookup_cons, hq, ih]
      · simp [fsLookup_cons, he, ih]

theorem isFileIn_filterKeys (fs : Fs) (q : SPath → Bool) (p : SPath) :
    isFileIn (fs.filter (fun e => q e.1)) p = (q p && isFileIn fs p) := by
  induction fs with
  | nil => cases hq : q p <;> simp [isFileIn, hq]
  | cons e rest ih =>
    rw [List.filter_cons]
    cases hq : q e.1 with
    | true =>
      rw [if_pos rfl]
      by_cases he : e.1 = p
      · subst he
        simp [isFileIn_cons, hq]
      · simp [isFileIn_cons, he, ih]
    | false =>
      rw [if_neg Bool.false_ne_true]
      by_cases he : e.1 = p
      · subst he
        simp [isFileIn_cons, hq, ih]
      · simp [isFileIn_cons, he, ih]

theorem fsLookup_fsWrite (fs : Fs) (p : SPath) (c : Str) (q : SPath) :
    fsLookup (fsWrite fs p c) q = if q = p then some c else fsLookup fs q := by
  unfold fsWrite
  rw [fsLookup_cons]
  by_cases hq : q = p
  · subst hq
    simp
  · have hpq : ¬ p = q := fun h => hq h.symm
    rw [if_neg hpq, if_neg hq,
      fsLookup_filterKeys fs (fun k => decide (k ≠ p)) q]
    simp [hq]

theorem fsLookup_rmtree (fs : Fs) (x : SPath) (p : SPath) :
    fsLookup (rmtreeIgnore fs x) p =
      if isFileIn fs x = false ∧ x <+: p then none else fsLookup fs p := by
  unfold rmtreeIgnore
  cases hf : isFileIn fs x with
  | true => simp
  | false =>
    simp only [Bool.false_eq_true, if_false]
    rw [fsLookup_filterKeys fs (fun k => ! x.isPrefixOf k) p]
    by_cases hp : x <+: p
    · have h1 : x.isPrefixOf p = true := List.isPrefixOf_iff_prefix.2 hp
      simp [h1, hp]
    · have h1 : x.isPrefixOf p = false := by
        cases h : x.isPrefixOf p
        · rfl
        · exact absurd (List.isPrefixOf_iff_prefix.1 h) hp
      simp [h1, hp]

theorem isFileIn_rmtree (fs : Fs) (x : SPath) (p : SPath) (h : ¬ x <+: p) :
    isFileIn (rmtreeIgnore fs x) p = isFileIn fs p := by
  unfold rmtreeIgnore
  cases hf : isFileIn fs x with
  | true => rfl
  | false =>
    simp only [Bool.false_eq_true, if_false]
    rw [isFileIn_filterKeys fs (fun k => ! x.isPrefixOf k) p]
    have h1 : x.isPrefixOf p = false := by
      cases hx : x.isPrefixOf p
      · rfl
      · exact absurd (List.isPrefixOf_iff_prefix.1 hx) h
    simp [h1]

theorem suffix_of_suffix_length_le {l₁ l₂ s : Str}
    (h₁ : l₁ <:+ s) (h₂ : l₂ <:+ s) (h : l₁.length ≤ l₂.length) : l₁ <:+ l₂ := by
  rw [← List.reverse_prefix] at h₁ h₂ ⊢
  exact List.prefix_of_prefix_length_le h₁ h₂ (by simpa using h)

/-- The filter at run.py line 86: for slash-free child names,
`x.endswith("/static")` on the glob result `d + "/" + c` is exactly the
test `c == "static"`. -/
theorem strEnds_slashStatic (d c : Str) (hc : ∀ ch ∈ c, ch ≠ '/') :
    strEnds "/static".toList (d ++ '/' :: c) = decide (c = "static".toList) := by
  by_cases hcase : c = "static".toList
  · subst hcase
    have he : "/static".toList = '/' :: "static".toList := rfl
    have hsuf : "/static".toList <:+ d ++ '/' :: "static".toList := ⟨d, by rw [he]⟩
    simp [strEnds, List.isSuffixOf_iff_suffix, hsuf]
  · rw [decide_eq_false hcase]
    cases hs : strEnds "/static".toList (d ++ '/' :: c) with
    | false => rfl
    | true =>
      exfalso
      have hsuf : "/static".toList <:+ d ++ '/' :: c :=
        List.isSuffixOf_iff_suffix.1 hs
      have hsc : ('/' :: c) <:+ d ++ '/' :: c := ⟨d, rfl⟩
      rcases le_total ('/' :: c).length ("/static".toList).length with hle | hle
      · rcases suffix_of_suffix_length_le hsc hsuf hle with ⟨t, ht⟩
        cases t with
        | nil =>
          have h2 : '/' :: c = '/' :: "static".toList := by simpa using ht
          injection h2 with _ h3
          exact hcase h3
        | cons x t2 =>
          have h2 : x :: (t2 ++ '/' :: c) = '/' :: "static".toList := by
            simpa using ht
          injection h2 with _ h3
          have hmem : '/' ∈ t2 ++ '/' :: c :=
            List.mem_append_right t2 (List.mem_cons_self '/' c)
          rw [h3] at hmem
          exact absurd hmem (by decide)
      · rcases suffix_of_suffix_length_le hsuf hsc hle with ⟨t, ht⟩
        cases t with
        | nil =>
          have h2 : ('/' : Char) :: "static".toList = '/' :: c := by simpa using ht
          injection h2 with _ h3
          exact hcase h3.symm
        | cons x t2 =>
          have h2 : x :: (t2 ++ '/' :: "static".toList) = '/' :: c := by
            simpa using ht
          injection h2 with _ h3
          have hmem : '/' ∈ t2 ++ '/' :: "static".toList :=
            List.mem_append_right t2 (List.mem_cons_self '/' _)
          rw [h3] at hmem
          exact hc '/' hmem rfl

theorem append_singleton_prefix_eq {D : SPath} {c c' : Str}
    (h : (D ++ [c]) <+: (D ++ [c'])) : c = c' := by
  have := h.eq_of_length (by simp)
  simpa using this

/-- Characterization of the wipe fold: a path is erased exactly when it
lies under a non-`static` directory child of `d` that appears in the
processed list. -/
theorem fsLookup_wipeFold (d : Str) :
    ∀ (cs : List Str) (fs : Fs) (p : SPath),
      cs.Nodup →
      (∀ c ∈ cs, c ≠ [] ∧ ∀ ch ∈ c, ch ≠ '/') →
      fsLookup (cs.foldl (fun acc c =>
          if strEnds "/static".toList (d ++ '/' :: c) then acc
          else rmtreeIgnore acc (segs (d ++ '/' :: c))) fs) p =
        if ∃ c ∈ cs, c ≠ "static".toList ∧
            isFileIn fs (segs d ++ [c]) = false ∧ (segs d ++ [c]) <+: p
        then none else fsLookup fs p := by
  intro cs
  induction cs with
  | nil =>
    intro fs p _ _
    simp
  | cons c rest ih =>
    intro fs p hnd hwf
    rcases hwf c (List.mem_cons_self c rest) with ⟨hcne, hcs⟩
    have hndr := (List.nodup_cons.1 hnd).2
    have hcnotin := (List.nodup_cons.1 hnd).1
    have hwfr : ∀ c' ∈ rest, c' ≠ [] ∧ ∀ ch ∈ c', ch ≠ '/' :=
      fun c' h => hwf c' (List.mem_cons_of_mem c h)
    have hsegs : segs (d ++ '/' :: c) = segs d ++ [c] := by
      rw [segs_append_slash, segs_single c hcne hcs]
    rw [List.foldl_cons]
    by_cases hst : c = "static".toList
    · rw [if_pos (by rw [strEnds_slashStatic d c hcs]; exact decide_eq_true hst)]
      rw [ih fs p hndr hwfr]
      have hiff : (∃ c' ∈ c :: rest, c' ≠ "static".toList ∧
            isFileIn fs (segs d ++ [c']) = false ∧ (segs d ++ [c']) <+: p) ↔
          (∃ c' ∈ rest, c' ≠ "static".toList ∧
            isFileIn fs (segs d ++ [c']) = false ∧ (segs d ++ [c']) <+: p) := by
        constructor
        · rintro ⟨c', hm, hne, hrest⟩
          rcases List.mem_cons.1 hm with rfl | hm₂
          · exact absurd hst hne
          · exact ⟨c', hm₂, hne, hrest⟩
        · rintro ⟨c', hm, hp⟩
          exact ⟨c', List.mem_cons_of_mem c hm, hp⟩
      rw [if_congr hiff.symm rfl rfl]
    · rw [if_neg (by rw [strEnds_slashStatic d c hcs, decide_eq_false hst]; exact Bool.false_ne_true), hsegs]
      rw [ih (rmtreeIgnore fs (segs d ++ [c])) p hndr hwfr]
      have hfile : ∀ c' ∈ rest,
          isFileIn (rmtreeIgnore fs (segs d ++ [c])) (segs d ++ [c']) =
            isFileIn fs (segs d ++ [c']) := by
        intro c' hm
        refine isFileIn_rmtree fs _ _ ?_
        intro hpre
        exact hcnotin (append_singleton_prefix_eq hpre ▸ hm)
      by_cases hex : ∃ c' ∈ rest, c' ≠ "static".toList ∧
          isFileIn fs (segs d ++ [c']) = false ∧ (segs d ++ [c']) <+: p
      · rcases hex with ⟨c', hm, hne, hf, hpre⟩
        rw [if_pos ⟨c', hm, hne, by rw [hfile c' hm]; exact hf, hpre⟩,
          if_pos ⟨c', List.mem_cons_of_mem c hm, hne, hf, hpre⟩]
      · have hex1 : ¬ ∃ c' ∈ rest, c' ≠ "static".toList ∧
            isFileIn (rmtreeIgnore fs (segs d ++ [c])) (segs d ++ [c']) = false ∧
              (segs d ++ [c']) <+: p := by
          rintro ⟨c', hm, hne, hf, hpre⟩
          exact hex ⟨c', hm, hne, by rw [← hfile c' hm]; exact hf, hpre⟩
        rw [if_neg hex1, fsLookup_rmtree]
        by_cases hcp : isFileIn fs (segs d ++ [c]) = false ∧ (segs d ++ [c]) <+: p
        · rw [if_pos hcp,
            if_pos ⟨c, List.mem_cons_self c rest, hst, hcp.1, hcp.2⟩]
        · rw [if_neg hcp]
          have : ¬ ∃ c' ∈ c :: rest, c' ≠ "static".toList ∧
              isFileIn fs (segs d ++ [c']) = false ∧ (segs d ++ [c']) <+: p := by
            rintro ⟨c', hm, hne, hf, hpre⟩
            rcases List.mem_cons.1 hm with rfl | hm₂
            · exact hcp ⟨hf, hpre⟩
            · exact hex ⟨c', hm₂, hne, hf, hpre⟩
          rw [if_neg this]

theorem childNames_wf (fs : Fs) (D : SPath) (hw : wellFs fs) :
    ∀ c ∈ childNames fs D, c ≠ [] ∧ ∀ ch ∈ c, ch ≠ '/' := by
  intro c hc
  rw [childNames, List.mem_dedup] at hc
  rcases List.mem_filterMap.1 hc with ⟨e, he, hcond⟩
  by_cases hif : D ≠ e.1 ∧ D.isPrefixOf e.1
  · rw [if_pos hif] at hcond
    have hcm : c ∈ e.1 := by
      cases hd : e.1.drop D.length with
      | nil => rw [hd] at hcond; cases hcond
      | cons x xs =>
        rw [hd] at hcond
        have hx : x = c := by simpa using hcond
        subst hx
        exact List.mem_of_mem_drop (hd ▸ List.mem_cons_self x xs)
    rcases hw e he c hcm with ⟨h1, h2⟩
    exact ⟨h1, h2⟩
  · rw [if_neg hif] at hcond
    cases hcond

theorem mem_childNames_of_entry {fs : Fs} {p : SPath} {v : Str} {D : SPath}
    {c : Str} (hl : fsLookup fs p = some v) (hp : (D ++ [c]) <+: p) :
    c ∈ childNames fs D := by
  unfold fsLookup at hl
  cases hf : fs.find? (fun e => decide (e.1 = p)) with
  | none => rw [hf] at hl; cases hl
  | some e =>
    have hep : e.1 = p := by
      have := List.find?_some hf
      simpa using this
    have hmem : e ∈ fs := List.mem_of_find?_eq_some hf
    rw [childNames, List.mem_dedup]
    refine List.mem_filterMap.2 ⟨e, hmem, ?_⟩
    rcases hp with ⟨r, hr⟩
    have hr' : D ++ c :: r = p := by
      rw [← hr]; simp
    rw [hep]
    have hlen : p.length = D.length + 1 + r.length := by
      rw [← hr']
      simp only [List.length_append, List.length_cons]
      omega
    have hne : D ≠ p := by
      intro h
      have := congrArg List.length h
      omega
    have hpre : D.isPrefixOf p = true :=
      List.isPrefixOf_iff_prefix.2 ⟨c :: r, hr'⟩
    rw [if_pos ⟨hne, hpre⟩, ← hr', List.drop_left]
    rfl

/-- The shape of the argument run.py passes to `glob.glob`: `d ++ "/*"`
splits into a magic-free, nonempty dirname `dt` without trailing slash
that names the same directory as `d`, and the basename pattern `*`. -/
def globArg (d dt : Str) : Prop :=
  pySplit (d ++ "/*".toList) = (dt, "*".toList) ∧ has_magic dt = false ∧
    dt ≠ [] ∧ strEnds ['/'] dt = false ∧ segs dt = segs d

theorem has_magic_append (a b : Str) :
    has_magic (a ++ b) = (has_magic a || has_magic b) :=
  List.any_append

theorem fnGo_star : ∀ (n : Str) (fuel : Nat), n.length + 2 ≤ fuel →
    fnGo fuel [GTok.star] n = true := by
  intro n
  induction n with
  | nil =>
    intro fuel h
    cases fuel with
    | zero => exact absurd h (by omega)
    | succ f =>
      cases f with
      | zero => exact absurd h (by omega)
      | succ g =>
        show (fnGo (g + 1) [] [] || false) = true
        rfl
  | cons c sr ih =>
    intro fuel h
    cases fuel with
    | zero => exact absurd h (by omega)
    | succ f =>
      have h2 : sr.length + 2 ≤ f := by
        simp only [List.length_cons] at h
        omega
      show (fnGo f [] (c :: sr) || fnGo f [GTok.star] sr) = true
      rw [ih f h2, Bool.or_true]

theorem fnmatch_star (n : Str) : fnmatchB "*".toList n = true := by
  unfold fnmatchB
  rw [show gtokenize ("*".toList.length + 1) "*".toList = [GTok.star] from rfl]
  exact fnGo_star n _ (by rw [show "*".toList.length = 1 from rfl]; omega)

theorem glob1_star (fs : Fs) (dirname : Str) :
    glob1 fs dirname "*".toList false =
      (childNames fs (segs dirname)).filter (fun n => ! ishidden n) := by
  unfold glob1
  rw [if_neg (by simp : ¬ ((false : Bool) = true))]
  rw [List.filter_eq_self.2 (fun n _ => fnmatch_star n)]
  exact List.filter_congr (fun n _ => by
    rw [show ishidden "*".toList = false from rfl, Bool.false_or])

theorem pjoin_wf (a n : Str) (ha : a ≠ []) (hea : strEnds ['/'] a = false)
    (hn : n ≠ []) (hns : ∀ ch ∈ n, ch ≠ '/') : pjoin a n = a ++ '/' :: n := by
  unfold pjoin
  have h1 : strStarts ['/'] n = false := by
    cases n with
    | nil => exact absurd rfl hn
    | cons c rest =>
      have hc : c ≠ '/' := hns c (List.mem_cons_self c rest)
      unfold strStarts List.isPrefixOf
      simp [hc, Ne.symm hc]
  rw [h1]
  simp only [Bool.false_eq_true, if_false]
  rw [if_neg]
  rintro (h | h)
  · exact ha h
  · rw [hea] at h; cases h

theorem iglob_succ (fs : Fs) (fuel : Nat) (p : Str) (dironly : Bool) :
    iglob fs (fuel + 1) p dironly =
      (if ¬ has_magic p then
        (if (pySplit p).2 ≠ [] then (if lexistsFs fs p then [p] else [])
         else if isDirFs fs (pySplit p).1 then [p] else [])
      else if (pySplit p).1 = [] then
        glob1 fs [] (pySplit p).2 dironly
      else
        (if (pySplit p).1 ≠ p ∧ has_magic (pySplit p).1
         then iglob fs fuel (pySplit p).1 true
         else [(pySplit p).1]).foldr
          (fun dn acc =>
            ((if has_magic (pySplit p).2 then glob1 fs dn (pySplit p).2 dironly
              else glob0 fs dn (pySplit p).2).map (fun name => pjoin dn name))
              ++ acc) []) := rfl

/-- On an argument of the shape run.py passes it, `glob.glob` returns
exactly the non-hidden immediate children of the directory, joined onto
the dirname. -/
theorem glob_star_lit (fs : Fs) (d dt : Str) (hg : globArg d dt) :
    glob_glob fs (d ++ "/*".toList) =
      ((childNames fs (segs dt)).filter (fun n => ! ishidden n)).map
        (fun n => pjoin dt n) := by
  obtain ⟨hsplit, hmagic, hne, _, _⟩ := hg
  have hpm : has_magic (d ++ "/*".toList) = true := by
    rw [has_magic_append, show has_magic "/*".toList = true from rfl,
      Bool.or_true]
  unfold glob_glob
  rw [iglob_succ, hsplit, if_neg (not_not_intro hpm)]
  have h2 : ¬ (((dt, "*".toList) : Str × Str).1 = []) := hne
  rw [if_neg h2]
  have h3 : ¬ (((dt, "*".toList) : Str × Str).1 ≠ (d ++ "/*".toList) ∧
      has_magic ((dt, "*".toList) : Str × Str).1 = true) := by
    rintro ⟨_, hm⟩
    have hm' : has_magic dt = true := hm
    rw [hmagic] at hm'
    cases hm'
  rw [if_neg h3]
  show (if has_magic "*".toList = true then glob1 fs dt "*".toList false
        else glob0 fs dt "*".toList).map (fun name => pjoin dt name)
      ++ ([] : List Str) = _
  rw [if_pos (show has_magic "*".toList = true from rfl), List.append_nil,
    glob1_star]

/-- Pointwise characterization of the directory wipe (run.py lines
83-87): a file vanishes exactly when it lies below a non-hidden,
non-`static`, non-regular-file immediate child of `d`; everything else —
hidden children, the subtree of a child named `static`, regular-file
children themselves, and paths outside `d` — is untouched. -/
theorem fsLookup_wipeDir (fs : Fs) (d dt : Str) (hw : wellFs fs)
    (hg : globArg d dt) (p : SPath) :
    fsLookup (wipeDir fs d) p =
      if ∃ c ∈ childNames fs (segs d), ishidden c = false ∧
          c ≠ "static".toList ∧
          isFileIn fs (segs d ++ [c]) = false ∧ (segs d ++ [c]) <+: p
      then none else fsLookup fs p := by
  have hsegs : segs dt = segs d := hg.2.2.2.2
  have hne : dt ≠ [] := hg.2.2.1
  have hend : strEnds ['/'] dt = false := hg.2.2.2.1
  have hwfcs : ∀ c ∈ (childNames fs (segs dt)).filter (fun n => ! ishidden n),
      c ≠ [] ∧ ∀ ch ∈ c, ch ≠ '/' :=
    fun c hc => childNames_wf fs (segs dt) hw c (List.mem_of_mem_filter hc)
  have hnd : ((childNames fs (segs dt)).filter (fun n => ! ishidden n)).Nodup :=
    List.Nodup.filter _ (by unfold childNames; exact List.nodup_dedup _)
  have hmapeq : ((childNames fs (segs dt)).filter (fun n => ! ishidden n)).map
        (fun n => pjoin dt n) =
      ((childNames fs (segs dt)).filter (fun n => ! ishidden n)).map
        (fun n => dt ++ '/' :: n) :=
    List.map_congr_left (fun c hc =>
      pjoin_wf dt c hne hend (hwfcs c hc).1 (hwfcs c hc).2)
  unfold wipeDir
  rw [glob_star_lit fs d dt hg, hmapeq, List.foldl_map,
    fsLookup_wipeFold dt _ fs p hnd hwfcs]
  refine if_congr ?_ rfl rfl
  constructor
  · rintro ⟨c, hc, h1, h2, h3⟩
    have hcm := List.mem_of_mem_filter hc
    have hch : ishidden c = false := by
      have := List.of_mem_filter hc
      simpa using this
    rw [hsegs] at hcm h2 h3
    exact ⟨c, hcm, hch, h1, h2, h3⟩
  · rintro ⟨c, hc, hch, h1, h2, h3⟩
    rw [← hsegs] at hc h2 h3
    exact ⟨c, List.mem_filter.2 ⟨hc, by simp [hch]⟩, h1, h2, h3⟩

/-- Paths not under the wiped directory are untouched. -/
theorem fsLookup_wipeDir_not_under (fs : Fs) (d dt : Str) (hw : wellFs fs)
    (hg : globArg d dt) (p : SPath) (h : ¬ segs d <+: p) :
    fsLookup (wipeDir fs d) p = fsLookup fs p := by
  rw [fsLookup_wipeDir fs d dt hw hg p, if_neg]
  rintro ⟨c, _, _, _, _, hpre⟩
  exact h (((List.prefix_append (segs d) [c])).trans hpre)

/-- Paths under the `static` child are untouched. -/
theorem fsLookup_wipeDir_static (fs : Fs) (d dt : Str) (hw : wellFs fs)
    (hg : globArg d dt) (p : SPath) (h : (segs d ++ ["static".toList]) <+: p) :
    fsLookup (wipeDir fs d) p = fsLookup fs p := by
  rw [fsLookup_wipeDir fs d dt hw hg p, if_neg]
  rintro ⟨c, _, _, hne, _, hpre⟩
  refine hne ?_
  have h1 : (segs d ++ [c]).length ≤ p.length := hpre.length_le
  have hcc : (segs d ++ [c]) <+: (segs d ++ ["static".toList]) :=
    List.prefix_of_prefix_length_le hpre h (by simp)
  exact append_singleton_prefix_eq hcc

/-- C8 counterexample.  The wipe removes stale immediate *directory*
children, but two kinds of stale children are NOT removed.  A stale
immediate child that is a regular file survives: `shutil.rmtree` raises
`NotADirectoryError` on it and `ignore_errors=True` swallows that —
here the file `junk`.  And a stale hidden child survives: `glob.glob`
never enumerates names beginning with a dot — here the directory
`.old`, whose contents `y` outlive the wipe while its visible twin
`old` is removed.  Both contradict the claim that every stale immediate
child except `static` is removed. -/
theorem c8_wipe_counterexample :
    fsLookup
        (wipeDir
          [(["h".toList, "f".toList, "junk".toList], "J".toList),
            (["h".toList, "f".toList, "old".toList, "x".toList], "X".toList),
            (["h".toList, "f".toList, ".old".toList, "y".toList], "Y".toList),
            (["h".toList, "f".toList, "static".toList, "s".toList], "S".toList)]
          "/h/f".toList)
        ["h".toList, "f".toList, "junk".toList] = some "J".toList ∧
      "junk".toList ≠ "static".toList ∧
      fsLookup
        (wipeDir
          [(["h".toList, "f".toList, "junk".toList], "J".toList),
            (["h".toList, "f".toList, "old".toList, "x".toList], "X".toList),
            (["h".toList, "f".toList, ".old".toList, "y".toList], "Y".toList),
            (["h".toList, "f".toList, "static".toList, "s".toList], "S".toList)]
          "/h/f".toList)
        ["h".toList, "f".toList, "old".toList, "x".toList] = none ∧
      fsLookup
        (wipeDir
          [(["h".toList, "f".toList, "junk".toList], "J".toList),
            (["h".toList, "f".toList, "old".toList, "x".toList], "X".toList),
            (["h".toList, "f".toList, ".old".toList, "y".toList], "Y".toList),
            (["h".toList, "f".toList, "static".toList, "s".toList], "S".toList)]
          "/h/f".toList)
        ["h".toList, "f".toList, ".old".toList, "y".toList] =
          some "Y".toList := by
  decide

/-- C8 (amended).  The wipe of a re-rendered directory's output removes
exactly the subtrees of its non-hidden, non-`static` immediate
*directory* children: (i) every path below a stale non-hidden directory
child other than `static` is removed; (ii) the `static` entry's subtree
is untouched; (iii) immediate children that are regular files are not
removed (the recursive deleter ignores the `NotADirectoryError`);
(iv) children whose name starts with a dot are not removed (`glob.glob`
never lists them); (v) paths outside the directory are untouched. -/
theorem c8_wipe_amended (fs : Fs) (d dt : Str) (hw : wellFs fs)
    (hg : globArg d dt) (p : SPath) :
    (∀ c, (segs d ++ [c]) <+: p → ishidden c = false → c ≠ "static".toList →
      isFileIn fs (segs d ++ [c]) = false → fsLookup fs p ≠ none →
      fsLookup (wipeDir fs d) p = none) ∧
    ((segs d ++ ["static".toList]) <+: p →
      fsLookup (wipeDir fs d) p = fsLookup fs p) ∧
    (∀ c, p = segs d ++ [c] → isFileIn fs p = true →
      fsLookup (wipeDir fs d) p = fsLookup fs p) ∧
    (∀ c, (segs d ++ [c]) <+: p → ishidden c = true →
      fsLookup (wipeDir fs d) p = fsLookup fs p) ∧
    (¬ segs d <+: p → fsLookup (wipeDir fs d) p = fsLookup fs p) := by
  refine ⟨?_, fsLookup_wipeDir_static fs d dt hw hg p, ?_, ?_,
    fsLookup_wipeDir_not_under fs d dt hw hg p⟩
  · intro c hpre hh hne hnf hsome
    cases hv : fsLookup fs p with
    | none => exact absurd hv hsome
    | some v =>
      rw [fsLookup_wipeDir fs d dt hw hg p,
        if_pos ⟨c, mem_childNames_of_entry hv hpre, hh, hne, hnf, hpre⟩]
  · intro c hp hfile
    rw [fsLookup_wipeDir fs d dt hw hg p, if_neg]
    rintro ⟨c', _, _, _, hnf, hpre⟩
    rw [hp] at hpre
    rw [append_singleton_prefix_eq hpre, ← hp] at hnf
    rw [hfile] at hnf
    cases hnf
  · intro c hpre hch
    rw [fsLookup_wipeDir fs d dt hw hg p, if_neg]
    rintro ⟨c', _, hh', _, _, hpre'⟩
    have hcc : c' = c :=
      append_singleton_prefix_eq
        (List.prefix_of_prefix_length_le hpre' hpre (by simp))
    rw [hcc, hch] at hh'
    cases hh'

/-- Witness for the amended C8, on the counterexample filesystem. -/
theorem c8_wipe_amended_witness :
    fsLookup
        (wipeDir
          [(["h".toList, "f".toList, "junk".toList], "J".toList),
            (["h".toList, "f".toList, "old".toList, "x".toList], "X".toList),
            (["h".toList, "f".toList, ".old".toList, "y".toList], "Y".toList),
            (["h".toList, "f".toList, "static".toList, "s".toList], "S".toList)]
          "/h/f".toList)
        ["h".toList, "f".toList, "old".toList, "x".toList] = none ∧
      fsLookup
        (wipeDir
          [(["h".toList, "f".toList, "junk".toList], "J".toList),
            (["h".toList, "f".toList, "old".toList, "x".toList], "X".toList),
            (["h".toList, "f".toList, ".old".toList, "y".toList], "Y".toList),
            (["h".toList, "f".toList, "static".toList, "s".toList], "S".toList)]
          "/h/f".toList)
        ["h".toList, "f".toList, "static".toList, "s".toList] =
        fsLookup
          [(["h".toList, "f".toList, "junk".toList], "J".toList),
            (["h".toList, "f".toList, "old".toList, "x".toList], "X".toList),
            (["h".toList, "f".toList, ".old".toList, "y".toList], "Y".toList),
            (["h".toList, "f".toList, "static".toList, "s".toList], "S".toList)]
          ["h".toList, "f".toList, "static".toList, "s".toList] ∧
      fsLookup
        (wipeDir
          [(["h".toList, "f".toList, "junk".toList], "J".toList),
            (["h".toList, "f".toList, "old".toList, "x".toList], "X".toList),
            (["h".toList, "f".toList, ".old".toList, "y".toList], "Y".toList),
            (["h".toList, "f".toList, "static".toList, "s".toList], "S".toList)]
          "/h/f".toList)
        ["h".toList, "f".toList, ".old".toList, "y".toList] =
        fsLookup
          [(["h".toList, "f".toList, "junk".toList], "J".toList),
            (["h".toList, "f".toList, "old".toList, "x".toList], "X".toList),
            (["h".toList, "f".toList, ".old".toList, "y".toList], "Y".toList),
            (["h".toList, "f".toList, "static".toList, "s".toList], "S".toList)]
          ["h".toList, "f".toList, ".old".toList, "y".toList] ∧
      fsLookup
        (wipeDir
          [(["h".toList, "f".toList, "junk".toList], "J".toList),
            (["h".toList, "f".toList, "old".toList, "x".toList], "X".toList),
            (["h".toList, "f".toList, ".old".toList, "y".toList], "Y".toList),
            (["h".toList, "f".toList, "static".toList, "s".toList], "S".toList)]
          "/h/f".toList)
        ["z".toList] =
        fsLookup
          [(["h".toList, "f".toList, "junk".toList], "J".toList),
            (["h".toList, "f".toList, "old".toList, "x".toList], "X".toList),
            (["h".toList, "f".toList, ".old".toList, "y".toList], "Y".toList),
            (["h".toList, "f".toList, "static".toList, "s".toList], "S".toList)]
          ["z".toList] := by
  have hg : globArg "/h/f".toList "/h/f".toList := by
    unfold globArg
    exact ⟨by decide, by decide, by decide, by decide, by decide⟩
  exact ⟨(c8_wipe_amended _ "/h/f".toList "/h/f".toList (by decide) hg _).1
      "old".toList (by decide) (by decide) (by decide) (by decide) (by decide),
    (c8_wipe_amended _ "/h/f".toList "/h/f".toList (by decide) hg _).2.1
      (by decide),
    (c8_wipe_amended _ "/h/f".toList "/h/f".toList (by decide) hg _).2.2.2.1
      ".old".toList (by decide) (by decide),
    (c8_wipe_amended _ "/h/f".toList "/h/f".toList (by decide) hg _).2.2.2.2
      (by decide)⟩

/-! ## The source tree, configuration, and the renderer

The renderer is factored as in the source: each rendering function
produces the ordered sequence of filesystem effects (`FsOp`) performed
before returning or raising, together with the exception it raised, if
any.  The effect trace depends only on the configuration and the source
tree — exactly as in `run.py`, where every filesystem *read* during a
render goes to the source tree (`os.walk`, `open`, `os.path.exists`) or
is encapsulated in an effect's own semantics (the `glob` inside the
wipe).  `render_dir`/`render_file` then apply the trace to an output
filesystem. -/

/-- A source directory: named subfolders and named files with raw
contents.  This models the on-disk tree rooted at `RECIPE_DIR`, which
the engine only reads. -/
inductive SrcTree where
  | node (folders : List (Str × SrcTree)) (files : List (Str × Str))

def SrcTree.folders : SrcTree → List (Str × SrcTree)
  | .node f _ => f

def SrcTree.files : SrcTree → List (Str × Str)
  | .node _ f => f

/-- A size measure on source trees, used only to seed the renderer's
fuel.  Defined by nested structural recursion so it evaluates by kernel
reduction. -/
def sizeT : SrcTree → Nat
  | .node folders _ => 1 + go folders
where go : List (Str × SrcTree) → Nat
  | [] => 0
  | (_, t) :: rest => 1 + sizeT t + go rest

/-- The context handed to the recipe template (run.py lines 142-151 and
156-165): one field per keyword argument of `render`. -/
structure RecipeCtx where
  parent_folders : List Str
  ingredients : List PIngredient
  steps : List Str
  metadata : List (Str × Str)
  title : Str
  has_image : Bool
  is_printable : Bool
  css : Str
deriving DecidableEq

/-- The configuration and the external collaborators (§6 of the spec):
the two environment-driven root paths, the external recipe parser, and
the two Jinja templates, all with fixed but arbitrary behaviour. -/
structure Config where
  RECIPE_DIR : Str
  HTML_PATH : Str
  parse : Str → Except Unit PRecipe
  folder_template : List Str → List Str → List Str → Str
  recipe_template : RecipeCtx → Str

/-- The Python exceptions the embedded code can raise. -/
inductive PyErr where
  | assertionError
  | fileNotFoundError
  | recipeParseError
  | stopIteration
  | recursionError
deriving DecidableEq

/-- One filesystem effect of the renderer. -/
inductive FsOp where
  | wipe (d : Str)
  | write (p : Str) (c : Str)
deriving DecidableEq

def applyOp (fs : Fs) : FsOp → Fs
  | .wipe d => wipeDir fs d
  | .write p c => fsWrite fs (segs p) c

def applyOps (fs : Fs) (ops : List FsOp) : Fs := ops.foldl applyOp fs

/-- `os.path.join`, POSIX. -/
def findEntry {α : Type} (l : List (Str × α)) (n : Str) : Option α :=
  (l.find? (fun e => decide (e.1 = n))).map Prod.snd

/-- Walk the source tree down a list of component names. -/
def resolveDir : SrcTree → List Str → Option SrcTree
  | t, [] => some t
  | t, n :: rest =>
      match findEntry t.folders n with
      | some t2 => resolveDir t2 rest
      | none => none

/-- Resolve a file by component names (`none` also for the root itself,
which is a directory, not a readable file). -/
def resolveFileAt : SrcTree → List Str → Option Str
  | _, [] => none
  | t, [n] => findEntry t.files n
  | t, n :: rest =>
      match findEntry t.folders n with
      | some t2 => resolveFileAt t2 rest
      | none => none

/-- Resolve an absolute path string against the source filesystem: the
tree `src` mounted at `cfg.RECIPE_DIR` (the only thing that exists on
the modelled source disk). -/
def srcResolveDir (cfg : Config) (src : SrcTree) (path : Str) : Option SrcTree :=
  if (segs cfg.RECIPE_DIR).isPrefixOf (segs path) then
    resolveDir src ((segs path).drop (segs cfg.RECIPE_DIR).length)
  else none

def srcResolveFile (cfg : Config) (src : SrcTree) (path : Str) : Option Str :=
  if (segs cfg.RECIPE_DIR).isPrefixOf (segs path) then
    resolveFileAt src ((segs path).drop (segs cfg.RECIPE_DIR).length)
  else none

/-- run.py lines 177-183: probe `path[:-5] + "." + ext` for each allowed
image extension, first hit wins. -/
def get_image_path (cfg : Config) (src : SrcTree) (path : Str) :
    Except PyErr (Option Str) :=
  if ¬ strEnds ".cook".toList path then .error .assertionError
  else .ok ((["jpg".toList, "png".toList].map
      (fun ext => pyDropEnd 5 path ++ '.' :: ext)).find?
      (fun fn => (srcResolveFile cfg src fn).isSome))

/-- The two template contexts built in `render_file` (run.py lines
142-151 and 156-165).  Both pass `is_printable=False` — the source does;
only `css` differs. -/
def recipe_contexts (parent_folders : List Str) (recipe : PRecipe)
    (highlighted_steps : List Str) (title : Str) (has_image : Bool) :
    RecipeCtx × RecipeCtx :=
  (⟨parent_folders, recipe.ingredients, highlighted_steps, recipe.metadata,
      title, has_image, false, "/static/styles.css".toList⟩,
    ⟨parent_folders, recipe.ingredients, highlighted_steps, recipe.metadata,
      title, has_image, false, "/static/printable.css".toList⟩)

/-- run.py lines 117-174 (`render_file`), as an effect trace.  Reads go
to the source tree; the four writes are the index page, the print page,
the copied `.cook` source, and the optionally copied image. -/
def render_file_ops (cfg : Config) (src : SrcTree) (path : Str) :
    List FsOp × Option PyErr :=
  if ¬ strStarts cfg.RECIPE_DIR path then ([], some .assertionError)
  else
    let rel := pyDropStart (cfg.RECIPE_DIR.length + 1) path
    let pf0 := split_path rel
    let parent_folders := pf0.dropLast ++ [pyDropEnd 5 (pf0.getLastD [])]
    let title := parent_folders.getLastD []
    match srcResolveFile cfg src path with
    | none => ([], some .fileNotFoundError)
    | some txt =>
      match cfg.parse txt with
      | .error _ => ([], some .recipeParseError)
      | .ok recipe =>
        let highlighted_steps := highlight_steps recipe.ingredients recipe.steps
        match get_image_path cfg src path with
        | .error e => ([], some e)
        | .ok image_path =>
          let has_image := image_path.isSome
          let html_dir := pyDropEnd 5 (pjoin cfg.HTML_PATH rel)
          let ctxs := recipe_contexts parent_folders recipe highlighted_steps
            title has_image
          let copyOps : List FsOp :=
            match image_path with
            | some ip =>
                [.write (html_dir ++ "/img".toList)
                  ((srcResolveFile cfg src ip).getD [])]
            | none => []
          ([.write (html_dir ++ "/index.html".toList) (cfg.recipe_template ctxs.1),
            .write (html_dir ++ "/print.html".toList) (cfg.recipe_template ctxs.2),
            .write (pjoin html_dir (pySplit path).2) txt] ++ copyOps, none)

/-- The file loop at run.py lines 112-114: `render_file` on each listed
name ending in `.cook`, in listing order (the code does not sort this
loop), stopping at the first uncaught exception. -/
def render_files_go (cfg : Config) (src : SrcTree) :
    List Str → Str → List FsOp × Option PyErr
  | [], _ => ([], none)
  | f :: rest, path =>
      if strEnds ".cook".toList f then
        match render_file_ops cfg src (pjoin path f) with
        | (ops, some e) => (ops, some e)
        | (ops, none) =>
            match render_files_go cfg src rest path with
            | (more, e2) => (ops ++ more, e2)
      else render_files_go cfg src rest path

/-- A pending unit of directory-rendering work: one directory, or the
remaining subfolder recursions of a directory. -/
inductive RWork where
  | dir (t : SrcTree) (path : Str)
  | subs (l : List (Str × SrcTree)) (path : Str)

/-- run.py lines 76-114 (`render_dir`), as an effect trace.  Fuel-indexed
so the definition is structurally recursive (hence evaluable by kernel
reduction); `render_dir` below always supplies sufficient fuel, and
`render_go_fuel_irrel` shows any sufficient fuel gives the same trace.
The walk data (`t.folders`, `t.files`) is the directory listing of
`path`; the sorted *pairs* model `sub_folders.sort()` followed by
recursion on each name (identical for the duplicate-free names a real
directory has). -/
def render_go (cfg : Config) (src : SrcTree) : Nat → RWork → List FsOp × Option PyErr
  | 0, _ => ([], some .recursionError)
  | _ + 1, .subs [] _ => ([], none)
  | fuel + 1, .subs ((n, t2) :: rest) path =>
      (match render_go cfg src fuel (.dir t2 (pjoin path n)) with
       | (ops, some e) => (ops, some e)
       | (ops, none) =>
           match render_go cfg src fuel (.subs rest path) with
           | (more, e2) => (ops ++ more, e2))
  | fuel + 1, .dir t path =>
      if ¬ strStarts cfg.RECIPE_DIR path then ([], some .assertionError)
      else
        let rel := pyDropStart (cfg.RECIPE_DIR.length + 1) path
        let html_dir := pjoin cfg.HTML_PATH rel
        let parent_folders := split_path rel
        let sorted_folders := pySorted (fun a b => strLe a.1 b.1) t.folders
        let sub_folders := sorted_folders.map Prod.fst
        let recipes := pySorted strLe
          (((t.files.map Prod.fst).filter
              (fun f => strEnds ".cook".toList f)).map (fun f => pyDropEnd 5 f))
        let rendered := cfg.folder_template parent_folders sub_folders recipes
        let head : List FsOp :=
          [.wipe html_dir, .write (html_dir ++ "/index.html".toList) rendered]
        (match render_go cfg src fuel (.subs sorted_folders path) with
         | (ops, some e) => (head ++ ops, some e)
         | (ops, none) =>
             match render_files_go cfg src (t.files.map Prod.fst) path with
             | (fops, e2) => (head ++ ops ++ fops, e2))

/-- run.py lines 76-114 applied to an output filesystem: resolve the
directory (the `next(os.walk(path))` listing; `StopIteration` if the
path does not exist, AFTER the assert and the wipe have run), then apply
the effect trace. -/
def render_dir (cfg : Config) (src : SrcTree) (path : Str) (fs : Fs) :
    Fs × Option PyErr :=
  match srcResolveDir cfg src path with
  | some t =>
      match render_go cfg src (sizeT t + 1) (.dir t path) with
      | (ops, e) => (applyOps fs ops, e)
  | none =>
      if ¬ strStarts cfg.RECIPE_DIR path then (fs, some .assertionError)
      else
        (wipeDir fs
          (pjoin cfg.HTML_PATH (pyDropStart (cfg.RECIPE_DIR.length + 1) path)),
         some .stopIteration)

/-- run.py lines 117-174 applied to an output filesystem. -/
def render_file (cfg : Config) (src : SrcTree) (path : Str) (fs : Fs) :
    Fs × Option PyErr :=
  match render_file_ops cfg src path with
  | (ops, e) => (applyOps fs ops, e)

/-- run.py lines 59-73: the coordinator catches every exception from
`render_dir`, logs it, and keeps running; non-directory events are
ignored.  Returns the output filesystem (and the swallowed error, for
inspection). -/
def on_any_event (cfg : Config) (src : SrcTree) (is_directory : Bool)
    (src_path : Str) (fs : Fs) : Fs × Option PyErr :=
  if is_directory then render_dir cfg src src_path fs
  else (fs, none)

/-- Sanity: a one-recipe tree renders end to end; the recipe's output
directory gets its pages and the folder index is written. -/
example :
    (render_dir
      { RECIPE_DIR := "/r".toList, HTML_PATH := "/h".toList,
        parse := fun _ => .ok ⟨[], [], []⟩,
        folder_template := fun _ _ _ => "F".toList,
        recipe_template := fun _ => "R".toList }
      (.node [] [("a.cook".toList, "X".toList)])
      "/r".toList []).2 = none ∧
    fsLookup
      (render_dir
        { RECIPE_DIR := "/r".toList, HTML_PATH := "/h".toList,
          parse := fun _ => .ok ⟨[], [], []⟩,
          folder_template := fun _ _ _ => "F".toList,
          recipe_template := fun _ => "R".toList }
        (.node [] [("a.cook".toList, "X".toList)])
        "/r".toList []).1
      ["h".toList, "a".toList, "index.html".toList] = some "R".toList ∧
    fsLookup
      (render_dir
        { RECIPE_DIR := "/r".toList, HTML_PATH := "/h".toList,
          parse := fun _ => .ok ⟨[], [], []⟩,
          folder_template := fun _ _ _ => "F".toList,
          recipe_template := fun _ => "R".toList }
        (.node [] [("a.cook".toList, "X".toList)])
        "/r".toList []).1
      ["h".toList, "index.html".toList] = some "F".toList := by
  decide

/-- C10.  A failed directory render is not atomic: for every path that
passes the source-root prefix check (the line-78 assert) but has no
corresponding source directory, `render_dir` first wipes the immediate
children of the corresponding output directory (except `static`) and
only then fails, when `next(os.walk(path))` raises `StopIteration`.  The
final state is exactly the wiped filesystem — no regenerated index page
— rather than the unchanged input. -/
theorem c10_failed_render_not_atomic (cfg : Config) (src : SrcTree)
    (path : Str) (fs : Fs)
    (hpre : strStarts cfg.RECIPE_DIR path = true)
    (hres : srcResolveDir cfg src path = none) :
    render_dir cfg src path fs =
      (wipeDir fs
        (pjoin cfg.HTML_PATH (pyDropStart (cfg.RECIPE_DIR.length + 1) path)),
       some .stopIteration) := by
  unfold render_dir
  rw [hres, if_neg (by simp [hpre])]

/-- Witness for C10: the stale child of the orphaned output directory is
really gone afterwards (the output directory is emptied, not left
unchanged). -/
theorem c10_failed_render_not_atomic_witness :
    render_dir
        { RECIPE_DIR := "/r".toList, HTML_PATH := "/h".toList,
          parse := fun _ => .ok ⟨[], [], []⟩,
          folder_template := fun _ _ _ => "F".toList,
          recipe_template := fun _ => "R".toList }
        (.node [] []) "/r/ghost".toList
        [(["h".toList, "ghost".toList, "stale".toList, "f".toList], "X".toList)] =
      (wipeDir
        [(["h".toList, "ghost".toList, "stale".toList, "f".toList], "X".toList)]
        (pjoin "/h".toList (pyDropStart ("/r".toList.length + 1) "/r/ghost".toList)),
       some .stopIteration) ∧
    fsLookup
      (render_dir
        { RECIPE_DIR := "/r".toList, HTML_PATH := "/h".toList,
          parse := fun _ => .ok ⟨[], [], []⟩,
          folder_template := fun _ _ _ => "F".toList,
          recipe_template := fun _ => "R".toList }
        (.node [] []) "/r/ghost".toList
        [(["h".toList, "ghost".toList, "stale".toList, "f".toList], "X".toList)]).1
      ["h".toList, "ghost".toList, "stale".toList, "f".toList] = none :=
  ⟨c10_failed_render_not_atomic _ _ _ _ (by decide) (by rfl), by decide⟩

/-- C5 counterexample.  The path `/rEvil/x` does not lie under the
source root `/r`, yet the string-prefix assert accepts it: the render
does not fail with any path error — it proceeds, wipes the (garbled)
output directory, and then dies with `StopIteration`; the stale entry it
wiped is gone, so the output tree WAS mutated.  Both halves of the
claim — a dedicated path error, and no output mutation — fail. -/
theorem c5_counterexample :
    (segs "/r".toList).isPrefixOf (segs "/rEvil/x".toList) = false ∧
    (render_dir
        { RECIPE_DIR := "/r".toList, HTML_PATH := "/h".toList,
          parse := fun _ => .ok ⟨[], [], []⟩,
          folder_template := fun _ _ _ => "F".toList,
          recipe_template := fun _ => "R".toList }
        (.node [] []) "/rEvil/x".toList
        [(["h".toList, "vil".toList, "x".toList, "stale".toList, "f".toList],
          "X".toList)]).2 = some .stopIteration ∧
    (render_dir
        { RECIPE_DIR := "/r".toList, HTML_PATH := "/h".toList,
          parse := fun _ => .ok ⟨[], [], []⟩,
          folder_template := fun _ _ _ => "F".toList,
          recipe_template := fun _ => "R".toList }
        (.node [] []) "/rEvil/x".toList
        [(["h".toList, "vil".toList, "x".toList, "stale".toList, "f".toList],
          "X".toList)]).2 ≠ some .assertionError ∧
    fsLookup
      (render_dir
        { RECIPE_DIR := "/r".toList, HTML_PATH := "/h".toList,
          parse := fun _ => .ok ⟨[], [], []⟩,
          folder_template := fun _ _ _ => "F".toList,
          recipe_template := fun _ => "R".toList }
        (.node [] []) "/rEvil/x".toList
        [(["h".toList, "vil".toList, "x".toList, "stale".toList, "f".toList],
          "X".toList)]).1
      ["h".toList, "vil".toList, "x".toList, "stale".toList, "f".toList] =
      none := by
  decide

/-- C5 (amended).  The renders begin with `assert
path.startswith(RECIPE_DIR)`: every path that does NOT have the source
root as a string prefix fails with `AssertionError` (run.py has no
dedicated `PathError` type) before any output mutation; but the check is
only a string-prefix test, so paths outside the root that extend it as a
string (such as root + "Evil/...") are not rejected. -/
theorem c5_path_check_amended (cfg : Config) (src : SrcTree) (path : Str)
    (fs : Fs) (h : ¬ strStarts cfg.RECIPE_DIR path = true) :
    render_dir cfg src path fs = (fs, some .assertionError) ∧
      render_file cfg src path fs = (fs, some .assertionError) := by
  constructor
  · unfold render_dir
    cases hres : srcResolveDir cfg src path with
    | some t =>
      dsimp only
      have hgo : render_go cfg src (sizeT t + 1) (.dir t path) =
          ([], some .assertionError) := by
        rw [render_go, if_pos h]
      rw [hgo]
      rfl
    | none =>
      dsimp only
      rw [if_pos h]
  · unfold render_file render_file_ops
    rw [if_pos h]
    rfl

/-- Witness for the amended C5 at a concrete out-of-root path. -/
theorem c5_path_check_amended_witness :
    render_dir
        { RECIPE_DIR := "/r".toList, HTML_PATH := "/h".toList,
          parse := fun _ => .ok ⟨[], [], []⟩,
          folder_template := fun _ _ _ => "F".toList,
          recipe_template := fun _ => "R".toList }
        (.node [] []) "/elsewhere/x".toList
        [(["h".toList, "keep".toList], "K".toList)] =
      ([(["h".toList, "keep".toList], "K".toList)], some .assertionError) ∧
    render_file
        { RECIPE_DIR := "/r".toList, HTML_PATH := "/h".toList,
          parse := fun _ => .ok ⟨[], [], []⟩,
          folder_template := fun _ _ _ => "F".toList,
          recipe_template := fun _ => "R".toList }
        (.node [] []) "/elsewhere/x".toList
        [(["h".toList, "keep".toList], "K".toList)] =
      ([(["h".toList, "keep".toList], "K".toList)], some .assertionError) :=
  c5_path_check_amended _ _ _ _ (by decide)

/-- C3 counterexample.  The file loop at run.py lines 112-114 wraps
`render_file` in no `try`; a parse failure propagates out of
`render_dir`.  Here `a.cook` is malformed and listed before `b.cook`:
the directory render dies on `a.cook`, so `b.cook` — which renders fine
in isolation — gets no output, and its previously rendered output,
already removed by the wipe at the start of the render, is not restored.
Sibling renders are NOT isolated. -/
theorem c3_counterexample :
    -- the directory render aborts with the parse error...
    (render_dir
        { RECIPE_DIR := "/r".toList, HTML_PATH := "/h".toList,
          parse := fun s => if s = "BAD".toList then .error () else .ok ⟨[], [], []⟩,
          folder_template := fun _ _ _ => "F".toList,
          recipe_template := fun _ => "R".toList }
        (.node [] [("a.cook".toList, "BAD".toList), ("b.cook".toList, "GOOD".toList)])
        "/r".toList
        [(["h".toList, "b".toList, "index.html".toList], "OLD".toList)]).2 =
      some .recipeParseError ∧
    -- ...b.cook's output was not produced, and its old output is gone...
    fsLookup
      (render_dir
        { RECIPE_DIR := "/r".toList, HTML_PATH := "/h".toList,
          parse := fun s => if s = "BAD".toList then .error () else .ok ⟨[], [], []⟩,
          folder_template := fun _ _ _ => "F".toList,
          recipe_template := fun _ => "R".toList }
        (.node [] [("a.cook".toList, "BAD".toList), ("b.cook".toList, "GOOD".toList)])
        "/r".toList
        [(["h".toList, "b".toList, "index.html".toList], "OLD".toList)]).1
      ["h".toList, "b".toList, "index.html".toList] = none ∧
    -- ...although b.cook renders successfully in isolation.
    (render_file
        { RECIPE_DIR := "/r".toList, HTML_PATH := "/h".toList,
          parse := fun s => if s = "BAD".toList then .error () else .ok ⟨[], [], []⟩,
          folder_template := fun _ _ _ => "F".toList,
          recipe_template := fun _ => "R".toList }
        (.node [] [("a.cook".toList, "BAD".toList), ("b.cook".toList, "GOOD".toList)])
        "/r/b.cook".toList []).2 = none := by
  decide

/-- C3 (amended).  A parse or I/O failure on one recipe file aborts the
remainder of that directory render: the file loop stops at the first
failing `.cook` file, performing none of the later siblings' writes (and
the wipe that already ran at the start of `render_dir` is not undone, so
their previous output stays deleted).  The exception is caught only at
the coordinator (`on_any_event`), which logs it and keeps serving
events. -/
theorem c3_failure_aborts_rest (cfg : Config) (src : SrcTree) (path f : Str)
    (rest : List Str) (ops : List FsOp) (e : PyErr)
    (hcook : strEnds ".cook".toList f = true)
    (hfail : render_file_ops cfg src (pjoin path f) = (ops, some e)) :
    render_files_go cfg src (f :: rest) path = (ops, some e) ∧
      ∀ fs : Fs, (on_any_event cfg src false path fs) = (fs, none) := by
  constructor
  · unfold render_files_go
    rw [if_pos hcook, hfail]
  · intro fs
    rfl

/-- Witness for the amended C3: with the malformed `a.cook` first, the
loop yields exactly the failure, untouched by the trailing `b.cook`. -/
theorem c3_failure_aborts_rest_witness :
    render_files_go
        { RECIPE_DIR := "/r".toList, HTML_PATH := "/h".toList,
          parse := fun s => if s = "BAD".toList then .error () else .ok ⟨[], [], []⟩,
          folder_template := fun _ _ _ => "F".toList,
          recipe_template := fun _ => "R".toList }
        (.node [] [("a.cook".toList, "BAD".toList), ("b.cook".toList, "GOOD".toList)])
        ["a.cook".toList, "b.cook".toList] "/r".toList =
      ([], some .recipeParseError) ∧
    ∀ fs : Fs,
      on_any_event
          { RECIPE_DIR := "/r".toList, HTML_PATH := "/h".toList,
            parse := fun s => if s = "BAD".toList then .error () else .ok ⟨[], [], []⟩,
            folder_template := fun _ _ _ => "F".toList,
            recipe_template := fun _ => "R".toList }
          (.node [] [("a.cook".toList, "BAD".toList), ("b.cook".toList, "GOOD".toList)])
          false "/r".toList fs = (fs, none) :=
  c3_failure_aborts_rest _ _ _ _ _ _ _ (by decide) (by rfl)

/-- C9.  For every recipe that renders, the normal page and the print
page go through the templating engine with contexts that are identical
in every field — breadcrumbs, ingredients, highlighted steps, metadata,
title, image flag, and even the (unchanging) `is_printable` flag —
except the stylesheet selector `css`, which distinguishes the two
variants. -/
theorem c9_print_context_differs_only_css (cfg : Config) (src : SrcTree)
    (path : Str)
    (hpre : strStarts cfg.RECIPE_DIR path = true)
    (txt : Str) (hres : srcResolveFile cfg src path = some txt)
    (recipe : PRecipe) (hparse : cfg.parse txt = Except.ok recipe)
    (hcook : strEnds ".cook".toList path = true) :
    ∃ (c₁ c₂ : RecipeCtx) (d : Str),
      (render_file_ops cfg src path).1.take 2 =
        [FsOp.write (d ++ "/index.html".toList) (cfg.recipe_template c₁),
          FsOp.write (d ++ "/print.html".toList) (cfg.recipe_template c₂)] ∧
      c₂ = { c₁ with css := "/static/printable.css".toList } ∧
      c₁.css = "/static/styles.css".toList ∧
      c₁.css ≠ c₂.css := by
  unfold render_file_ops
  rw [if_neg (by simp [hpre]), hres]
  dsimp only
  rw [hparse]
  dsimp only
  unfold get_image_path
  rw [if_neg (not_not_intro hcook)]
  dsimp only
  refine ⟨_, _, _, rfl, rfl, rfl, ?_⟩
  show "/static/styles.css".toList ≠ "/static/printable.css".toList
  decide

/-- Witness for C9 on a concrete recipe. -/
theorem c9_print_context_differs_only_css_witness :
    ∃ (c₁ c₂ : RecipeCtx) (d : Str),
      (render_file_ops
          { RECIPE_DIR := "/r".toList, HTML_PATH := "/h".toList,
            parse := fun _ => .ok ⟨[], [], []⟩,
            folder_template := fun _ _ _ => "F".toList,
            recipe_template := fun _ => "R".toList }
          (.node [] [("a.cook".toList, "GOOD".toList)])
          "/r/a.cook".toList).1.take 2 =
        [FsOp.write (d ++ "/index.html".toList)
            (Config.recipe_template
              { RECIPE_DIR := "/r".toList, HTML_PATH := "/h".toList,
                parse := fun _ => .ok ⟨[], [], []⟩,
                folder_template := fun _ _ _ => "F".toList,
                recipe_template := fun _ => "R".toList } c₁),
          FsOp.write (d ++ "/print.html".toList)
            (Config.recipe_template
              { RECIPE_DIR := "/r".toList, HTML_PATH := "/h".toList,
                parse := fun _ => .ok ⟨[], [], []⟩,
                folder_template := fun _ _ _ => "F".toList,
                recipe_template := fun _ => "R".toList } c₂)] ∧
      c₂ = { c₁ with css := "/static/printable.css".toList } ∧
      c₁.css = "/static/styles.css".toList ∧
      c₁.css ≠ c₂.css :=
  c9_print_context_differs_only_css _ _ _ (by decide) _ (by rfl) _ (by rfl)
    (by decide)

/-! ## Characterizing effect traces

`wLast ops sp` is the content of the last write to `sp` in the trace;
for wipe-free traces it fully determines the final filesystem. -/

def wLast : List FsOp → SPath → Option Str
  | [], _ => none
  | .wipe _ :: rest, sp => wLast rest sp
  | .write p c :: rest, sp =>
      match wLast rest sp with
      | some c2 => some c2
      | none => if segs p = sp then some c else none

theorem wLast_nil (sp : SPath) : wLast [] sp = none := rfl

theorem wLast_cons_wipe (d : Str) (ops : List FsOp) (sp : SPath) :
    wLast (FsOp.wipe d :: ops) sp = wLast ops sp := rfl

theorem wLast_cons_write (p : Str) (c : Str) (ops : List FsOp) (sp : SPath) :
    wLast (FsOp.write p c :: ops) sp =
      match wLast ops sp with
      | some c2 => some c2
      | none => if segs p = sp then some c else none := rfl

theorem wLast_append (a b : List FsOp) (sp : SPath) :
    wLast (a ++ b) sp =
      match wLast b sp with
      | some c => some c
      | none => wLast a sp := by
  induction a with
  | nil =>
    cases h : wLast b sp <;> simp [wLast_nil, h]
  | cons op a2 ih =>
    cases op with
    | wipe d =>
      rw [List.cons_append, wLast_cons_wipe, wLast_cons_wipe, ih]
    | write p c =>
      rw [List.cons_append, wLast_cons_write, wLast_cons_write, ih]
      cases wLast b sp <;> cases wLast a2 sp <;> simp

/-- A trace with no wipe operations. -/
def writesOnly (ops : List FsOp) : Prop :=
  ∀ op ∈ ops, ∀ d, op ≠ FsOp.wipe d

/-- For wipe-free traces, the final lookup is the last write when there
is one, and the original binding otherwise. -/
theorem fsLookup_applyOps_writesOnly (ops : List FsOp) (hw : writesOnly ops) :
    ∀ (fs : Fs) (sp : SPath),
      fsLookup (applyOps fs ops) sp =
        match wLast ops sp with
        | some c => some c
        | none => fsLookup fs sp := by
  induction ops with
  | nil => intro fs sp; simp [applyOps, wLast]
  | cons op rest ih =>
    intro fs sp
    cases op with
    | wipe d => exact absurd rfl (hw (.wipe d) (List.mem_cons_self _ _) d)
    | write p c =>
      have hr : writesOnly rest := fun op h => hw op (List.mem_cons_of_mem _ h)
      unfold applyOps at *
      rw [List.foldl_cons]
      have happ : applyOp fs (FsOp.write p c) = fsWrite fs (segs p) c := rfl
      rw [happ, ih hr, wLast_cons_write]
      cases hwl : wLast rest sp with
      | some c2 => rfl
      | none =>
        rw [fsLookup_fsWrite]
        by_cases hp : segs p = sp
        · simp [hp]
        · simp [hp, Ne.symm hp]

theorem isFileIn_eq_lookup_isSome (fs : Fs) (p : SPath) :
    isFileIn fs p = (fsLookup fs p).isSome := by
  induction fs with
  | nil => rfl
  | cons e rest ih =>
    rw [isFileIn_cons, fsLookup_cons, ih]
    by_cases he : e.1 = p <;> simp [he]

/-! ## Well-formed configurations and trees, and path algebra -/

/-- A usable node name: nonempty, slash-free, and not one of the names
the renderer itself gives meaning to (`static` is the spared shared
asset entry; `index.html` is the folder index file; `.`/`..` are special
to the OS path resolver). -/
def cleanNameB (n : Str) : Bool :=
  decide (n ≠ []) && n.all (fun ch => decide (ch ≠ '/')) &&
    decide (n ≠ "static".toList) && decide (n ≠ "index.html".toList) &&
    decide (n ≠ ".".toList) && decide (n ≠ "..".toList) &&
    ! has_magic n && ! ishidden n

theorem cleanNameB_ne_nil {n : Str} (h : cleanNameB n = true) : n ≠ [] := by
  unfold cleanNameB at h
  simp only [Bool.and_eq_true, decide_eq_true_eq] at h
  exact h.1.1.1.1.1.1.1

theorem cleanNameB_no_slash {n : Str} (h : cleanNameB n = true) :
    ∀ ch ∈ n, ch ≠ '/' := by
  unfold cleanNameB at h
  simp only [Bool.and_eq_true, List.all_eq_true, decide_eq_true_eq] at h
  exact h.1.1.1.1.1.1.2

theorem cleanNameB_ne_static {n : Str} (h : cleanNameB n = true) :
    n ≠ "static".toList := by
  unfold cleanNameB at h
  simp only [Bool.and_eq_true, decide_eq_true_eq] at h
  exact h.1.1.1.1.1.2

theorem cleanNameB_ne_index {n : Str} (h : cleanNameB n = true) :
    n ≠ "index.html".toList := by
  unfold cleanNameB at h
  simp only [Bool.and_eq_true, decide_eq_true_eq] at h
  exact h.1.1.1.1.2

theorem cleanNameB_no_magic {n : Str} (h : cleanNameB n = true) :
    has_magic n = false := by
  unfold cleanNameB at h
  simp only [Bool.and_eq_true, Bool.not_eq_true'] at h
  exact h.1.2

theorem cleanNameB_not_hidden {n : Str} (h : cleanNameB n = true) :
    ishidden n = false := by
  unfold cleanNameB at h
  simp only [Bool.and_eq_true, Bool.not_eq_true'] at h
  exact h.2

theorem cleanNameB_segs {n : Str} (h : cleanNameB n = true) : segs n = [n] :=
  segs_single n (cleanNameB_ne_nil h) (cleanNameB_no_slash h)

/-- Well-formedness of a source tree, at every level: every folder and
file name is clean, names are duplicate-free, every `.cook` file has a
clean stem, and no folder shares a name with a recipe stem (those would
collide in the output tree, where a recipe becomes a directory). -/
def wfTreeB : SrcTree → Bool
  | .node folders files =>
      (folders.map Prod.fst).all cleanNameB &&
      (files.map Prod.fst).all cleanNameB &&
      decide ((folders.map Prod.fst).Nodup) &&
      decide ((files.map Prod.fst).Nodup) &&
      (files.map Prod.fst).all (fun f =>
        ! strEnds ".cook".toList f || cleanNameB (pyDropEnd 5 f)) &&
      (folders.map Prod.fst).all (fun nf =>
        (files.map Prod.fst).all (fun f =>
          ! strEnds ".cook".toList f || decide (nf ≠ pyDropEnd 5 f))) &&
      go folders
where go : List (Str × SrcTree) → Bool
  | [] => true
  | e :: rest => wfTreeB e.2 && go rest

theorem wfTreeB_go_mem {l : List (Str × SrcTree)} (h : wfTreeB.go l = true) :
    ∀ e ∈ l, wfTreeB e.2 = true := by
  induction l with
  | nil => intro e he; cases he
  | cons x rest ih =>
    rw [wfTreeB.go, Bool.and_eq_true] at h
    intro e he
    rcases List.mem_cons.1 he with rfl | he2
    · exact h.1
    · exact ih h.2 e he2

/-- Every `.cook` file's raw contents parse successfully, throughout
the tree. -/
def allParseOkB (cfg : Config) : SrcTree → Bool
  | .node folders files =>
      (files.all (fun e =>
        ! strEnds ".cook".toList e.1 || (cfg.parse e.2).isOk)) &&
      go folders
where go : List (Str × SrcTree) → Bool
  | [] => true
  | e :: rest => allParseOkB cfg e.2 && go rest

theorem allParseOkB_go_mem {cfg : Config} {l : List (Str × SrcTree)}
    (h : allParseOkB.go cfg l = true) : ∀ e ∈ l, allParseOkB cfg e.2 = true := by
  induction l with
  | nil => intro e he; cases he
  | cons x rest ih =>
    rw [allParseOkB.go, Bool.and_eq_true] at h
    intro e he
    rcases List.mem_cons.1 he with rfl | he2
    · exact h.1
    · exact ih h.2 e he2

/-- The two configured roots are nonempty path strings with no trailing
separator (the shapes `os.environ`-driven absolute directory paths
have), and the output root contains no glob metacharacter (so that the
wipe's `glob.glob(html_dir + "/*")` pattern is magic-free up to its
final `*`). -/
def wfConfigB (cfg : Config) : Bool :=
  decide (cfg.RECIPE_DIR ≠ []) && ! strEnds ['/'] cfg.RECIPE_DIR &&
    decide (cfg.HTML_PATH ≠ []) && ! strEnds ['/'] cfg.HTML_PATH &&
    ! has_magic cfg.HTML_PATH

/-- The string contributed below a root by descending through the
component names `ds`. -/
def dsSuffix (ds : List Str) : Str := (ds.map (fun n => '/' :: n)).join

/-- The path string `render_dir` passes to itself after descending
through `ds`: iterated `os.path.join`. -/
def dirPathStr (root : Str) (ds : List Str) : Str := ds.foldl pjoin root

theorem dsSuffix_nil : dsSuffix [] = [] := rfl

theorem dsSuffix_cons (n : Str) (ds : List Str) :
    dsSuffix (n :: ds) = '/' :: (n ++ dsSuffix ds) := by
  simp [dsSuffix]

theorem dsSuffix_snoc (ds : List Str) (n : Str) :
    dsSuffix (ds ++ [n]) = dsSuffix ds ++ '/' :: n := by
  simp [dsSuffix]

theorem strEnds_slash_iff (s : Str) :
    strEnds ['/'] s = true ↔ s.getLast? = some '/' := by
  constructor
  · intro h
    rcases List.isSuffixOf_iff_suffix.1 h with ⟨t, ht⟩
    rw [← ht]
    simp
  · intro h
    cases hs : s.getLast? with
    | none => rw [hs] at h; cases h
    | some c =>
      rw [hs] at h
      injection h with h
      subst h
      rcases List.getLast?_eq_some_iff.1 hs with ⟨t, ht⟩
      exact List.isSuffixOf_iff_suffix.2 ⟨t, ht.symm⟩

theorem pjoin_clean (a n : Str) (ha : a ≠ []) (hea : strEnds ['/'] a = false)
    (hn : strStarts ['/'] n = false) : pjoin a n = a ++ '/' :: n := by
  unfold pjoin
  rw [hn]
  simp only [Bool.false_eq_true, if_false]
  rw [if_neg]
  rintro (h | h)
  · exact ha h
  · rw [hea] at h; cases h

theorem strStarts_slash_of_clean {n : Str} (h : cleanNameB n = true) :
    strStarts ['/'] n = false := by
  cases n with
  | nil => rfl
  | cons c rest =>
    have hc : c ≠ '/' := cleanNameB_no_slash h c (List.mem_cons_self c rest)
    unfold strStarts List.isPrefixOf
    simp [hc, Ne.symm hc]

/-- Path shape after descending through clean names. -/
theorem dirPathStr_spec (root : Str) (hne : root ≠ [])
    (hends : strEnds ['/'] root = false) :
    ∀ ds : List Str, (∀ n ∈ ds, cleanNameB n = true) →
      dirPathStr root ds = root ++ dsSuffix ds ∧
        strEnds ['/'] (dirPathStr root ds) = false ∧
        dirPathStr root ds ≠ [] := by
  intro ds
  induction ds using List.reverseRecOn with
  | nil =>
    intro _
    refine ⟨by simp [dirPathStr, dsSuffix], hends, hne⟩
  | append_singleton ds n ih =>
    intro hclean
    have hdsc : ∀ m ∈ ds, cleanNameB m = true :=
      fun m hm => hclean m (List.mem_append_left [n] hm)
    have hnc : cleanNameB n = true :=
      hclean n (List.mem_append_right ds (List.mem_cons_self n []))
    rcases ih hdsc with ⟨hstr, hend, hnn⟩
    have hstep : dirPathStr root (ds ++ [n]) = pjoin (dirPathStr root ds) n := by
      unfold dirPathStr
      rw [List.foldl_append]
      rfl
    rw [hstep, pjoin_clean _ _ hnn hend (strStarts_slash_of_clean hnc), hstr]
    refine ⟨by rw [dsSuffix_snoc, List.append_assoc], ?_, by simp⟩
    have hnn2 : n ≠ [] := cleanNameB_ne_nil hnc
    cases hg : n.getLast? with
    | none => exact absurd (List.getLast?_eq_none_iff.1 hg) hnn2
    | some c2 =>
      have hc2mem : c2 ∈ n := by
        rcases List.getLast?_eq_some_iff.1 hg with ⟨t, ht⟩
        rw [ht]
        simp
      have hslash : c2 ≠ '/' := cleanNameB_no_slash hnc c2 hc2mem
      have hwhole : (root ++ (dsSuffix ds ++ '/' :: n)).getLast? = some c2 := by
        have h1 : root ++ (dsSuffix ds ++ '/' :: n)
            = (root ++ dsSuffix ds ++ ['/']) ++ n := by
          simp
        rw [h1, List.getLast?_append_of_ne_nil _ hnn2, hg]
      rw [List.append_assoc]
      cases hse : strEnds ['/'] (root ++ (dsSuffix ds ++ '/' :: n)) with
      | false => rfl
      | true =>
        have h3 := (strEnds_slash_iff _).1 hse
        rw [hwhole] at h3
        injection h3 with h4
        exact absurd h4 hslash

theorem strStarts_append (a x : Str) : strStarts a (a ++ x) = true :=
  List.isPrefixOf_iff_prefix.2 (List.prefix_append a x)

theorem strEnds_append_right (p a b : Str) (h : strEnds p b = true) :
    strEnds p (a ++ b) = true :=
  List.isSuffixOf_iff_suffix.2
    ((List.isSuffixOf_iff_suffix.1 h).trans (List.suffix_append a b))

theorem segsGo_wellKey :
    ∀ (p cur : Str), (∀ ch ∈ cur, ch ≠ '/') →
      ∀ s ∈ segsGo cur p, s ≠ [] ∧ ∀ ch ∈ s, ch ≠ '/' := by
  intro p
  induction p with
  | nil =>
    intro cur hcur s hs
    rw [segsGo] at hs
    by_cases hc : cur = []
    · rw [if_pos hc] at hs
      cases hs
    · rw [if_neg hc] at hs
      have : s = cur.reverse := by simpa using hs
      subst this
      refine ⟨by simpa using hc, ?_⟩
      intro ch hch
      exact hcur ch (List.mem_reverse.1 hch)
  | cons c rest ih =>
    intro cur hcur s hs
    rw [segsGo] at hs
    by_cases hsl : c = '/'
    · rw [if_pos hsl] at hs
      by_cases hc : cur = []
      · rw [if_pos hc] at hs
        exact ih [] (by intro ch h; cases h) s hs
      · rw [if_neg hc] at hs
        rcases List.mem_cons.1 hs with rfl | hs2
        · refine ⟨by simpa using hc, ?_⟩
          intro ch hch
          exact hcur ch (List.mem_reverse.1 hch)
        · exact ih [] (by intro ch h; cases h) s hs2
    · rw [if_neg hsl] at hs
      refine ih (c :: cur) ?_ s hs
      intro ch hch
      rcases List.mem_cons.1 hch with rfl | hch2
      · exact hsl
      · exact hcur ch hch2

theorem wellKey_segs (p : Str) : wellKey (segs p) := by
  intro s hs
  exact segsGo_wellKey p [] (by intro ch h; cases h) s hs

theorem wellFs_filter (fs : Fs) (q : SPath × Str → Bool) (h : wellFs fs) :
    wellFs (fs.filter q) :=
  fun e he => h e (List.mem_of_mem_filter he)

theorem wellFs_rmtree (fs : Fs) (x : SPath) (h : wellFs fs) :
    wellFs (rmtreeIgnore fs x) := by
  unfold rmtreeIgnore
  by_cases hf : isFileIn fs x
  · rw [if_pos hf]
    exact h
  · rw [if_neg hf]
    exact wellFs_filter fs _ h

theorem wellFs_wipeFold :
    ∀ (xs : List Str) (fs : Fs), wellFs fs →
      wellFs (xs.foldl (fun acc x =>
        if strEnds "/static".toList x then acc
        else rmtreeIgnore acc (segs x)) fs) := by
  intro xs
  induction xs with
  | nil => intro fs h; exact h
  | cons c rest ih =>
    intro fs h
    rw [List.foldl_cons]
    by_cases hst : strEnds "/static".toList c = true
    · rw [if_pos hst]
      exact ih fs h
    · rw [if_neg hst]
      exact ih _ (wellFs_rmtree fs _ h)

theorem wellFs_wipeDir (fs : Fs) (d : Str) (h : wellFs fs) :
    wellFs (wipeDir fs d) := by
  unfold wipeDir
  exact wellFs_wipeFold _ fs h

theorem wellFs_fsWrite (fs : Fs) (p : Str) (c : Str) (h : wellFs fs) :
    wellFs (fsWrite fs (segs p) c) := by
  intro e he
  rcases List.mem_cons.1 he with rfl | he2
  · exact wellKey_segs p
  · exact h e (List.mem_of_mem_filter he2)

theorem wellFs_applyOp (fs : Fs) (op : FsOp) (h : wellFs fs) :
    wellFs (applyOp fs op) := by
  cases op with
  | wipe d => exact wellFs_wipeDir fs d h
  | write p c => exact wellFs_fsWrite fs p c h

theorem wellFs_applyOps (ops : List FsOp) :
    ∀ (fs : Fs), wellFs fs → wellFs (applyOps fs ops) := by
  induction ops with
  | nil => intro fs h; exact h
  | cons op rest ih =>
    intro fs h
    unfold applyOps
    rw [List.foldl_cons]
    exact ih _ (wellFs_applyOp fs op h)

theorem applyOps_append (fs : Fs) (a b : List FsOp) :
    applyOps fs (a ++ b) = applyOps (applyOps fs a) b :=
  List.foldl_append applyOp fs a b

theorem wfConfigB_spec {cfg : Config} (h : wfConfigB cfg = true) :
    cfg.RECIPE_DIR ≠ [] ∧ strEnds ['/'] cfg.RECIPE_DIR = false ∧
      cfg.HTML_PATH ≠ [] ∧ strEnds ['/'] cfg.HTML_PATH = false ∧
      has_magic cfg.HTML_PATH = false := by
  unfold wfConfigB at h
  simp only [Bool.and_eq_true, Bool.not_eq_true', decide_eq_true_eq] at h
  exact ⟨h.1.1.1.1, h.1.1.1.2, h.1.1.2, h.1.2, h.2⟩

theorem strStarts_slash_append {n : Str} (x : Str) (h : cleanNameB n = true) :
    strStarts ['/'] (n ++ x) = false := by
  cases n with
  | nil => exact absurd rfl (cleanNameB_ne_nil h)
  | cons c rest =>
    have hc : c ≠ '/' := cleanNameB_no_slash h c (List.mem_cons_self c rest)
    unfold strStarts List.isPrefixOf
    simp [hc, Ne.symm hc]

theorem dirPathStr_nil (root : Str) : dirPathStr root [] = root := rfl

theorem dirPathStr_snoc (root : Str) (ds : List Str) (n : Str) :
    dirPathStr root (ds ++ [n]) = pjoin (dirPathStr root ds) n := by
  unfold dirPathStr
  rw [List.foldl_append]
  rfl

theorem segs_append_dsSuffix (X : Str) :
    ∀ ds : List Str, (∀ n ∈ ds, cleanNameB n = true) →
      segs (X ++ dsSuffix ds) = segs X ++ ds := by
  intro ds
  induction ds using List.reverseRecOn with
  | nil => intro _; simp [dsSuffix]
  | append_singleton ds n ih =>
    intro h
    rw [dsSuffix_snoc, ← List.append_assoc, segs_append_slash,
      cleanNameB_segs (h n (List.mem_append_right ds (List.mem_cons_self n []))),
      ih (fun m hm => h m (List.mem_append_left [n] hm)), List.append_assoc]

theorem pyDropStart_dirPath (R : Str) (ds : List Str) :
    pyDropStart (R.length + 1) (R ++ dsSuffix ds) = (dsSuffix ds).drop 1 := by
  unfold pyDropStart
  rw [List.drop_append]

theorem relOf_cons (n : Str) (ds : List Str) :
    (dsSuffix (n :: ds)).drop 1 = n ++ dsSuffix ds := by
  rw [dsSuffix_cons]
  rfl

/-- `html_dir` at the tree root: `os.path.join(HTML_PATH, "")` appends a
bare separator. -/
theorem html_dir_nil (cfg : Config) (hcfg : wfConfigB cfg = true) :
    pjoin cfg.HTML_PATH
        (pyDropStart (cfg.RECIPE_DIR.length + 1) (dirPathStr cfg.RECIPE_DIR [])) =
      cfg.HTML_PATH ++ ['/'] := by
  rcases wfConfigB_spec hcfg with ⟨_, _, hh, hhe, _⟩
  have h0 : pyDropStart (cfg.RECIPE_DIR.length + 1) (dirPathStr cfg.RECIPE_DIR []) =
      ([] : Str) :=
    List.drop_eq_nil_of_le (Nat.le_succ _)
  rw [h0, pjoin_clean _ _ hh hhe (by decide)]

/-- `html_dir` below the root: the HTML root extended by the source-tree
descent path. -/
theorem html_dir_cons (cfg : Config) (hcfg : wfConfigB cfg = true)
    (n : Str) (ds : List Str) (hclean : ∀ m ∈ n :: ds, cleanNameB m = true) :
    pjoin cfg.HTML_PATH
        (pyDropStart (cfg.RECIPE_DIR.length + 1)
          (dirPathStr cfg.RECIPE_DIR (n :: ds))) =
      cfg.HTML_PATH ++ dsSuffix (n :: ds) := by
  rcases wfConfigB_spec hcfg with ⟨hr, hre, hh, hhe, _⟩
  rw [(dirPathStr_spec cfg.RECIPE_DIR hr hre (n :: ds) hclean).1,
    pyDropStart_dirPath, relOf_cons,
    pjoin_clean _ _ hh hhe
      (strStarts_slash_append _ (hclean n (List.mem_cons_self n ds))),
    dsSuffix_cons]

theorem segs_html_dir (cfg : Config) (hcfg : wfConfigB cfg = true)
    (ds : List Str) (hclean : ∀ m ∈ ds, cleanNameB m = true) :
    segs (pjoin cfg.HTML_PATH
        (pyDropStart (cfg.RECIPE_DIR.length + 1) (dirPathStr cfg.RECIPE_DIR ds))) =
      segs cfg.HTML_PATH ++ ds := by
  cases ds with
  | nil =>
    rw [html_dir_nil cfg hcfg]
    have h1 : cfg.HTML_PATH ++ ['/'] = cfg.HTML_PATH ++ '/' :: [] := rfl
    rw [h1, segs_append_slash, segs_nil, List.append_nil]
  | cons n ds' =>
    rw [html_dir_cons cfg hcfg n ds' hclean]
    exact segs_append_dsSuffix cfg.HTML_PATH (n :: ds') hclean

theorem pyDropEnd_append (x f : Str) (h : 5 ≤ f.length) :
    pyDropEnd 5 (x ++ f) = x ++ pyDropEnd 5 f := by
  unfold pyDropEnd
  rw [List.length_append]
  have h1 : x.length + f.length - 5 = x.length + (f.length - 5) := by omega
  rw [h1, List.take_append]

theorem pyDropEnd_cook {f : Str} (h : strEnds ".cook".toList f = true) :
    pyDropEnd 5 f ++ ".cook".toList = f ∧ 5 ≤ f.length := by
  rcases List.isSuffixOf_iff_suffix.1 h with ⟨t, ht⟩
  subst ht
  constructor
  · unfold pyDropEnd
    have h1 : (t ++ ".cook".toList).length - 5 = t.length := by simp
    rw [h1, List.take_left]
  · simp

theorem lastSlashIdx_no_slash (f : Str) (h : ∀ ch ∈ f, ch ≠ '/') :
    lastSlashIdx f = none := by
  induction f with
  | nil => rfl
  | cons c rest ih =>
    rw [lastSlashIdx, ih (fun ch hm => h ch (List.mem_cons_of_mem c hm))]
    have hc : c ≠ '/' := h c (List.mem_cons_self c rest)
    simp [hc]

theorem lastSlashIdx_append_slash (x f : Str) (h : ∀ ch ∈ f, ch ≠ '/') :
    lastSlashIdx (x ++ '/' :: f) = some x.length := by
  induction x with
  | nil =>
    rw [List.nil_append, lastSlashIdx, lastSlashIdx_no_slash f h]
    rfl
  | cons c rest ih =>
    rw [List.cons_append, lastSlashIdx, ih]
    rfl

theorem pySplit_snd (x f : Str) (h : ∀ ch ∈ f, ch ≠ '/') :
    (pySplit (x ++ '/' :: f)).2 = f := by
  unfold pySplit
  rw [lastSlashIdx_append_slash x f h]
  show (x ++ '/' :: f).drop (x.length + 1) = f
  rw [List.drop_append]
  rfl

theorem findEntry_of_mem {α : Type} (l : List (Str × α)) (n : Str) (v : α)
    (hmem : (n, v) ∈ l) (hnd : (l.map Prod.fst).Nodup) : findEntry l n = some v := by
  induction l with
  | nil => cases hmem
  | cons e rest ih =>
    by_cases he : e.1 = n
    · have hv : e.2 = v := by
        rcases List.mem_cons.1 hmem with heq | hr
        · rw [← heq]
        · exfalso
          have hn : n ∈ rest.map Prod.fst :=
            List.mem_map.2 ⟨(n, v), hr, rfl⟩
          rw [List.map_cons] at hnd
          exact (List.nodup_cons.1 hnd).1 (he ▸ hn)
      unfold findEntry
      rw [List.find?_cons_of_pos _ (by simpa using he)]
      simp [hv]
    · have hmem2 : (n, v) ∈ rest := by
        rcases List.mem_cons.1 hmem with heq | hr
        · exact absurd (by rw [← heq]) he
        · exact hr
      have hnd2 : (rest.map Prod.fst).Nodup := by
        rw [List.map_cons] at hnd
        exact (List.nodup_cons.1 hnd).2
      unfold findEntry at ih ⊢
      rw [List.find?_cons_of_neg _ (by simpa using he)]
      exact ih hmem2 hnd2

theorem resolveDir_cons (t : SrcTree) (n : Str) (rest : List Str) :
    resolveDir t (n :: rest) =
      match findEntry t.folders n with
      | some t2 => resolveDir t2 rest
      | none => none := rfl

theorem resolveDir_snoc (src : SrcTree) :
    ∀ (ds : List Str) (t t2 : SrcTree) (n : Str),
      resolveDir src ds = some t → findEntry t.folders n = some t2 →
      resolveDir src (ds ++ [n]) = some t2 := by
  intro ds
  induction ds generalizing src with
  | nil =>
    intro t t2 n hres hfind
    have ht : src = t := by
      have : some src = some t := hres
      injection this
    subst ht
    rw [List.nil_append, resolveDir_cons, hfind]
    rfl
  | cons m ds' ih =>
    intro t t2 n hres hfind
    rw [resolveDir_cons] at hres
    rw [List.cons_append, resolveDir_cons]
    cases hf : findEntry src.folders m with
    | none => rw [hf] at hres; cases hres
    | some t' =>
      rw [hf] at hres
      exact ih t' t t2 n hres hfind

theorem resolveFileAt_cons_cons (t : SrcTree) (n a : Str) (rest : List Str) :
    resolveFileAt t (n :: a :: rest) =
      match findEntry t.folders n with
      | some t2 => resolveFileAt t2 (a :: rest)
      | none => none := rfl

theorem resolveFileAt_snoc (src : SrcTree) :
    ∀ (ds : List Str) (t : SrcTree) (f : Str),
      resolveDir src ds = some t →
      resolveFileAt src (ds ++ [f]) = findEntry t.files f := by
  intro ds
  induction ds generalizing src with
  | nil =>
    intro t f hres
    have ht : src = t := by
      have : some src = some t := hres
      injection this
    subst ht
    rfl
  | cons m ds' ih =>
    intro t f hres
    rw [resolveDir_cons] at hres
    cases hds : ds' ++ [f] with
    | nil => exact absurd hds (by simp)
    | cons a rest =>
      rw [List.cons_append, hds, resolveFileAt_cons_cons]
      cases hf : findEntry src.folders m with
      | none => rw [hf] at hres; cases hres
      | some t' =>
        rw [hf] at hres
        rw [← hds]
        exact ih t' t f hres

theorem prefix_strict_decomp {D sp : SPath} (h : D <+: sp) (hne : sp ≠ D) :
    ∃ c rest, sp = D ++ c :: rest := by
  rcases h with ⟨r, hr⟩
  cases r with
  | nil => exact absurd (by rw [← hr]; simp) hne
  | cons c rest => exact ⟨c, rest, hr.symm⟩

theorem first_comp_eq {D : SPath} {a b : Str} {q q' : List Str}
    (h : D ++ a :: q = D ++ b :: q') : a = b := by
  have h2 := List.append_cancel_left h
  injection h2

theorem prefix_first_comp {D : SPath} {a b : Str} {q' : List Str}
    (h : (D ++ [a]) <+: (D ++ b :: q')) : a = b := by
  rcases h with ⟨r, hr⟩
  rw [List.append_assoc] at hr
  have h2 : a :: r = b :: q' := List.append_cancel_left hr
  injection h2

theorem wLast_isSome_of_mem (ops : List FsOp) (p c : Str) (sp : SPath)
    (hmem : FsOp.write p c ∈ ops) (hk : segs p = sp) :
    (wLast ops sp).isSome = true := by
  induction ops with
  | nil => cases hmem
  | cons op rest ih =>
    rcases List.mem_cons.1 hmem with heq | h2
    · rw [← heq, wLast_cons_write]
      cases h : wLast rest sp with
      | some c2 => simp
      | none => simp [hk]
    · cases op with
      | wipe d =>
        rw [wLast_cons_wipe]
        exact ih h2
      | write p2 c2 =>
        rw [wLast_cons_write]
        have hs := ih h2
        cases h : wLast rest sp with
        | some c3 => simp
        | none => rw [h] at hs; simp at hs

theorem wLast_eq_some_write (ops : List FsOp) (sp : SPath) (v : Str) :
    wLast ops sp = some v → ∃ p, FsOp.write p v ∈ ops ∧ segs p = sp := by
  induction ops with
  | nil => intro h; cases h
  | cons op rest ih =>
    intro h
    cases op with
    | wipe d =>
      rw [wLast_cons_wipe] at h
      rcases ih h with ⟨p, hm, hk⟩
      exact ⟨p, List.mem_cons_of_mem _ hm, hk⟩
    | write p2 c2 =>
      rw [wLast_cons_write] at h
      cases h2 : wLast rest sp with
      | some c3 =>
        rw [h2] at h
        have h3 : c3 = v := by injection h
        subst h3
        rcases ih h2 with ⟨p, hm, hk⟩
        exact ⟨p, List.mem_cons_of_mem _ hm, hk⟩
      | none =>
        rw [h2] at h
        by_cases hp : segs p2 = sp
        · rw [if_pos hp] at h
          have h3 : c2 = v := by injection h
          subst h3
          exact ⟨p2, List.mem_cons_self _ _, hp⟩
        · rw [if_neg hp] at h
          cases h

theorem wLast_none_of_no_write (ops : List FsOp) (sp : SPath)
    (h : ∀ p c, FsOp.write p c ∈ ops → segs p ≠ sp) : wLast ops sp = none := by
  cases hw : wLast ops sp with
  | none => rfl
  | some v =>
    rcases wLast_eq_some_write ops sp v hw with ⟨p, hm, hk⟩
    exact absurd hk (h p v hm)

theorem wLast_append_isSome_right (a b : List FsOp) (sp : SPath)
    (h : (wLast b sp).isSome = true) : (wLast (a ++ b) sp).isSome = true := by
  rw [wLast_append]
  cases hb : wLast b sp with
  | none => rw [hb] at h; simp at h
  | some c => simp

theorem wLast_append_isSome_left (a b : List FsOp) (sp : SPath)
    (h : (wLast a sp).isSome = true) : (wLast (a ++ b) sp).isSome = true := by
  rw [wLast_append]
  cases hb : wLast b sp with
  | none => exact h
  | some c => simp

theorem sizeT_go_perm {l l' : List (Str × SrcTree)} (h : l.Perm l') :
    sizeT.go l = sizeT.go l' := by
  induction h with
  | nil => rfl
  | cons x h2 ih =>
    obtain ⟨a, b⟩ := x
    rw [sizeT.go, sizeT.go, ih]
  | swap x y l =>
    obtain ⟨a, b⟩ := x
    obtain ⟨c, d⟩ := y
    rw [sizeT.go, sizeT.go, sizeT.go, sizeT.go]
    omega
  | trans h1 h2 ih1 ih2 => rw [ih1, ih2]

theorem bool_imp_of_or {a b : Bool} (h : (!a || b) = true) : a = true → b = true := by
  cases a <;> cases b <;> simp_all

theorem wfTreeB_spec {t : SrcTree} (h : wfTreeB t = true) :
    (∀ n ∈ t.folders.map Prod.fst, cleanNameB n = true) ∧
    (∀ n ∈ t.files.map Prod.fst, cleanNameB n = true) ∧
    (t.folders.map Prod.fst).Nodup ∧
    (t.files.map Prod.fst).Nodup ∧
    (∀ f ∈ t.files.map Prod.fst, strEnds ".cook".toList f = true →
      cleanNameB (pyDropEnd 5 f) = true) ∧
    (∀ nf ∈ t.folders.map Prod.fst, ∀ f ∈ t.files.map Prod.fst,
      strEnds ".cook".toList f = true → nf ≠ pyDropEnd 5 f) ∧
    (∀ e ∈ t.folders, wfTreeB e.2 = true) := by
  cases t with
  | node folders files =>
    rw [wfTreeB] at h
    simp only [Bool.and_eq_true] at h
    obtain ⟨⟨⟨⟨⟨⟨h1, h2⟩, h3⟩, h4⟩, h5⟩, h6⟩, h7⟩ := h
    simp only [List.all_eq_true] at h1 h2 h5 h6
    refine ⟨h1, h2, by simpa using h3, by simpa using h4, ?_, ?_, ?_⟩
    · intro f hf hcook
      exact bool_imp_of_or (h5 f hf) hcook
    · intro nf hnf f hf hcook
      have h8 := bool_imp_of_or (h6 nf hnf f hf) hcook
      simpa using h8
    · exact wfTreeB_go_mem h7

theorem allParseOkB_spec {cfg : Config} {t : SrcTree}
    (h : allParseOkB cfg t = true) :
    (∀ e ∈ t.files, strEnds ".cook".toList e.1 = true →
      ∃ r, cfg.parse e.2 = .ok r) ∧
    (∀ e ∈ t.folders, allParseOkB cfg e.2 = true) := by
  cases t with
  | node folders files =>
    rw [allParseOkB] at h
    simp only [Bool.and_eq_true, List.all_eq_true] at h
    refine ⟨?_, allParseOkB_go_mem h.2⟩
    intro e he hcook
    have hok := bool_imp_of_or (h.1 e he) hcook
    cases hp : cfg.parse e.2 with
    | ok r => exact ⟨r, rfl⟩
    | error err =>
      rw [hp] at hok
      simp [Except.isOk, Except.toBool] at hok

theorem sizeT_lt_of_mem {l : List (Str × SrcTree)} {e : Str × SrcTree}
    (h : e ∈ l) : sizeT e.2 < sizeT.go l := by
  induction l with
  | nil => cases h
  | cons x rest ih =>
    rw [show sizeT.go (x :: rest) = 1 + sizeT x.2 + sizeT.go rest from by
      obtain ⟨a, b⟩ := x; rfl]
    rcases List.mem_cons.1 h with heq | h2
    · rw [heq]
      omega
    · have h3 := ih h2
      omega

/-- All recipe files in a source tree, as (descent path, stem) pairs. -/
def recipesOf : SrcTree → List (List Str × Str)
  | .node folders files =>
      (files.map Prod.fst).filterMap
        (fun f => if strEnds ".cook".toList f then some (([] : List Str), pyDropEnd 5 f)
          else none)
      ++ go folders
where go : List (Str × SrcTree) → List (List Str × Str)
  | [] => []
  | (n, t) :: rest => (recipesOf t).map (fun r => (n :: r.1, r.2)) ++ go rest

theorem recipesOf_go_mem {l : List (Str × SrcTree)} {r : List Str × Str} :
    r ∈ recipesOf.go l ↔
      ∃ e ∈ l, ∃ r2 ∈ recipesOf e.2, r = (e.1 :: r2.1, r2.2) := by
  induction l with
  | nil =>
    constructor
    · intro h
      exact absurd h (List.not_mem_nil r)
    · rintro ⟨e, he, _⟩
      exact absurd he (List.not_mem_nil e)
  | cons e rest ih =>
    obtain ⟨n, t⟩ := e
    rw [recipesOf.go, List.mem_append, ih]
    constructor
    · rintro (hmap | ⟨e2, he2, r2, hr2, heq⟩)
      · rcases List.mem_map.1 hmap with ⟨r2, hr2, heq⟩
        exact ⟨(n, t), List.mem_cons_self _ _, r2, hr2, heq.symm⟩
      · exact ⟨e2, List.mem_cons_of_mem _ he2, r2, hr2, heq⟩
    · rintro ⟨e2, he2, r2, hr2, heq⟩
      rcases List.mem_cons.1 he2 with heq2 | h2
      · subst heq2
        exact Or.inl (List.mem_map.2 ⟨r2, hr2, heq.symm⟩)
      · exact Or.inr ⟨e2, h2, r2, hr2, heq⟩

theorem recipesOf_mem {t : SrcTree} {r : List Str × Str} :
    r ∈ recipesOf t ↔
      ((∃ f ∈ t.files.map Prod.fst, strEnds ".cook".toList f = true ∧
          r = ([], pyDropEnd 5 f)) ∨
        ∃ e ∈ t.folders, ∃ r2 ∈ recipesOf e.2, r = (e.1 :: r2.1, r2.2)) := by
  cases t with
  | node folders files =>
    rw [recipesOf, List.mem_append, recipesOf_go_mem]
    constructor
    · rintro (hloc | hgo)
      · rcases List.mem_filterMap.1 hloc with ⟨f, hf, hcond⟩
        by_cases hcook : strEnds ".cook".toList f = true
        · rw [if_pos hcook] at hcond
          have : r = ([], pyDropEnd 5 f) := by
            have h2 : some (([] : List Str), pyDropEnd 5 f) = some r := hcond
            injection h2 with h3
            exact h3.symm
          exact Or.inl ⟨f, hf, hcook, this⟩
        · rw [if_neg hcook] at hcond
          cases hcond
      · exact Or.inr hgo
    · rintro (⟨f, hf, hcook, heq⟩ | hgo)
      · refine Or.inl (List.mem_filterMap.2 ⟨f, hf, ?_⟩)
        rw [if_pos hcook, heq]
      · exact Or.inr hgo

/-- The names of the per-child output areas a directory render writes
under its own output directory: subfolder names and recipe stems. -/
def childAreas (t : SrcTree) : List Str :=
  t.folders.map Prod.fst ++
    ((t.files.map Prod.fst).filter (fun f => strEnds ".cook".toList f)).map
      (fun f => pyDropEnd 5 f)

theorem childAreas_clean {t : SrcTree} (h : wfTreeB t = true) :
    ∀ n ∈ childAreas t, cleanNameB n = true := by
  rcases wfTreeB_spec h with ⟨h1, _, _, _, h5, _, _⟩
  intro n hn
  rcases List.mem_append.1 hn with hf | hs
  · exact h1 n hf
  · rcases List.mem_map.1 hs with ⟨f, hf, heq⟩
    have hmem := List.mem_of_mem_filter hf
    have hcook : strEnds ".cook".toList f = true := List.of_mem_filter hf
    rw [← heq]
    exact h5 f hmem hcook

/-- The well-started-area condition: under `D` (outside the spared
`static` subtree) the filesystem holds at most the folder index page
`D/index.html` and contents of non-file directory children — the shapes
a previous render leaves and a fresh output tree trivially has. -/
def areaOk (fs : Fs) (D : SPath) : Prop :=
  ∀ sp v, fsLookup fs sp = some v → D <+: sp → sp ≠ D →
    ¬ (D ++ ["static".toList]) <+: sp →
    sp = D ++ ["index.html".toList] ∨
    ∃ c rest, sp = D ++ c :: rest ∧ rest ≠ [] ∧ c ≠ "index.html".toList ∧
      ishidden c = false ∧ isFileIn fs (D ++ [c]) = false

theorem areaOk_of_empty {fs : Fs} {D : SPath}
    (h : ∀ sp, D <+: sp → fsLookup fs sp = none) : areaOk fs D := by
  intro sp v hv hpre _ _
  rw [h sp hpre] at hv
  cases hv

/-- After the wipe at the start of a directory render over a good area,
everything strictly under the output directory is gone except the
`static` subtree and (possibly) the old folder index page. -/
theorem wipe_clean (fs : Fs) (d dt : Str) (hw : wellFs fs)
    (hg : globArg d dt) (haok : areaOk fs (segs d)) (sp : SPath)
    (hpre : segs d <+: sp) (hne : sp ≠ segs d)
    (hst : ¬ (segs d ++ ["static".toList]) <+: sp)
    (hidx : sp ≠ segs d ++ ["index.html".toList]) :
    fsLookup (wipeDir fs d) sp = none := by
  cases hv : fsLookup fs sp with
  | none =>
    rw [fsLookup_wipeDir fs d dt hw hg sp]
    by_cases hc : ∃ c ∈ childNames fs (segs d), ishidden c = false ∧
        c ≠ "static".toList ∧
        isFileIn fs (segs d ++ [c]) = false ∧ (segs d ++ [c]) <+: sp
    · rw [if_pos hc]
    · rw [if_neg hc]
      exact hv
  | some v =>
    rcases haok sp v hv hpre hne hst with heq | ⟨c, rest, hsp, _, _, hch, hcfile⟩
    · exact absurd heq hidx
    · have hpre2 : (segs d ++ [c]) <+: sp := ⟨rest, by rw [hsp]; simp⟩
      rw [fsLookup_wipeDir fs d dt hw hg sp]
      refine if_pos ⟨c, mem_childNames_of_entry hv hpre2, hch, ?_, hcfile, hpre2⟩
      intro hcs
      refine hst ⟨rest, ?_⟩
      rw [hsp, hcs]
      simp

theorem sizeT_pos (t : SrcTree) : 1 ≤ sizeT t := by
  cases t with
  | node folders files =>
    rw [sizeT]
    omega

theorem recipesOf_clean_aux :
    ∀ (k : Nat) (t : SrcTree), sizeT t ≤ k → wfTreeB t = true →
      ∀ r ∈ recipesOf t, (∀ n ∈ r.1, cleanNameB n = true) ∧ cleanNameB r.2 = true := by
  intro k
  induction k with
  | zero =>
    intro t hle
    exact absurd hle (by have := sizeT_pos t; omega)
  | succ k ih =>
    intro t hle hwf r hr
    rcases recipesOf_mem.1 hr with ⟨f, hf, hcook, heq⟩ | ⟨e, he, r2, hr2, heq⟩
    · subst heq
      rcases wfTreeB_spec hwf with ⟨_, _, _, _, h5, _, _⟩
      exact ⟨fun n hn => absurd hn (List.not_mem_nil n), h5 f hf hcook⟩
    · subst heq
      have hwfe := (wfTreeB_spec hwf).2.2.2.2.2.2 e he
      have hlt : sizeT e.2 ≤ k := by
        have h1 := sizeT_lt_of_mem he
        have h2 : sizeT t = 1 + sizeT.go t.folders := by
          cases t
          rfl
        omega
      rcases ih e.2 hlt hwfe r2 hr2 with ⟨hclean1, hclean2⟩
      refine ⟨?_, hclean2⟩
      intro n hn
      rcases List.mem_cons.1 hn with rfl | hn2
      · exact (wfTreeB_spec hwf).1 e.1 (List.mem_map.2 ⟨e, he, rfl⟩)
      · exact hclean1 n hn2

theorem recipesOf_clean {t : SrcTree} (h : wfTreeB t = true) :
    ∀ r ∈ recipesOf t, (∀ n ∈ r.1, cleanNameB n = true) ∧ cleanNameB r.2 = true :=
  recipesOf_clean_aux (sizeT t) t (le_refl _) h

theorem strEnds_slash_clean_tail (x : Str) {n : Str} (hn : cleanNameB n = true) :
    strEnds ['/'] (x ++ '/' :: n) = false := by
  have hnn : n ≠ [] := cleanNameB_ne_nil hn
  cases hg : n.getLast? with
  | none => exact absurd (List.getLast?_eq_none_iff.1 hg) hnn
  | some c2 =>
    have hc2mem : c2 ∈ n := by
      rcases List.getLast?_eq_some_iff.1 hg with ⟨t, ht⟩
      rw [ht]
      simp
    have hslash : c2 ≠ '/' := cleanNameB_no_slash hn c2 hc2mem
    have hwhole : (x ++ '/' :: n).getLast? = some c2 := by
      have h1 : x ++ '/' :: n = (x ++ ['/']) ++ n := by simp
      rw [h1, List.getLast?_append_of_ne_nil _ hnn, hg]
    cases hse : strEnds ['/'] (x ++ '/' :: n) with
    | false => rfl
    | true =>
      have h3 := (strEnds_slash_iff _).1 hse
      rw [hwhole] at h3
      injection h3 with h4
      exact absurd h4 hslash

/-- `html_dir` below the root, for any nonempty clean descent. -/
theorem html_dir_pos (cfg : Config) (hcfg : wfConfigB cfg = true)
    (ds : List Str) (hne : ds ≠ []) (hclean : ∀ m ∈ ds, cleanNameB m = true) :
    pjoin cfg.HTML_PATH
        (pyDropStart (cfg.RECIPE_DIR.length + 1) (dirPathStr cfg.RECIPE_DIR ds)) =
      cfg.HTML_PATH ++ dsSuffix ds := by
  cases ds with
  | nil => exact absurd rfl hne
  | cons n ds' => exact html_dir_cons cfg hcfg n ds' hclean

theorem dropTrailingSlashes_append_slash (x : Str) :
    dropTrailingSlashes (x ++ ['/']) = dropTrailingSlashes x := by
  unfold dropTrailingSlashes
  rw [List.reverse_append]
  simp [List.dropWhile_cons]

theorem dropTrailingSlashes_no_slash_end (x : Str)
    (h : strEnds ['/'] x = false) : dropTrailingSlashes x = x := by
  unfold dropTrailingSlashes
  cases hx : x.reverse with
  | nil =>
    have hxe : x = [] := by simpa using congrArg List.reverse hx
    rw [hxe]
    rfl
  | cons c r =>
    have hlast : x.getLast? = some c := by
      rw [← List.head?_reverse, hx]
      rfl
    have hc : c ≠ '/' := by
      intro hcc
      have h2 := (strEnds_slash_iff x).2 (by rw [hlast, hcc])
      rw [h] at h2
      cases h2
    rw [List.dropWhile_cons, if_neg (by simp [hc]), ← hx, List.reverse_reverse]

theorem not_all_slash_under (d : Str) (h2 : d ≠ [])
    (h3 : strEnds ['/'] d = false) (l : Str) (hpre : d <+: l) :
    ¬ (l.all (fun c => decide (c = '/')) = true) := by
  intro hall
  rcases hpre with ⟨t, rfl⟩
  rw [List.all_append, Bool.and_eq_true] at hall
  have hd' := hall.1
  rcases List.eq_nil_or_concat d with rfl | ⟨l', c, rfl⟩
  · exact h2 rfl
  · rw [List.concat_eq_append] at hd' h3
    have hc : c = '/' := by
      simpa using List.all_eq_true.1 hd' c
        (List.mem_append_right _ (List.mem_cons_self _ _))
    have hend : strEnds ['/'] (l' ++ [c]) = true :=
      (strEnds_slash_iff _).2 (by rw [List.getLast?_concat, hc])
    rw [h3] at hend
    cases hend

theorem pySplit_fst (x f : Str) (h : ∀ ch ∈ f, ch ≠ '/') :
    (pySplit (x ++ '/' :: f)).1 =
      if ((x ++ ['/']).all (fun c => c = '/')) then x ++ ['/']
      else dropTrailingSlashes (x ++ ['/']) := by
  unfold pySplit
  rw [lastSlashIdx_append_slash x f h]
  show (if ((x ++ '/' :: f).take (x.length + 1)).all (fun c => c = '/')
        then (x ++ '/' :: f).take (x.length + 1)
        else dropTrailingSlashes ((x ++ '/' :: f).take (x.length + 1))) = _
  have htake : (x ++ '/' :: f).take (x.length + 1) = x ++ ['/'] := by
    rw [List.take_append]
    rfl
  rw [htake]

/-- A magic-free directory path with no trailing separator is its own
glob dirname. -/
theorem globArg_self (d : Str) (h1 : has_magic d = false) (h2 : d ≠ [])
    (h3 : strEnds ['/'] d = false) : globArg d d := by
  refine ⟨?_, h1, h2, h3, rfl⟩
  show pySplit (d ++ '/' :: ['*']) = (d, ['*'])
  refine Prod.ext_iff.2 ⟨?_, pySplit_snd d ['*'] (by decide)⟩
  rw [pySplit_fst d ['*'] (by decide),
    if_neg (not_all_slash_under d h2 h3 _ (List.prefix_append d ['/'])),
    dropTrailingSlashes_append_slash, dropTrailingSlashes_no_slash_end d h3]

/-- The root form `os.path.join(root, "")` — a trailing separator — has
the bare root as its glob dirname. -/
theorem globArg_slash (d : Str) (h1 : has_magic d = false) (h2 : d ≠ [])
    (h3 : strEnds ['/'] d = false) : globArg (d ++ ['/']) d := by
  refine ⟨?_, h1, h2, h3, ?_⟩
  · show pySplit ((d ++ ['/']) ++ '/' :: ['*']) = (d, ['*'])
    refine Prod.ext_iff.2 ⟨?_, pySplit_snd (d ++ ['/']) ['*'] (by decide)⟩
    rw [pySplit_fst (d ++ ['/']) ['*'] (by decide),
      if_neg (not_all_slash_under d h2 h3 _
        ((List.prefix_append d ['/']).trans (List.prefix_append _ ['/']))),
      dropTrailingSlashes_append_slash, dropTrailingSlashes_append_slash,
      dropTrailingSlashes_no_slash_end d h3]
  · show segs d = segs (d ++ '/' :: [])
    rw [segs_append_slash, segs_nil, List.append_nil]

theorem has_magic_cons (c : Char) (s : Str) :
    has_magic (c :: s) =
      ((decide (c = '*') || decide (c = '?') || decide (c = '[')) ||
        has_magic s) := rfl

theorem has_magic_dsSuffix (ds : List Str)
    (h : ∀ m ∈ ds, cleanNameB m = true) : has_magic (dsSuffix ds) = false := by
  induction ds with
  | nil => rfl
  | cons n rest ih =>
    rw [dsSuffix_cons, has_magic_cons, has_magic_append,
      cleanNameB_no_magic (h n (List.mem_cons_self n rest)),
      ih (fun m hm => h m (List.mem_cons_of_mem n hm))]
    decide

theorem strEnds_slash_dsSuffix (X : Str) (ds : List Str) (hne : ds ≠ [])
    (h : ∀ m ∈ ds, cleanNameB m = true) :
    strEnds ['/'] (X ++ dsSuffix ds) = false := by
  rcases List.eq_nil_or_concat ds with rfl | ⟨ds2, m, rfl⟩
  · exact absurd rfl hne
  · rw [List.concat_eq_append] at h ⊢
    rw [dsSuffix_snoc, ← List.append_assoc]
    exact strEnds_slash_clean_tail _
      (h m (List.mem_append_right _ (List.mem_cons_self _ _)))

/-- The `html_dir` the renderer wipes always has the `glob.glob`
argument shape, with dirname the HTML root extended by the descent
path. -/
theorem globArg_html_dir (cfg : Config) (hcfg : wfConfigB cfg = true)
    (ds : List Str) (hds : ∀ m ∈ ds, cleanNameB m = true) :
    globArg (pjoin cfg.HTML_PATH
        (pyDropStart (cfg.RECIPE_DIR.length + 1) (dirPathStr cfg.RECIPE_DIR ds)))
      (cfg.HTML_PATH ++ dsSuffix ds) := by
  rcases wfConfigB_spec hcfg with ⟨_, _, hh, hhe, hhm⟩
  cases ds with
  | nil =>
    rw [html_dir_nil cfg hcfg, show dsSuffix [] = [] from rfl, List.append_nil]
    exact globArg_slash cfg.HTML_PATH hhm hh hhe
  | cons n ds' =>
    rw [html_dir_cons cfg hcfg n ds' hds]
    refine globArg_self _ ?_ ?_ ?_
    · rw [has_magic_append, hhm, Bool.false_or]
      exact has_magic_dsSuffix (n :: ds') hds
    · intro hnil
      exact hh (List.append_eq_nil.1 hnil).1
    · exact strEnds_slash_dsSuffix cfg.HTML_PATH (n :: ds') (by simp) hds

/-- The effect trace of a successful `render_file` on a recipe file
listed in its source directory: exactly the index page, the print page,
the copied source, and (for recipes with an image) the copied image, all
written into the recipe's own output directory `D/[stem]`. -/
theorem render_file_ops_spec (cfg : Config) (src : SrcTree)
    (hcfg : wfConfigB cfg = true)
    (ds : List Str) (hds : ∀ m ∈ ds, cleanNameB m = true)
    (t : SrcTree) (hres : resolveDir src ds = some t)
    (f txt : Str) (hmem : (f, txt) ∈ t.files)
    (hcook : strEnds ".cook".toList f = true)
    (hfclean : cleanNameB f = true)
    (hsclean : cleanNameB (pyDropEnd 5 f) = true)
    (hnd : (t.files.map Prod.fst).Nodup)
    (hparse : ∃ r, cfg.parse txt = .ok r) :
    ∃ K1 K2 K3 v1 v2 copy,
      render_file_ops cfg src (pjoin (dirPathStr cfg.RECIPE_DIR ds) f) =
        ([FsOp.write K1 v1, FsOp.write K2 v2, FsOp.write K3 txt] ++ copy, none) ∧
      segs K1 = (segs cfg.HTML_PATH ++ ds) ++ [pyDropEnd 5 f, "index.html".toList] ∧
      segs K2 = (segs cfg.HTML_PATH ++ ds) ++ [pyDropEnd 5 f, "print.html".toList] ∧
      segs K3 = (segs cfg.HTML_PATH ++ ds) ++ [pyDropEnd 5 f, f] ∧
      (copy = [] ∨ ∃ K4 v4, copy = [FsOp.write K4 v4] ∧
        segs K4 = (segs cfg.HTML_PATH ++ ds) ++ [pyDropEnd 5 f, "img".toList]) := by
  rcases wfConfigB_spec hcfg with ⟨hrne, hrend, hhne, hhend⟩
  have hdsf : ∀ m ∈ ds ++ [f], cleanNameB m = true := by
    intro m hm
    rcases List.mem_append.1 hm with h1 | h2
    · exact hds m h1
    · rw [List.mem_singleton.1 h2]
      exact hfclean
  have hpath : pjoin (dirPathStr cfg.RECIPE_DIR ds) f =
      dirPathStr cfg.RECIPE_DIR (ds ++ [f]) := (dirPathStr_snoc _ ds f).symm
  have hfmt : dirPathStr cfg.RECIPE_DIR (ds ++ [f]) =
      cfg.RECIPE_DIR ++ dsSuffix (ds ++ [f]) :=
    (dirPathStr_spec cfg.RECIPE_DIR hrne hrend (ds ++ [f]) hdsf).1
  have hstart : strStarts cfg.RECIPE_DIR
      (dirPathStr cfg.RECIPE_DIR (ds ++ [f])) = true := by
    rw [hfmt]
    exact strStarts_append _ _
  have hsegsf : segs (dirPathStr cfg.RECIPE_DIR (ds ++ [f])) =
      segs cfg.RECIPE_DIR ++ (ds ++ [f]) := by
    rw [hfmt]
    exact segs_append_dsSuffix _ _ hdsf
  have hresolve : srcResolveFile cfg src (dirPathStr cfg.RECIPE_DIR (ds ++ [f])) =
      some txt := by
    unfold srcResolveFile
    rw [hsegsf, if_pos (List.isPrefixOf_iff_prefix.2 (List.prefix_append _ _)),
      List.drop_left, resolveFileAt_snoc src ds t f hres,
      findEntry_of_mem t.files f txt hmem hnd]
  rcases hparse with ⟨recipe, hparse⟩
  have hends : strEnds ".cook".toList (dirPathStr cfg.RECIPE_DIR (ds ++ [f])) =
      true := by
    rw [hfmt, dsSuffix_snoc, ← List.append_assoc]
    have h1 : cfg.RECIPE_DIR ++ dsSuffix ds ++ '/' :: f =
        (cfg.RECIPE_DIR ++ dsSuffix ds ++ ['/']) ++ f := by simp
    rw [h1]
    exact strEnds_append_right _ _ _ hcook
  have himg : get_image_path cfg src (dirPathStr cfg.RECIPE_DIR (ds ++ [f])) =
      .ok ((["jpg".toList, "png".toList].map
        (fun ext => pyDropEnd 5 (dirPathStr cfg.RECIPE_DIR (ds ++ [f])) ++
          '.' :: ext)).find?
        (fun fn => (srcResolveFile cfg src fn).isSome)) := by
    unfold get_image_path
    rw [if_neg (not_not_intro hends)]
  have hrel : pjoin cfg.HTML_PATH
      (pyDropStart (cfg.RECIPE_DIR.length + 1)
        (dirPathStr cfg.RECIPE_DIR (ds ++ [f]))) =
      cfg.HTML_PATH ++ dsSuffix (ds ++ [f]) :=
    html_dir_pos cfg hcfg (ds ++ [f]) (by simp) hdsf
  rcases pyDropEnd_cook hcook with ⟨hsf, hlen5⟩
  have hhd : pyDropEnd 5 (cfg.HTML_PATH ++ dsSuffix (ds ++ [f])) =
      (cfg.HTML_PATH ++ dsSuffix ds) ++ '/' :: pyDropEnd 5 f := by
    rw [dsSuffix_snoc, ← List.append_assoc]
    have h1 : cfg.HTML_PATH ++ dsSuffix ds ++ '/' :: f =
        (cfg.HTML_PATH ++ dsSuffix ds ++ ['/']) ++ f := by simp
    rw [h1, pyDropEnd_append _ f hlen5]
    simp
  have hXsegs : segs (cfg.HTML_PATH ++ dsSuffix ds) = segs cfg.HTML_PATH ++ ds :=
    segs_append_dsSuffix _ ds hds
  have hsegsK : ∀ b : Str, b ≠ [] → (∀ ch ∈ b, ch ≠ '/') →
      segs (((cfg.HTML_PATH ++ dsSuffix ds) ++ '/' :: pyDropEnd 5 f) ++ '/' :: b) =
        (segs cfg.HTML_PATH ++ ds) ++ [pyDropEnd 5 f, b] := by
    intro b hbne hbs
    rw [segs_append_slash, segs_append_slash, hXsegs,
      cleanNameB_segs hsclean, segs_single b hbne hbs]
    simp
  have hbase : (pySplit (dirPathStr cfg.RECIPE_DIR (ds ++ [f]))).2 = f := by
    rw [hfmt, dsSuffix_snoc, ← List.append_assoc]
    exact pySplit_snd _ f (cleanNameB_no_slash hfclean)
  have hf0 : strStarts ['/'] f = false := by
    have h0 := strStarts_slash_append ([] : Str) hfclean
    simpa using h0
  have hjoin3 : pjoin ((cfg.HTML_PATH ++ dsSuffix ds) ++ '/' :: pyDropEnd 5 f) f =
      ((cfg.HTML_PATH ++ dsSuffix ds) ++ '/' :: pyDropEnd 5 f) ++ '/' :: f :=
    pjoin_clean _ f (by simp) (strEnds_slash_clean_tail _ hsclean) hf0
  rw [hpath]
  unfold render_file_ops
  rw [if_neg (not_not_intro hstart), hresolve]
  dsimp only
  rw [hparse]
  dsimp only
  rw [himg]
  dsimp only
  rw [hrel, hhd, hbase, hjoin3]
  cases hfind : (["jpg".toList, "png".toList].map
      (fun ext => pyDropEnd 5 (dirPathStr cfg.RECIPE_DIR (ds ++ [f])) ++
        '.' :: ext)).find?
      (fun fn => (srcResolveFile cfg src fn).isSome) with
  | none =>
    exact ⟨_, _, _, _, _, [], rfl,
      hsegsK "index.html".toList (by decide) (by decide),
      hsegsK "print.html".toList (by decide) (by decide),
      hsegsK f (cleanNameB_ne_nil hfclean) (cleanNameB_no_slash hfclean),
      Or.inl rfl⟩
  | some ip =>
    refine ⟨_, _, _, _, _, _, rfl,
      hsegsK "index.html".toList (by decide) (by decide),
      hsegsK "print.html".toList (by decide) (by decide),
      hsegsK f (cleanNameB_ne_nil hfclean) (cleanNameB_no_slash hfclean),
      Or.inr ⟨_, _, rfl, ?_⟩⟩
    have h1 : ((cfg.HTML_PATH ++ dsSuffix ds) ++ '/' :: pyDropEnd 5 f) ++
        "/img".toList =
        ((cfg.HTML_PATH ++ dsSuffix ds) ++ '/' :: pyDropEnd 5 f) ++
          '/' :: "img".toList := rfl
    rw [h1]
    exact hsegsK "img".toList (by decide) (by decide)

theorem render_files_go_cons (cfg : Config) (src : SrcTree) (f : Str)
    (rest : List Str) (path : Str) :
    render_files_go cfg src (f :: rest) path =
      if strEnds ".cook".toList f then
        match render_file_ops cfg src (pjoin path f) with
        | (ops, some e) => (ops, some e)
        | (ops, none) =>
            match render_files_go cfg src rest path with
            | (more, e2) => (ops ++ more, e2)
      else render_files_go cfg src rest path := rfl

/-- The file loop of a successful directory render: no exception, a
wipe-free trace, every write inside some recipe's own output area, and
for every listed `.cook` file a write of its index page and of its print
page. -/
theorem render_files_go_spec (cfg : Config) (src : SrcTree)
    (hcfg : wfConfigB cfg = true)
    (ds : List Str) (hds : ∀ m ∈ ds, cleanNameB m = true)
    (t : SrcTree) (hres : resolveDir src ds = some t)
    (hwt : wfTreeB t = true) (hpo : allParseOkB cfg t = true) :
    ∀ fl : List Str, (∀ f ∈ fl, f ∈ t.files.map Prod.fst) →
      ∃ ops, render_files_go cfg src fl (dirPathStr cfg.RECIPE_DIR ds) =
          (ops, none) ∧
        writesOnly ops ∧
        (∀ p c, FsOp.write p c ∈ ops →
          ∃ f2 ∈ t.files.map Prod.fst, strEnds ".cook".toList f2 = true ∧
            ∃ b, segs p = (segs cfg.HTML_PATH ++ ds) ++ [pyDropEnd 5 f2, b]) ∧
        (∀ f ∈ fl, strEnds ".cook".toList f = true →
          (wLast ops ((segs cfg.HTML_PATH ++ ds) ++
            [pyDropEnd 5 f, "index.html".toList])).isSome = true ∧
          (wLast ops ((segs cfg.HTML_PATH ++ ds) ++
            [pyDropEnd 5 f, "print.html".toList])).isSome = true) := by
  intro fl
  induction fl with
  | nil =>
    intro _
    refine ⟨[], rfl, ?_, ?_, ?_⟩
    · intro op hop
      exact absurd hop (List.not_mem_nil op)
    · intro p c hop
      exact absurd hop (List.not_mem_nil _)
    · intro f hf
      exact absurd hf (List.not_mem_nil f)
  | cons f rest ih =>
    intro hmem
    have hrest : ∀ g ∈ rest, g ∈ t.files.map Prod.fst :=
      fun g hg => hmem g (List.mem_cons_of_mem f hg)
    rcases ih hrest with ⟨opsR, heqR, hwR, hkR, hdR⟩
    cases hcook : strEnds ".cook".toList f with
    | false =>
      rw [render_files_go_cons, if_neg (by rw [hcook]; exact Bool.false_ne_true),
        heqR]
      refine ⟨opsR, rfl, hwR, hkR, ?_⟩
      intro g hg hgcook
      rcases List.mem_cons.1 hg with rfl | hg2
      · rw [hcook] at hgcook
        cases hgcook
      · exact hdR g hg2 hgcook
    | true =>
      have hfmem := hmem f (List.mem_cons_self f rest)
      rcases List.mem_map.1 hfmem with ⟨⟨f', txt⟩, hftxt0, hfst⟩
      have hfeq : f' = f := hfst
      have hftxt : (f, txt) ∈ t.files := hfeq ▸ hftxt0
      rcases wfTreeB_spec hwt with ⟨_, h2, _, hnd, h5, _, _⟩
      have hfclean : cleanNameB f = true := h2 f hfmem
      have hsclean : cleanNameB (pyDropEnd 5 f) = true := h5 f hfmem hcook
      have hparse : ∃ r, cfg.parse txt = .ok r :=
        (allParseOkB_spec hpo).1 (f, txt) hftxt hcook
      rcases render_file_ops_spec cfg src hcfg ds hds t hres f txt hftxt hcook
          hfclean hsclean hnd hparse with
        ⟨K1, K2, K3, v1, v2, copy, heqF, hk1, hk2, hk3, hcopy⟩
      rw [render_files_go_cons, if_pos hcook, heqF]
      dsimp only
      rw [heqR]
      dsimp only
      have hcopyKeys : ∀ p c, FsOp.write p c ∈ copy →
          ∃ b, segs p = (segs cfg.HTML_PATH ++ ds) ++ [pyDropEnd 5 f, b] := by
        intro p c hop
        rcases hcopy with rfl | ⟨K4, v4, rfl, hk4⟩
        · exact absurd hop (List.not_mem_nil _)
        · have : FsOp.write p c = FsOp.write K4 v4 := List.mem_singleton.1 hop
          have hp : p = K4 := by injection this
          exact ⟨"img".toList, by rw [hp, hk4]⟩
      refine ⟨_, rfl, ?_, ?_, ?_⟩
      · intro op hop
        rcases List.mem_append.1 hop with hopf | hopr
        · rcases List.mem_append.1 hopf with hop3 | hopc
          · intro d hd
            subst hd
            rcases List.mem_cons.1 hop3 with h | h
            · cases h
            rcases List.mem_cons.1 h with h' | h'
            · cases h'
            rcases List.mem_cons.1 h' with h'' | h''
            · cases h''
            · exact absurd h'' (List.not_mem_nil _)
          · intro d hd
            subst hd
            rcases hcopy with rfl | ⟨K4, v4, rfl, _⟩
            · exact absurd hopc (List.not_mem_nil _)
            · cases List.mem_singleton.1 hopc
        · exact hwR op hopr
      · intro p c hop
        rcases List.mem_append.1 hop with hopf | hopr
        · refine ⟨f, hfmem, hcook, ?_⟩
          rcases List.mem_append.1 hopf with hop3 | hopc
          · rcases List.mem_cons.1 hop3 with h | h
            · have hp : p = K1 := by injection h
              exact ⟨"index.html".toList, by rw [hp, hk1]⟩
            rcases List.mem_cons.1 h with h' | h'
            · have hp : p = K2 := by injection h'
              exact ⟨"print.html".toList, by rw [hp, hk2]⟩
            rcases List.mem_cons.1 h' with h'' | h''
            · have hp : p = K3 := by injection h''
              exact ⟨f, by rw [hp, hk3]⟩
            · exact absurd h'' (List.not_mem_nil _)
          · exact hcopyKeys p c hopc
        · exact hkR p c hopr
      · intro g hg hgcook
        rcases List.mem_cons.1 hg with rfl | hg2
        · constructor
          · refine wLast_append_isSome_left _ _ _
              (wLast_isSome_of_mem _ K1 v1 _ ?_ hk1)
            exact List.mem_append_left copy (List.mem_cons_self _ _)
          · refine wLast_append_isSome_left _ _ _
              (wLast_isSome_of_mem _ K2 v2 _ ?_ hk2)
            exact List.mem_append_left copy
              (List.mem_cons_of_mem _ (List.mem_cons_self _ _))
        · rcases hdR g hg2 hgcook with ⟨hdi, hdp⟩
          exact ⟨wLast_append_isSome_right _ _ _ hdi,
            wLast_append_isSome_right _ _ _ hdp⟩

/-- The region a directory render at output directory `D` owns: strictly
below `D`, off the spared `static` subtree. -/
def insideD (D sp : SPath) : Prop :=
  D <+: sp ∧ sp ≠ D ∧ ¬ (D ++ ["static".toList]) <+: sp

/-- The region a run of sibling-subfolder renders owns: below one of the
children `D/n`, `n` among the listed names. -/
def insideS (D : SPath) (names : List Str) (sp : SPath) : Prop :=
  ∃ n ∈ names, (D ++ [n]) <+: sp

theorem child_prefix_D {D : SPath} {c : Str} {sp : SPath}
    (h : (D ++ [c]) <+: sp) : D <+: sp :=
  (List.prefix_append D [c]).trans h

theorem child_prefix_ne {D : SPath} {c : Str} {sp : SPath}
    (h : (D ++ [c]) <+: sp) : sp ≠ D := by
  intro heq
  have hl : (D ++ [c]).length ≤ D.length := heq ▸ h.length_le
  simp at hl

theorem child_decomp {D : SPath} {c : Str} {sp : SPath}
    (h : (D ++ [c]) <+: sp) : ∃ tail, sp = D ++ c :: tail := by
  rcases h with ⟨t, ht⟩
  exact ⟨t, by rw [← ht]; simp⟩

theorem same_len_prefix_comp {D : SPath} {a b : Str} {sp : SPath}
    (h1 : (D ++ [a]) <+: sp) (h2 : (D ++ [b]) <+: sp) : a = b := by
  have h3 := List.prefix_of_prefix_length_le h1 h2 (by simp)
  exact append_singleton_prefix_eq h3

theorem not_child_prefix_self (D : SPath) (c : Str) : ¬ (D ++ [c]) <+: D := by
  intro h
  have hl := h.length_le
  simp at hl

theorem wLast_head (d k : Str) (v : Str) (sp : SPath) :
    wLast [FsOp.wipe d, FsOp.write k v] sp =
      if segs k = sp then some v else none := rfl

/-- Composing one subfolder render with its remaining siblings: the
combined trace still errors nowhere it writes, owns exactly the union of
the child areas, and over an empty start its effect is last-write-wins
inside and the identity outside. -/
theorem subs_step (D : SPath) (n : Str) (restNames : List Str)
    (hnotin : n ∉ restNames)
    (opsC opsR : List FsOp)
    (hwsC : ∀ p c, FsOp.write p c ∈ opsC →
      segs p = (D ++ [n]) ++ ["index.html".toList] ∨
      ∃ m, cleanNameB m = true ∧ ∃ q, segs p = (D ++ [n]) ++ m :: q ∧ q ≠ [])
    (hwsR : ∀ p c, FsOp.write p c ∈ opsR →
      ∃ m ∈ restNames, ∃ q, segs p = D ++ m :: q ∧ q ≠ [])
    (hlookC : ∀ fs, wellFs fs → areaOk fs (D ++ [n]) →
      (∀ sp, insideD (D ++ [n]) sp →
        fsLookup (applyOps fs opsC) sp = wLast opsC sp) ∧
      (∀ sp, ¬ insideD (D ++ [n]) sp →
        fsLookup (applyOps fs opsC) sp = fsLookup fs sp))
    (hlookR : ∀ fs, wellFs fs →
      (∀ m ∈ restNames, ∀ sp, (D ++ [m]) <+: sp → fsLookup fs sp = none) →
      (∀ sp, insideS D restNames sp →
        fsLookup (applyOps fs opsR) sp = wLast opsR sp) ∧
      (∀ sp, ¬ insideS D restNames sp →
        fsLookup (applyOps fs opsR) sp = fsLookup fs sp)) :
    ∀ fs, wellFs fs →
      (∀ m ∈ n :: restNames, ∀ sp, (D ++ [m]) <+: sp → fsLookup fs sp = none) →
      (∀ sp, insideS D (n :: restNames) sp →
        fsLookup (applyOps fs (opsC ++ opsR)) sp = wLast (opsC ++ opsR) sp) ∧
      (∀ sp, ¬ insideS D (n :: restNames) sp →
        fsLookup (applyOps fs (opsC ++ opsR)) sp = fsLookup fs sp) := by
  intro fs hwf hempty
  have hemptyN : ∀ sp, (D ++ [n]) <+: sp → fsLookup fs sp = none :=
    fun sp h => hempty n (List.mem_cons_self _ _) sp h
  obtain ⟨hCin, hCout⟩ := hlookC fs hwf (areaOk_of_empty hemptyN)
  have hwf1 : wellFs (applyOps fs opsC) := wellFs_applyOps opsC fs hwf
  have hemptyR1 : ∀ m ∈ restNames, ∀ sp, (D ++ [m]) <+: sp →
      fsLookup (applyOps fs opsC) sp = none := by
    intro m hm sp hpre
    have hnotC : ¬ insideD (D ++ [n]) sp := by
      rintro ⟨hpn, _, _⟩
      refine hnotin ?_
      rw [same_len_prefix_comp hpn hpre]
      exact hm
    rw [hCout sp hnotC]
    exact hempty m (List.mem_cons_of_mem _ hm) sp hpre
  obtain ⟨hRin, hRout⟩ := hlookR (applyOps fs opsC) hwf1 hemptyR1
  have hCnone_rest : ∀ (m : Str) (tail : List Str), m ≠ n →
      wLast opsC (D ++ m :: tail) = none := by
    intro m tail hmn
    refine wLast_none_of_no_write opsC _ ?_
    intro p c hop heq
    rcases hwsC p c hop with hidx | ⟨m2, _, q, hkey, _⟩
    · rw [heq] at hidx
      have h4 : (D ++ [n]) ++ ["index.html".toList] =
          D ++ n :: ["index.html".toList] := by simp
      rw [h4] at hidx
      exact hmn (first_comp_eq hidx)
    · rw [heq] at hkey
      have h4 : (D ++ [n]) ++ m2 :: q = D ++ n :: m2 :: q := by simp
      rw [h4] at hkey
      exact hmn (first_comp_eq hkey)
  constructor
  · intro sp hins
    rcases hins with ⟨m, hm, hpre⟩
    rw [applyOps_append, wLast_append]
    rcases List.mem_cons.1 hm with rfl | hmr
    · have hnotR : ¬ insideS D restNames sp := by
        rintro ⟨m2, hm2, hpre2⟩
        refine hnotin ?_
        rw [same_len_prefix_comp hpre hpre2]
        exact hm2
      have hRnone : wLast opsR sp = none := by
        refine wLast_none_of_no_write opsR sp ?_
        intro p c hop heq
        rcases hwsR p c hop with ⟨m2, hm2, q, hkey, _⟩
        rcases child_decomp hpre with ⟨tail, hsp⟩
        rw [heq, hsp] at hkey
        refine hnotin ?_
        rw [first_comp_eq hkey]
        exact hm2
      rw [hRout sp hnotR, hRnone]
      by_cases hin2 : insideD (D ++ [m]) sp
      · exact hCin sp hin2
      · rw [hCout sp hin2, hemptyN sp hpre]
        have hcases : sp = D ++ [m] ∨
            ((D ++ [m]) ++ ["static".toList]) <+: sp := by
          by_cases he1 : sp = D ++ [m]
          · exact Or.inl he1
          · by_cases he2 : ((D ++ [m]) ++ ["static".toList]) <+: sp
            · exact Or.inr he2
            · exact absurd ⟨hpre, he1, he2⟩ hin2
        refine (wLast_none_of_no_write opsC _ ?_).symm
        intro p c hop heq
        rcases hwsC p c hop with hidx | ⟨m2, hm2c, q, hkey, hqne⟩
        · rw [heq] at hidx
          rcases hcases with he1 | he2
          · rw [he1] at hidx
            have hl := congrArg List.length hidx
            simp only [List.length_append, List.length_cons,
              List.length_nil] at hl
            omega
          · rw [hidx] at he2
            have h3 := prefix_first_comp he2
            exact absurd h3 (by decide)
        · rw [heq] at hkey
          rcases hcases with he1 | he2
          · rw [he1] at hkey
            rw [List.append_assoc] at hkey
            have h6 := List.append_cancel_left hkey.symm
            have h7 := congrArg List.length h6
            simp only [List.length_append, List.length_cons,
              List.length_nil] at h7
            omega
          · rw [hkey] at he2
            have h3 := prefix_first_comp he2
            exact absurd h3.symm (cleanNameB_ne_static hm2c)
    · have hinR : insideS D restNames sp := ⟨m, hmr, hpre⟩
      rw [hRin sp hinR]
      cases hR : wLast opsR sp with
      | some c => rfl
      | none =>
        rcases child_decomp hpre with ⟨tail, rfl⟩
        have hCn : wLast opsC (D ++ m :: tail) = none := by
          refine hCnone_rest m tail ?_
          intro hmn
          rw [hmn] at hmr
          exact hnotin hmr
        rw [hCn]
  · intro sp hout
    have hnotC : ¬ insideD (D ++ [n]) sp := by
      rintro ⟨hpn, _, _⟩
      exact hout ⟨n, List.mem_cons_self _ _, hpn⟩
    have hnotR : ¬ insideS D restNames sp := by
      rintro ⟨m, hm, hp⟩
      exact hout ⟨m, List.mem_cons_of_mem _ hm, hp⟩
    rw [applyOps_append, hRout sp hnotR, hCout sp hnotC]

/-- Composing a full directory render: wipe, folder index write,
subfolder renders, file renders.  Over a good area the effect is
last-write-wins inside the directory's region and the identity
outside. -/
theorem dir_step (D : SPath)
    (fnames : List Str) (hfclean : ∀ n ∈ fnames, cleanNameB n = true)
    (stems : List Str) (hsclean : ∀ s ∈ stems, cleanNameB s = true)
    (hd KIstr rendered : Str) (hsegsHd : segs hd = D)
    (dt : Str) (hglob : globArg hd dt)
    (hKIs : segs KIstr = D ++ ["index.html".toList])
    (opsS : List FsOp)
    (hwsS : ∀ p c, FsOp.write p c ∈ opsS →
      ∃ n ∈ fnames, ∃ q, segs p = D ++ n :: q ∧ q ≠ [])
    (hlookS : ∀ fs, wellFs fs →
      (∀ n ∈ fnames, ∀ sp, (D ++ [n]) <+: sp → fsLookup fs sp = none) →
      (∀ sp, insideS D fnames sp →
        fsLookup (applyOps fs opsS) sp = wLast opsS sp) ∧
      (∀ sp, ¬ insideS D fnames sp →
        fsLookup (applyOps fs opsS) sp = fsLookup fs sp))
    (opsF : List FsOp) (hwF : writesOnly opsF)
    (hkF : ∀ p c, FsOp.write p c ∈ opsF →
      ∃ s ∈ stems, ∃ b, segs p = D ++ [s, b]) :
    ∀ fs, wellFs fs → areaOk fs D →
      (∀ sp, insideD D sp →
        fsLookup (applyOps fs
            ([FsOp.wipe hd, FsOp.write KIstr rendered] ++ opsS ++ opsF)) sp =
          wLast ([FsOp.wipe hd, FsOp.write KIstr rendered] ++ opsS ++ opsF) sp) ∧
      (∀ sp, ¬ insideD D sp →
        fsLookup (applyOps fs
            ([FsOp.wipe hd, FsOp.write KIstr rendered] ++ opsS ++ opsF)) sp =
          fsLookup fs sp) := by
  intro fs hwf haok
  have happly : ∀ sp, fsLookup (applyOps fs
      ([FsOp.wipe hd, FsOp.write KIstr rendered] ++ opsS ++ opsF)) sp =
      fsLookup (applyOps (applyOps
        (fsWrite (wipeDir fs hd) (segs KIstr) rendered) opsS) opsF) sp := by
    intro sp
    rw [show ([FsOp.wipe hd, FsOp.write KIstr rendered] ++ opsS ++ opsF) =
      [FsOp.wipe hd, FsOp.write KIstr rendered] ++ (opsS ++ opsF) from rfl]
    rw [applyOps_append, applyOps_append]
    rfl
  have hwf1 : wellFs (fsWrite (wipeDir fs hd) (segs KIstr) rendered) :=
    wellFs_fsWrite _ KIstr rendered (wellFs_wipeDir fs hd hwf)
  have hKIin : insideD D (D ++ ["index.html".toList]) := by
    refine ⟨List.prefix_append _ _, ?_, ?_⟩
    · intro h
      have hl := congrArg List.length h
      simp at hl
    · intro h
      exact absurd (prefix_first_comp h) (by decide)
  have hfs1 : ∀ sp, fsLookup (fsWrite (wipeDir fs hd) (segs KIstr) rendered) sp =
      if sp = D ++ ["index.html".toList] then some rendered
      else fsLookup (wipeDir fs hd) sp := by
    intro sp
    rw [fsLookup_fsWrite, hKIs]
  have hwipe_out : ∀ sp, ¬ insideD D sp → fsLookup (wipeDir fs hd) sp =
      fsLookup fs sp := by
    intro sp hout
    by_cases hp : D <+: sp
    · by_cases hsp : sp = D
      · subst hsp
        rw [fsLookup_wipeDir fs hd dt hwf hglob sp, if_neg]
        rintro ⟨c, _, _, _, _, hpre⟩
        rw [hsegsHd] at hpre
        exact not_child_prefix_self sp c hpre
      · by_cases hst : (D ++ ["static".toList]) <+: sp
        · refine fsLookup_wipeDir_static fs hd dt hwf hglob sp ?_
          rw [hsegsHd]
          exact hst
        · exact absurd ⟨hp, hsp, hst⟩ hout
    · refine fsLookup_wipeDir_not_under fs hd dt hwf hglob sp ?_
      rw [hsegsHd]
      exact hp
  have hemptyS : ∀ n ∈ fnames, ∀ sp, (D ++ [n]) <+: sp →
      fsLookup (fsWrite (wipeDir fs hd) (segs KIstr) rendered) sp = none := by
    intro n hn sp hpre
    have hnc := hfclean n hn
    have hne_idx : sp ≠ D ++ ["index.html".toList] := by
      intro heq
      rw [heq] at hpre
      exact absurd (prefix_first_comp hpre) (cleanNameB_ne_index hnc)
    rw [hfs1 sp, if_neg hne_idx]
    refine wipe_clean fs hd dt hwf hglob (by rw [hsegsHd]; exact haok) sp ?_ ?_ ?_ ?_
    · rw [hsegsHd]
      exact child_prefix_D hpre
    · rw [hsegsHd]
      exact child_prefix_ne hpre
    · rw [hsegsHd]
      intro hst
      exact absurd (same_len_prefix_comp hpre hst)
        (cleanNameB_ne_static hnc)
    · rw [hsegsHd]
      exact hne_idx
  obtain ⟨hSin, hSout⟩ := hlookS
    (fsWrite (wipeDir fs hd) (segs KIstr) rendered) hwf1 hemptyS
  have hFlook := fsLookup_applyOps_writesOnly opsF hwF
    (applyOps (fsWrite (wipeDir fs hd) (segs KIstr) rendered) opsS)
  have hSfirst : ∀ sp, ¬ insideS D fnames sp → wLast opsS sp = none := by
    intro sp hnot
    refine wLast_none_of_no_write opsS sp ?_
    intro p c hop heq
    rcases hwsS p c hop with ⟨n, hn, q, hkey, _⟩
    refine hnot ⟨n, hn, ?_⟩
    rw [← heq, hkey]
    exact ⟨q, by simp⟩
  have hwTotal : ∀ sp,
      wLast ([FsOp.wipe hd, FsOp.write KIstr rendered] ++ opsS ++ opsF) sp =
        match wLast opsF sp with
        | some v => some v
        | none =>
            match wLast opsS sp with
            | some v => some v
            | none => if sp = D ++ ["index.html".toList] then some rendered
                else none := by
    intro sp
    rw [show ([FsOp.wipe hd, FsOp.write KIstr rendered] ++ opsS ++ opsF) =
      [FsOp.wipe hd, FsOp.write KIstr rendered] ++ (opsS ++ opsF) from rfl]
    rw [wLast_append, wLast_append, wLast_head, hKIs]
    cases wLast opsF sp with
    | some v => rfl
    | none =>
      cases wLast opsS sp with
      | some v => rfl
      | none =>
        by_cases hsp : D ++ ["index.html".toList] = sp
        · rw [if_pos hsp, if_pos hsp.symm]
        · rw [if_neg hsp, if_neg (fun h => hsp h.symm)]
  constructor
  · intro sp hins
    rw [happly sp, hFlook sp, hwTotal sp]
    cases hF : wLast opsF sp with
    | some v => rfl
    | none =>
      by_cases hinS : insideS D fnames sp
      · rw [hSin sp hinS]
        cases hS : wLast opsS sp with
        | some v => rfl
        | none =>
          rw [if_neg]
          rcases hinS with ⟨n, hn, hpre⟩
          intro heq
          rw [heq] at hpre
          exact absurd (prefix_first_comp hpre)
            (cleanNameB_ne_index (hfclean n hn))
      · rw [hSout sp hinS, hSfirst sp hinS]
        by_cases hKI : sp = D ++ ["index.html".toList]
        · rw [hfs1 sp, if_pos hKI, if_pos hKI]
        · rw [hfs1 sp, if_neg hKI, if_neg hKI]
          rcases hins with ⟨hp, hne, hst⟩
          exact wipe_clean fs hd dt hwf hglob (by rw [hsegsHd]; exact haok) sp
            (by rw [hsegsHd]; exact hp) (by rw [hsegsHd]; exact hne)
            (by rw [hsegsHd]; exact hst) (by rw [hsegsHd]; exact hKI)
  · intro sp hout
    rw [happly sp, hFlook sp]
    have hFnone : wLast opsF sp = none := by
      refine wLast_none_of_no_write opsF sp ?_
      intro p c hop heq
      rcases hkF p c hop with ⟨s, hs, b, hkey⟩
      rw [heq] at hkey
      refine hout ?_
      rw [hkey]
      refine ⟨List.prefix_append _ _, ?_, ?_⟩
      · intro h
        have hl := congrArg List.length h
        simp at hl
      · intro h
        exact absurd (prefix_first_comp h).symm
          (cleanNameB_ne_static (hsclean s hs))
    rw [hFnone]
    have hnotS : ¬ insideS D fnames sp := by
      rintro ⟨n, hn, hpre⟩
      have hnc := hfclean n hn
      refine hout ⟨child_prefix_D hpre, child_prefix_ne hpre, ?_⟩
      intro hst
      exact absurd (same_len_prefix_comp hpre hst) (cleanNameB_ne_static hnc)
    rw [hSout sp hnotS, hfs1 sp,
      if_neg (fun h => hout (by rw [h]; exact hKIin)), hwipe_out sp hout]

theorem render_go_subs_nil_eq (cfg : Config) (src : SrcTree) (fuel : Nat)
    (path : Str) :
    render_go cfg src (fuel + 1) (.subs [] path) = ([], none) := rfl

theorem render_go_subs_cons_eq (cfg : Config) (src : SrcTree) (fuel : Nat)
    (n : Str) (t2 : SrcTree) (rest : List (Str × SrcTree)) (path : Str) :
    render_go cfg src (fuel + 1) (.subs ((n, t2) :: rest) path) =
      (match render_go cfg src fuel (.dir t2 (pjoin path n)) with
       | (ops, some e) => (ops, some e)
       | (ops, none) =>
           match render_go cfg src fuel (.subs rest path) with
           | (more, e2) => (ops ++ more, e2)) := rfl

theorem render_go_dir_eq (cfg : Config) (src : SrcTree) (fuel : Nat)
    (t : SrcTree) (path : Str) :
    render_go cfg src (fuel + 1) (.dir t path) =
      (if ¬ strStarts cfg.RECIPE_DIR path then ([], some .assertionError)
      else
        let rel := pyDropStart (cfg.RECIPE_DIR.length + 1) path
        let html_dir := pjoin cfg.HTML_PATH rel
        let parent_folders := split_path rel
        let sorted_folders := pySorted (fun a b => strLe a.1 b.1) t.folders
        let sub_folders := sorted_folders.map Prod.fst
        let recipes := pySorted strLe
          (((t.files.map Prod.fst).filter
              (fun f => strEnds ".cook".toList f)).map (fun f => pyDropEnd 5 f))
        let rendered := cfg.folder_template parent_folders sub_folders recipes
        let head : List FsOp :=
          [.wipe html_dir, .write (html_dir ++ "/index.html".toList) rendered]
        (match render_go cfg src fuel (.subs sorted_folders path) with
         | (ops, some e) => (head ++ ops, some e)
         | (ops, none) =>
             match render_files_go cfg src (t.files.map Prod.fst) path with
             | (fops, e2) => (head ++ ops ++ fops, e2))) := rfl

theorem sizeT_eq (t : SrcTree) : sizeT t = 1 + sizeT.go t.folders := by
  cases t
  rfl

theorem append_cons_assoc {α : Type} (A : List α) (n : α) (W : List α) :
    (A ++ [n]) ++ W = A ++ n :: W := by simp

/-- The master invariant of a well-formed full render, by induction on
fuel.  Every reached work item returns without exception; its writes
land strictly inside its own output region under clean names (or are
the folder index itself); every recipe below it gets its index and its
print page written; and applying its trace to any well-started
filesystem is last-write-wins inside its region and the identity
outside. -/
theorem render_go_spec (cfg : Config) (src : SrcTree)
    (hcfg : wfConfigB cfg = true) :
    ∀ (fuel : Nat) (w : RWork) (ds : List Str),
      (∀ m ∈ ds, cleanNameB m = true) →
      (match w with
       | .dir t path =>
           path = dirPathStr cfg.RECIPE_DIR ds ∧ resolveDir src ds = some t ∧
           wfTreeB t = true ∧ allParseOkB cfg t = true ∧ sizeT t + 1 ≤ fuel
       | .subs l path =>
           path = dirPathStr cfg.RECIPE_DIR ds ∧
           (∀ e ∈ l, resolveDir src (ds ++ [e.1]) = some e.2 ∧
             wfTreeB e.2 = true ∧ allParseOkB cfg e.2 = true ∧
             cleanNameB e.1 = true) ∧
           (l.map Prod.fst).Nodup ∧ sizeT.go l + 1 ≤ fuel) →
      ∃ ops, render_go cfg src fuel w = (ops, none) ∧
        (match w with
         | .dir _ _ => ∀ p c, FsOp.write p c ∈ ops →
             segs p = (segs cfg.HTML_PATH ++ ds) ++ ["index.html".toList] ∨
             ∃ n, cleanNameB n = true ∧ ∃ q,
               segs p = (segs cfg.HTML_PATH ++ ds) ++ n :: q ∧ q ≠ []
         | .subs l _ => ∀ p c, FsOp.write p c ∈ ops →
             ∃ m ∈ l.map Prod.fst, ∃ q,
               segs p = (segs cfg.HTML_PATH ++ ds) ++ m :: q ∧ q ≠ []) ∧
        (match w with
         | .dir t _ => ∀ r ∈ recipesOf t,
             (wLast ops ((segs cfg.HTML_PATH ++ ds) ++ r.1 ++
               [r.2, "index.html".toList])).isSome = true ∧
             (wLast ops ((segs cfg.HTML_PATH ++ ds) ++ r.1 ++
               [r.2, "print.html".toList])).isSome = true
         | .subs l _ => ∀ e ∈ l, ∀ r ∈ recipesOf e.2,
             (wLast ops ((segs cfg.HTML_PATH ++ ds) ++ e.1 :: r.1 ++
               [r.2, "index.html".toList])).isSome = true ∧
             (wLast ops ((segs cfg.HTML_PATH ++ ds) ++ e.1 :: r.1 ++
               [r.2, "print.html".toList])).isSome = true) ∧
        (match w with
         | .dir _ _ => ∀ fs, wellFs fs →
             areaOk fs (segs cfg.HTML_PATH ++ ds) →
             (∀ sp, insideD (segs cfg.HTML_PATH ++ ds) sp →
               fsLookup (applyOps fs ops) sp = wLast ops sp) ∧
             (∀ sp, ¬ insideD (segs cfg.HTML_PATH ++ ds) sp →
               fsLookup (applyOps fs ops) sp = fsLookup fs sp)
         | .subs l _ => ∀ fs, wellFs fs →
             (∀ m ∈ l.map Prod.fst, ∀ sp,
               ((segs cfg.HTML_PATH ++ ds) ++ [m]) <+: sp →
               fsLookup fs sp = none) →
             (∀ sp, insideS (segs cfg.HTML_PATH ++ ds) (l.map Prod.fst) sp →
               fsLookup (applyOps fs ops) sp = wLast ops sp) ∧
             (∀ sp, ¬ insideS (segs cfg.HTML_PATH ++ ds) (l.map Prod.fst) sp →
               fsLookup (applyOps fs ops) sp = fsLookup fs sp)) := by
  intro fuel
  induction fuel with
  | zero =>
    intro w ds _ hw
    exfalso
    cases w with
    | dir t path => exact absurd hw.2.2.2.2 (by omega)
    | subs l path => exact absurd hw.2.2.2 (by omega)
  | succ fuel ih =>
    intro w ds hds hw
    cases w with
    | subs l path =>
      cases l with
      | nil =>
        refine ⟨[], render_go_subs_nil_eq cfg src fuel path, ?_, ?_, ?_⟩
        · intro p c hop
          exact absurd hop (List.not_mem_nil _)
        · intro e he
          exact absurd he (List.not_mem_nil e)
        · intro fs _ _
          constructor
          · rintro sp ⟨m, hm, _⟩
            exact absurd hm (List.not_mem_nil m)
          · intro sp _
            rfl
      | cons e0 rest =>
        obtain ⟨n, t2⟩ := e0
        rcases hw with ⟨hpath, hall, hnodup, hfuel⟩
        subst hpath
        rcases hall (n, t2) (List.mem_cons_self _ _) with
          ⟨hres2, hwt2, hpo2, hnclean⟩
        have hnotin : n ∉ rest.map Prod.fst := (List.nodup_cons.1 hnodup).1
        have hgo : sizeT.go ((n, t2) :: rest) =
            1 + sizeT t2 + sizeT.go rest := rfl
        have hdsn : ∀ m ∈ ds ++ [n], cleanNameB m = true := by
          intro m hm
          rcases List.mem_append.1 hm with h1 | h2
          · exact hds m h1
          · rw [List.mem_singleton.1 h2]
            exact hnclean
        obtain ⟨opsC, heqC, hwsC, hrC, hlookC⟩ :=
          ih (.dir t2 (pjoin (dirPathStr cfg.RECIPE_DIR ds) n)) (ds ++ [n]) hdsn
            ⟨(dirPathStr_snoc _ ds n).symm, hres2, hwt2, hpo2, by omega⟩
        obtain ⟨opsR, heqR, hwsR, hrR, hlookR⟩ :=
          ih (.subs rest (dirPathStr cfg.RECIPE_DIR ds)) ds hds
            ⟨rfl, fun e he => hall e (List.mem_cons_of_mem _ he),
             (List.nodup_cons.1 hnodup).2, by omega⟩
        have hA : segs cfg.HTML_PATH ++ (ds ++ [n]) =
            (segs cfg.HTML_PATH ++ ds) ++ [n] := (List.append_assoc _ _ _).symm
        rw [hA] at hwsC hrC hlookC
        have htrace : render_go cfg src (fuel + 1)
            (.subs ((n, t2) :: rest) (dirPathStr cfg.RECIPE_DIR ds)) =
            (opsC ++ opsR, none) := by
          rw [render_go_subs_cons_eq, heqC]
          dsimp only
          rw [heqR]
        refine ⟨opsC ++ opsR, htrace, ?_, ?_, ?_⟩
        · intro p c hop
          rcases List.mem_append.1 hop with hopC | hopR
          · rcases hwsC p c hopC with hidx | ⟨m2, _, q, hkey, _⟩
            · rw [append_cons_assoc] at hidx
              exact ⟨n, List.mem_cons_self _ _, ["index.html".toList], hidx,
                by simp⟩
            · rw [append_cons_assoc] at hkey
              exact ⟨n, List.mem_cons_self _ _, m2 :: q, hkey, by simp⟩
          · rcases hwsR p c hopR with ⟨m, hm, q, hkey, hqne⟩
            exact ⟨m, List.mem_cons_of_mem _ hm, q, hkey, hqne⟩
        · intro e he r hr
          rcases List.mem_cons.1 he with heq0 | he2
          · subst heq0
            rcases hrC r hr with ⟨hi, hp⟩
            rw [append_cons_assoc] at hi hp
            exact ⟨wLast_append_isSome_left _ _ _ hi,
              wLast_append_isSome_left _ _ _ hp⟩
          · rcases hrR e he2 r hr with ⟨hi, hp⟩
            exact ⟨wLast_append_isSome_right _ _ _ hi,
              wLast_append_isSome_right _ _ _ hp⟩
        · exact subs_step (segs cfg.HTML_PATH ++ ds) n (rest.map Prod.fst)
            hnotin opsC opsR hwsC hwsR hlookC hlookR
    | dir t path =>
      rcases hw with ⟨hpath, hres, hwt, hpo, hfuel⟩
      subst hpath
      rcases wfConfigB_spec hcfg with ⟨hrne, hrend, hhne, hhend, _⟩
      have hstart : strStarts cfg.RECIPE_DIR
          (dirPathStr cfg.RECIPE_DIR ds) = true := by
        rw [(dirPathStr_spec cfg.RECIPE_DIR hrne hrend ds hds).1]
        exact strStarts_append _ _
      rcases wfTreeB_spec hwt with ⟨hfc, _, hfnd, _, hstc, _, hsub⟩
      have hperm := pySorted_perm (fun a b => strLe a.1 b.1) t.folders
      have hsortednd :
          ((pySorted (fun a b => strLe a.1 b.1) t.folders).map Prod.fst).Nodup :=
        ((hperm.map Prod.fst).nodup_iff).2 hfnd
      obtain ⟨opsS, heqS, hwsS, hrS, hlookS⟩ :=
        ih (.subs (pySorted (fun a b => strLe a.1 b.1) t.folders)
            (dirPathStr cfg.RECIPE_DIR ds)) ds hds
          ⟨rfl,
           fun e he => by
             have hmem : e ∈ t.folders := (hperm.mem_iff).1 he
             have hmem2 : (e.1, e.2) ∈ t.folders := by
               rw [Prod.mk.eta]
               exact hmem
             exact ⟨resolveDir_snoc src ds t e.2 e.1 hres
                 (findEntry_of_mem t.folders e.1 e.2 hmem2 hfnd),
               hsub e hmem, (allParseOkB_spec hpo).2 e hmem,
               hfc e.1 (List.mem_map.2 ⟨e, hmem, rfl⟩)⟩,
           hsortednd,
           by
             have h1 := sizeT_eq t
             have h2 := sizeT_go_perm hperm
             omega⟩
      obtain ⟨opsF, heqF, hwF, hkF, hdF⟩ :=
        render_files_go_spec cfg src hcfg ds hds t hres hwt hpo
          (t.files.map Prod.fst) (fun f hf => hf)
      have hHD : segs (pjoin cfg.HTML_PATH
          (pyDropStart (cfg.RECIPE_DIR.length + 1)
            (dirPathStr cfg.RECIPE_DIR ds))) = segs cfg.HTML_PATH ++ ds :=
        segs_html_dir cfg hcfg ds hds
      have hKIs : segs (pjoin cfg.HTML_PATH
          (pyDropStart (cfg.RECIPE_DIR.length + 1)
            (dirPathStr cfg.RECIPE_DIR ds)) ++ "/index.html".toList) =
          (segs cfg.HTML_PATH ++ ds) ++ ["index.html".toList] := by
        have h1 : pjoin cfg.HTML_PATH
            (pyDropStart (cfg.RECIPE_DIR.length + 1)
              (dirPathStr cfg.RECIPE_DIR ds)) ++ "/index.html".toList =
            pjoin cfg.HTML_PATH
              (pyDropStart (cfg.RECIPE_DIR.length + 1)
                (dirPathStr cfg.RECIPE_DIR ds)) ++
              '/' :: "index.html".toList := rfl
        rw [h1, segs_append_slash, hHD,
          show segs "index.html".toList = ["index.html".toList] from by decide]
      have htrace : render_go cfg src (fuel + 1)
          (.dir t (dirPathStr cfg.RECIPE_DIR ds)) =
          ([FsOp.wipe (pjoin cfg.HTML_PATH
              (pyDropStart (cfg.RECIPE_DIR.length + 1)
                (dirPathStr cfg.RECIPE_DIR ds))),
            FsOp.write (pjoin cfg.HTML_PATH
              (pyDropStart (cfg.RECIPE_DIR.length + 1)
                (dirPathStr cfg.RECIPE_DIR ds)) ++ "/index.html".toList)
              (cfg.folder_template
                (split_path (pyDropStart (cfg.RECIPE_DIR.length + 1)
                  (dirPathStr cfg.RECIPE_DIR ds)))
                ((pySorted (fun a b => strLe a.1 b.1) t.folders).map Prod.fst)
                (pySorted strLe
                  (((t.files.map Prod.fst).filter
                      (fun f => strEnds ".cook".toList f)).map
                    (fun f => pyDropEnd 5 f))))] ++ opsS ++ opsF, none) := by
        rw [render_go_dir_eq, if_neg (not_not_intro hstart)]
        dsimp only
        rw [heqS]
        dsimp only
        rw [heqF]
      refine ⟨_, htrace, ?_, ?_, ?_⟩
      · intro p c hop
        rcases List.mem_append.1 hop with hopHS | hopF
        · rcases List.mem_append.1 hopHS with hopH | hopS
          · rcases List.mem_cons.1 hopH with heq1 | h1
            · exact FsOp.noConfusion heq1
            · rcases List.mem_cons.1 h1 with heq2 | h2
              · left
                have hp : p = pjoin cfg.HTML_PATH
                    (pyDropStart (cfg.RECIPE_DIR.length + 1)
                      (dirPathStr cfg.RECIPE_DIR ds)) ++
                      "/index.html".toList := by
                  injection heq2
                rw [hp]
                exact hKIs
              · exact absurd h2 (List.not_mem_nil _)
          · rcases hwsS p c hopS with ⟨m, hm, q, hkey, hqne⟩
            right
            refine ⟨m, ?_, q, hkey, hqne⟩
            rcases List.mem_map.1 hm with ⟨e, he, heqm⟩
            rw [← heqm]
            exact hfc e.1 (List.mem_map.2 ⟨e, (hperm.mem_iff).1 he, rfl⟩)
        · rcases hkF p c hopF with ⟨f2, hf2, hcook2, b, hkey⟩
          right
          exact ⟨pyDropEnd 5 f2, hstc f2 hf2 hcook2, [b], hkey, by simp⟩
      · intro r hr
        rcases recipesOf_mem.1 hr with ⟨f2, hf2, hcook2, heqr⟩ | ⟨e, he, r2, hr2, heqr⟩
        · subst heqr
          rcases hdF f2 hf2 hcook2 with ⟨hdi, hdp⟩
          constructor
          · simp only [List.append_nil]
            exact wLast_append_isSome_right _ _ _ hdi
          · simp only [List.append_nil]
            exact wLast_append_isSome_right _ _ _ hdp
        · subst heqr
          have hes : e ∈ pySorted (fun a b => strLe a.1 b.1) t.folders :=
            (hperm.mem_iff).2 he
          rcases hrS e hes r2 hr2 with ⟨hi, hp⟩
          exact ⟨wLast_append_isSome_left _ _ _
              (wLast_append_isSome_right _ _ _ hi),
            wLast_append_isSome_left _ _ _
              (wLast_append_isSome_right _ _ _ hp)⟩
      · exact dir_step (segs cfg.HTML_PATH ++ ds)
          ((pySorted (fun a b => strLe a.1 b.1) t.folders).map Prod.fst)
          (fun m hm => by
            rcases List.mem_map.1 hm with ⟨e, he, heqm⟩
            rw [← heqm]
            exact hfc e.1 (List.mem_map.2 ⟨e, (hperm.mem_iff).1 he, rfl⟩))
          (((t.files.map Prod.fst).filter
              (fun f => strEnds ".cook".toList f)).map (fun f => pyDropEnd 5 f))
          (fun s hs => by
            rcases List.mem_map.1 hs with ⟨f2, hf2, heqm⟩
            rw [← heqm]
            exact hstc f2 (List.mem_of_mem_filter hf2) (List.of_mem_filter hf2))
          (pjoin cfg.HTML_PATH
            (pyDropStart (cfg.RECIPE_DIR.length + 1)
              (dirPathStr cfg.RECIPE_DIR ds)))
          (pjoin cfg.HTML_PATH
            (pyDropStart (cfg.RECIPE_DIR.length + 1)
              (dirPathStr cfg.RECIPE_DIR ds)) ++ "/index.html".toList)
          (cfg.folder_template
            (split_path (pyDropStart (cfg.RECIPE_DIR.length + 1)
              (dirPathStr cfg.RECIPE_DIR ds)))
            ((pySorted (fun a b => strLe a.1 b.1) t.folders).map Prod.fst)
            (pySorted strLe
              (((t.files.map Prod.fst).filter
                  (fun f => strEnds ".cook".toList f)).map
                (fun f => pyDropEnd 5 f))))
          hHD (cfg.HTML_PATH ++ dsSuffix ds) (globArg_html_dir cfg hcfg ds hds)
          hKIs opsS hwsS hlookS opsF hwF
          (fun p c hop => by
            rcases hkF p c hop with ⟨f2, hf2, hcook2, b, hkey⟩
            exact ⟨pyDropEnd 5 f2,
              List.mem_map.2 ⟨f2, List.mem_filter.2 ⟨hf2, hcook2⟩, rfl⟩,
              b, hkey⟩)

theorem srcResolveDir_root (cfg : Config) (src : SrcTree) :
    srcResolveDir cfg src cfg.RECIPE_DIR = some src := by
  unfold srcResolveDir
  rw [if_pos (List.isPrefixOf_iff_prefix.2 (List.prefix_refl _)),
    List.drop_length]
  rfl

theorem insideD_of_clean_head {D : SPath} {c : Str} (tail : List Str)
    (hc : cleanNameB c = true) : insideD D (D ++ c :: tail) := by
  refine ⟨⟨c :: tail, rfl⟩, ?_, ?_⟩
  · intro h
    have hl := congrArg List.length h
    simp at hl
  · intro h
    exact absurd (prefix_first_comp h).symm (cleanNameB_ne_static hc)

/-- The full-rebuild facts every claim about `render_dir` at the tree
root uses: the render succeeds, and the root trace `ops` satisfies the
master invariant at the root output directory. -/
theorem render_dir_root_spec (cfg : Config) (src : SrcTree)
    (hcfg : wfConfigB cfg = true) (hwt : wfTreeB src = true)
    (hpo : allParseOkB cfg src = true) :
    ∃ ops, (∀ fs : Fs, render_dir cfg src cfg.RECIPE_DIR fs =
        (applyOps fs ops, none)) ∧
      (∀ p c, FsOp.write p c ∈ ops →
        segs p = segs cfg.HTML_PATH ++ ["index.html".toList] ∨
        ∃ n, cleanNameB n = true ∧ ∃ q,
          segs p = segs cfg.HTML_PATH ++ n :: q ∧ q ≠ []) ∧
      (∀ r ∈ recipesOf src,
        (wLast ops (segs cfg.HTML_PATH ++ r.1 ++
          [r.2, "index.html".toList])).isSome = true ∧
        (wLast ops (segs cfg.HTML_PATH ++ r.1 ++
          [r.2, "print.html".toList])).isSome = true) ∧
      (∀ fs, wellFs fs → areaOk fs (segs cfg.HTML_PATH) →
        (∀ sp, insideD (segs cfg.HTML_PATH) sp →
          fsLookup (applyOps fs ops) sp = wLast ops sp) ∧
        (∀ sp, ¬ insideD (segs cfg.HTML_PATH) sp →
          fsLookup (applyOps fs ops) sp = fsLookup fs sp)) := by
  obtain ⟨ops, heq, hws, hrec, hlook⟩ := render_go_spec cfg src hcfg
    (sizeT src + 1) (.dir src cfg.RECIPE_DIR) []
    (by intro m hm; cases hm)
    ⟨rfl, rfl, hwt, hpo, le_refl _⟩
  simp only [List.append_nil] at hws hrec hlook
  refine ⟨ops, ?_, hws, hrec, hlook⟩
  intro fs
  unfold render_dir
  rw [srcResolveDir_root]
  dsimp only
  rw [heq]

/-- C2.  Rendering the same unchanged source tree twice from the root —
identical configuration, parser, and templates — produces byte-identical
output trees: the second run returns the same filesystem contents at
every path, and both runs succeed.  The first run may start from any
output filesystem whose HTML area holds at most the shared static
assets. -/
theorem c2_rebuild_idempotent (cfg : Config) (src : SrcTree) (fs₀ : Fs)
    (hcfg : wfConfigB cfg = true) (hwt : wfTreeB src = true)
    (hpo : allParseOkB cfg src = true) (hwf : wellFs fs₀)
    (hclean : ∀ sp v, fsLookup fs₀ sp = some v → segs cfg.HTML_PATH <+: sp →
      sp = segs cfg.HTML_PATH ∨
        (segs cfg.HTML_PATH ++ ["static".toList]) <+: sp) :
    (render_dir cfg src cfg.RECIPE_DIR fs₀).2 = none ∧
    (render_dir cfg src cfg.RECIPE_DIR
      (render_dir cfg src cfg.RECIPE_DIR fs₀).1).2 = none ∧
    ∀ sp, fsLookup (render_dir cfg src cfg.RECIPE_DIR
        (render_dir cfg src cfg.RECIPE_DIR fs₀).1).1 sp =
      fsLookup (render_dir cfg src cfg.RECIPE_DIR fs₀).1 sp := by
  obtain ⟨ops, hrdir, hws, hrec, hlook⟩ :=
    render_dir_root_spec cfg src hcfg hwt hpo
  have haok0 : areaOk fs₀ (segs cfg.HTML_PATH) := by
    intro sp v hv hpre hne hst
    rcases hclean sp v hv hpre with h1 | h2
    · exact absurd h1 hne
    · exact absurd h2 hst
  obtain ⟨hin1, hout1⟩ := hlook fs₀ hwf haok0
  have hwf1 : wellFs (applyOps fs₀ ops) := wellFs_applyOps ops fs₀ hwf
  have hnochild : ∀ n : Str, cleanNameB n = true →
      wLast ops (segs cfg.HTML_PATH ++ [n]) = none := by
    intro n hnc
    refine wLast_none_of_no_write ops _ ?_
    intro p c hop heq
    rcases hws p c hop with hidx | ⟨n2, _, q, hkeyn, hqne⟩
    · rw [heq] at hidx
      have h2 := List.append_cancel_left hidx
      have h3 : n = "index.html".toList := by injection h2
      exact absurd h3 (cleanNameB_ne_index hnc)
    · rw [heq] at hkeyn
      have h2 := List.append_cancel_left hkeyn
      have h3 : q = [] := by
        injection h2 with h5 h6
        exact h6.symm
      exact hqne h3
  have haok1 : areaOk (applyOps fs₀ ops) (segs cfg.HTML_PATH) := by
    intro sp v hv hpre hne hst
    have hins : insideD (segs cfg.HTML_PATH) sp := ⟨hpre, hne, hst⟩
    rw [hin1 sp hins] at hv
    rcases wLast_eq_some_write ops sp v hv with ⟨p, hop, hkey⟩
    rcases hws p v hop with hidx | ⟨n, hnc, q, hkeyn, hqne⟩
    · left
      rw [← hkey, hidx]
    · right
      refine ⟨n, q, by rw [← hkey, hkeyn], hqne, cleanNameB_ne_index hnc,
        cleanNameB_not_hidden hnc, ?_⟩
      rw [isFileIn_eq_lookup_isSome,
        hin1 _ (insideD_of_clean_head [] hnc), hnochild n hnc]
      rfl
  obtain ⟨hin2, hout2⟩ := hlook (applyOps fs₀ ops) hwf1 haok1
  rw [hrdir fs₀]
  refine ⟨rfl, ?_, ?_⟩
  · rw [hrdir (applyOps fs₀ ops)]
  · intro sp
    rw [hrdir (applyOps fs₀ ops)]
    by_cases hins : insideD (segs cfg.HTML_PATH) sp
    · rw [hin2 sp hins, hin1 sp hins]
    · rw [hout2 sp hins]

/-- A concrete configuration and source tree for the closed witnesses:
two recipes, one of them inside a subfolder. -/
def cfgW : Config :=
  { RECIPE_DIR := "/r".toList, HTML_PATH := "/h".toList,
    parse := fun _ => .ok ⟨[], [], []⟩,
    folder_template := fun _ _ _ => "F".toList,
    recipe_template := fun _ => "R".toList }

def srcW : SrcTree :=
  .node [("d".toList, .node [] [("a.cook".toList, "X".toList)])]
    [("b.cook".toList, "Y".toList)]

/-- Witness for C2 on a concrete two-level cookbook rendered from an
empty output filesystem. -/
theorem c2_rebuild_idempotent_witness :
    wfConfigB cfgW = true ∧ wfTreeB srcW = true ∧
    allParseOkB cfgW srcW = true ∧ wellFs [] ∧
    ((render_dir cfgW srcW cfgW.RECIPE_DIR []).2 = none ∧
    (render_dir cfgW srcW cfgW.RECIPE_DIR
      (render_dir cfgW srcW cfgW.RECIPE_DIR []).1).2 = none ∧
    ∀ sp, fsLookup (render_dir cfgW srcW cfgW.RECIPE_DIR
        (render_dir cfgW srcW cfgW.RECIPE_DIR []).1).1 sp =
      fsLookup (render_dir cfgW srcW cfgW.RECIPE_DIR []).1 sp) :=
  ⟨by decide, by decide, by decide, by decide,
    c2_rebuild_idempotent cfgW srcW [] (by decide) (by decide) (by decide)
      (by decide) (fun sp v hv _ => Option.noConfusion hv)⟩

/-- A source tree whose second folder name holds a glob bracket class
that matches its sibling's name. -/
def srcM : SrcTree :=
  .node [("X1".toList, .node [] [("a.cook".toList, "A".toList)]),
      ("X[12]".toList, .node [] [])]
    []

/-- C7 counterexample.  The completeness claim fails when a source
folder name contains glob metacharacters: with sibling folders `X1`
(holding recipe `a.cook`) and `X[12]`, the full rebuild from an empty
output tree succeeds, yet the recipe `X1/a` has no index page in the
output.  `X1` is rendered first; rendering `X[12]` then evaluates
`glob.glob(html_dir + "/*")` whose dirname `/h/X[12]` is itself a glob
pattern whose bracket class matches `/h/X1`, so the wipe `rmtree`s the
already-rendered recipe directory `/h/X1/a`. -/
theorem c7_counterexample :
    ((["X1".toList] : List Str), "a".toList) ∈ recipesOf srcM ∧
    (render_dir cfgW srcM cfgW.RECIPE_DIR []).2 = none ∧
    fsLookup (render_dir cfgW srcM cfgW.RECIPE_DIR []).1
      (segs cfgW.HTML_PATH ++ ["X1".toList] ++
        ["a".toList, "index.html".toList]) = none := by
  decide

/-- C7 (amended).  For glob-plain source names — no `*`, `?` or `[` and
not dot-initial, which `wfTreeB` requires of every folder and stem via
`cleanNameB` — a full rebuild from the tree root gives every recipe
file under the source root its own output directory — the recipe's
path with the `.cook` extension stripped — containing an index page
(`index.html`) and a print page (`print.html`); and the correspondence
is one-to-one: distinct recipes have distinct output directories.
Without the glob-plain qualification the claim is false
(`c7_counterexample`). -/
theorem c7_every_recipe_rendered (cfg : Config) (src : SrcTree) (fs₀ : Fs)
    (hcfg : wfConfigB cfg = true) (hwt : wfTreeB src = true)
    (hpo : allParseOkB cfg src = true) (hwf : wellFs fs₀)
    (hclean : ∀ sp v, fsLookup fs₀ sp = some v → segs cfg.HTML_PATH <+: sp →
      sp = segs cfg.HTML_PATH ∨
        (segs cfg.HTML_PATH ++ ["static".toList]) <+: sp) :
    (∀ r ∈ recipesOf src,
      (fsLookup (render_dir cfg src cfg.RECIPE_DIR fs₀).1
        (segs cfg.HTML_PATH ++ r.1 ++
          [r.2, "index.html".toList])).isSome = true ∧
      (fsLookup (render_dir cfg src cfg.RECIPE_DIR fs₀).1
        (segs cfg.HTML_PATH ++ r.1 ++
          [r.2, "print.html".toList])).isSome = true) ∧
    (∀ r1 ∈ recipesOf src, ∀ r2 ∈ recipesOf src,
      segs cfg.HTML_PATH ++ r1.1 ++ [r1.2] =
        segs cfg.HTML_PATH ++ r2.1 ++ [r2.2] → r1 = r2) := by
  obtain ⟨ops, hrdir, hws, hrec, hlook⟩ :=
    render_dir_root_spec cfg src hcfg hwt hpo
  have haok0 : areaOk fs₀ (segs cfg.HTML_PATH) := by
    intro sp v hv hpre hne hst
    rcases hclean sp v hv hpre with h1 | h2
    · exact absurd h1 hne
    · exact absurd h2 hst
  obtain ⟨hin1, hout1⟩ := hlook fs₀ hwf haok0
  constructor
  · intro r hr
    rcases recipesOf_clean hwt r hr with ⟨hq, hs⟩
    have hkey : ∀ b : Str, insideD (segs cfg.HTML_PATH)
        (segs cfg.HTML_PATH ++ r.1 ++ [r.2, b]) := by
      intro b
      cases hr1 : r.1 with
      | nil =>
        have h2 : segs cfg.HTML_PATH ++ ([] : List Str) ++ [r.2, b] =
            segs cfg.HTML_PATH ++ r.2 :: [b] := by simp
        rw [h2]
        exact insideD_of_clean_head [b] hs
      | cons c rest =>
        have h2 : segs cfg.HTML_PATH ++ (c :: rest) ++ [r.2, b] =
            segs cfg.HTML_PATH ++ c :: (rest ++ [r.2, b]) := by simp
        rw [h2]
        refine insideD_of_clean_head _ (hq c ?_)
        rw [hr1]
        exact List.mem_cons_self c rest
    rcases hrec r hr with ⟨hi, hp⟩
    constructor
    · rw [hrdir fs₀, hin1 _ (hkey "index.html".toList)]
      exact hi
    · rw [hrdir fs₀, hin1 _ (hkey "print.html".toList)]
      exact hp
  · intro r1 hr1 r2 hr2 heq
    obtain ⟨q1, s1⟩ := r1
    obtain ⟨q2, s2⟩ := r2
    have h1 : q1 ++ [s1] = q2 ++ [s2] := by
      rw [List.append_assoc, List.append_assoc] at heq
      exact List.append_cancel_left heq
    have h3 := congrArg List.reverse h1
    rw [List.reverse_append, List.reverse_append] at h3
    simp only [List.reverse_cons, List.reverse_nil, List.nil_append,
      List.singleton_append] at h3
    injection h3 with h4 h5
    have h6 : q1 = q2 := by
      have h7 := congrArg List.reverse h5
      simpa using h7
    rw [h4, h6]

/-- Witness for C7 on the concrete two-level cookbook: both recipes
(`/r/b.cook` and `/r/d/a.cook`) get their index and print pages. -/
theorem c7_every_recipe_rendered_witness :
    wfConfigB cfgW = true ∧ wfTreeB srcW = true ∧
    allParseOkB cfgW srcW = true ∧ wellFs [] ∧
    ((∀ r ∈ recipesOf srcW,
      (fsLookup (render_dir cfgW srcW cfgW.RECIPE_DIR []).1
        (segs cfgW.HTML_PATH ++ r.1 ++
          [r.2, "index.html".toList])).isSome = true ∧
      (fsLookup (render_dir cfgW srcW cfgW.RECIPE_DIR []).1
        (segs cfgW.HTML_PATH ++ r.1 ++
          [r.2, "print.html".toList])).isSome = true) ∧
    (∀ r1 ∈ recipesOf srcW, ∀ r2 ∈ recipesOf srcW,
      segs cfgW.HTML_PATH ++ r1.1 ++ [r1.2] =
        segs cfgW.HTML_PATH ++ r2.1 ++ [r2.2] → r1 = r2)) :=
  ⟨by decide, by decide, by decide, by decide,
    c7_every_recipe_rendered cfgW srcW [] (by decide) (by decide) (by decide)
      (by decide) (fun sp v hv _ => Option.noConfusion hv)⟩

end Cookbook
